import Mathlib

/-!
# myContext: cancellation trees

A shallow embedding of `context.go` and `context_util.go`.

* A `*cancelCtx` / `*timerCtx` pointer is an address into `State.cells`; the
  embedded parent `Context`, which the constructors write once and nothing
  assigns afterwards, travels with the reference, and so does the `deadLine`
  of a `timerCtx`.
* A `timerCtx` owns exactly one `cancelCtx` (built by `newCancelCtx` inside
  `WithDeadline`), so both objects share one cell: the cell holds the three
  mutable `cancelCtx` fields and the two mutable `timerCtx` fields.
* The functions are those of one goroutine: a call runs to completion. The
  mutexes appear in the section *Lock traces*, and the section *Goroutines*
  runs the calls of several goroutines interleaved at their locked sections.
* `cancel` recurses through the children registries, which live in the heap;
  the recursion depth is bounded by a fuel argument (`cancel_returns` shows
  that the bound is never met on a well-formed heap).
* A children registry is a Go map: it holds a key once and is ranged over in
  no fixed order. It is a list here, ranged over in list order; `delete`
  removes every occurrence and the store appends a key that is absent.
-/

namespace myContext

/-- Values of Go type `interface{}`, in the kinds that `==` treats
differently: `nil`; a value of a comparable dynamic type on which `==` is the
identity of values (`val`, the number standing for the type and the value); a
floating-point NaN, whose type is comparable but which `==` nothing, itself
included; and a value of a dynamic type that is not comparable (a slice, a
map, a func), with a number for its type. -/
inductive Any
| nil
| val (n : Nat)
| nan
| uncomparable (ty : Nat) (n : Nat)
deriving DecidableEq, Repr

/-- The outcome of the operator `==` on two interface values; `none` is the
run-time panic of Go ("comparing uncomparable type"). `Value` is defined for
any such operator, so that nothing depends on how the dynamic types of the
keys compare. -/
abbrev Comparison := Any → Any → Option Bool

/-- The operator `==` on the values of `Any`: it panics when both operands
have the same dynamic type and this type is not comparable; operands of
different dynamic types are unequal without a panic. -/
def Any.equal : Comparison
| Any.nil, Any.nil => some true
| Any.val a, Any.val b => some (decide (a = b))
| Any.uncomparable t _, Any.uncomparable u _ => if t = u then none else some false
| _, _ => some false

/-- Timestamps (`time.Time`), totally ordered; `0` is the zero time. -/
abbrev Time := Int

/-- Non-nil values of Go type `error`. -/
inductive error
| canceledMsg
| timedOutMsg
| other (n : Nat)
deriving DecidableEq, Repr

/-- The package variable `canceled`. -/
def canceled : error := error.canceledMsg

/-- The package variable `timeOutErr`. -/
def timeOutErr : error := error.timedOutMsg

/-- Values of type `chan struct{}` as stored in `cancelCtx.done`: the nil
channel, the shared pre-closed `closedChan`, or a channel of its own built by
`make`, which is open or closed. -/
inductive Chan
| nil
| closedChan
| made (closed : Bool)
deriving DecidableEq, Repr

/-- Whether a receive on the channel succeeds at once. -/
def Chan.isClosed : Chan → Bool
| Chan.nil => false
| Chan.closedChan => true
| Chan.made b => b

/-- The builtin `close`: fails (run-time panic) on a nil or closed channel. -/
def Chan.close : Chan → Option Chan
| Chan.made false => some (Chan.made true)
| _ => none

/-- Values of the interface `Context` built by this package. -/
inductive Context
| empty
| cancelCtx (parent : Context) (p : Nat)
| valueCtx (parent : Context) (key : Any) (value : Any)
| timerCtx (parent : Context) (p : Nat) (deadLine : Time)
deriving DecidableEq, Repr

/-- Values of the interface `canceler`: only `*cancelCtx` and `*timerCtx`
have a `cancel` method. -/
inductive canceler
| cancelCtx (parent : Context) (p : Nat)
| timerCtx (parent : Context) (p : Nat) (deadLine : Time)
deriving DecidableEq, Repr

/-- The same pointer seen as a `Context`. -/
def canceler.toContext : canceler → Context
| canceler.cancelCtx parent p => Context.cancelCtx parent p
| canceler.timerCtx parent p d => Context.timerCtx parent p d

/-- Address of the `cancelCtx` object of a canceler. -/
def canceler.addr : canceler → Nat
| canceler.cancelCtx _ p => p
| canceler.timerCtx _ p _ => p

/-- The embedded parent (`c.Context`, `t.cancelCtx.Context`). -/
def canceler.parent : canceler → Context
| canceler.cancelCtx parent _ => parent
| canceler.timerCtx parent _ _ => parent

/-- One heap object: the fields `children`, `done`, `err` of a `cancelCtx`
and, when the object is the one embedded in a `timerCtx`, that `timerCtx`'s
own field `err` (here `timerErr`; it shadows the promoted `cancelCtx.err`)
and its `Timer` (the duration the pending timer was armed with). -/
structure Cell where
  children : Option (List canceler)
  done : Chan
  err : Option error
  timerErr : Option error
  Timer : Option Int
deriving DecidableEq, Repr

instance : Inhabited Cell := ⟨⟨none, Chan.nil, none, none, none⟩⟩

/-- The heap, and the monitor goroutines started by `propagateCancel`. -/
structure State where
  cells : List Cell
  monitors : List (Context × canceler)
deriving DecidableEq, Repr

/-- What stops a call without a result: a Go panic, or the recursion bound of
the model. -/
inductive Fault
| panic
| fuel
deriving DecidableEq, Repr

instance {α : Type} [DecidableEq α] : DecidableEq (Except Fault α) := fun a b =>
  match a, b with
  | Except.ok x, Except.ok y => if h : x = y then isTrue (by rw [h]) else isFalse (by simpa using h)
  | Except.error x, Except.error y =>
    if h : x = y then isTrue (by rw [h]) else isFalse (by simpa using h)
  | Except.ok _, Except.error _ => isFalse (by simp)
  | Except.error _, Except.ok _ => isFalse (by simp)

/-- Dereference. -/
def State.cell (s : State) (p : Nat) : Cell := s.cells.getD p default

/-- Store to an allocated object. -/
def State.put (s : State) (p : Nat) (c : Cell) : State :=
  { s with cells := s.cells.set p c }

/-- Allocate a zero-valued object; its address is the old heap size. -/
def State.alloc (s : State) : State :=
  { s with cells := s.cells ++ [default] }

/-- The singleton `bg` returned by `Background()`. -/
def Background : Context := Context.empty

/-- `Deadline()`: own method of `timerCtx`, promoted from the parent in
`cancelCtx` and `valueCtx`, zero values for `empty`. -/
def Context.Deadline : Context → Time × Bool
| Context.empty => (0, false)
| Context.cancelCtx parent _ => parent.Deadline
| Context.valueCtx parent _ _ => parent.Deadline
| Context.timerCtx _ _ d => (d, true)

/-- `Value(key)`: own method of `valueCtx`, promoted from the parent in
`cancelCtx` and `timerCtx`, nil for `empty`. The test `c.key == key` of
`(*valueCtx).Value` is the operator `eq` on interface values, which can
panic. -/
def Context.Value (eq : Comparison) : Context → Any → Except Fault Any
| Context.empty, _ => Except.ok Any.nil
| Context.cancelCtx parent _, key => Context.Value eq parent key
| Context.valueCtx parent k v, key =>
  match eq k key with
  | none => Except.error Fault.panic
  | some true => Except.ok v
  | some false => Context.Value eq parent key
| Context.timerCtx parent _ _, key => Context.Value eq parent key

/-- `(*cancelCtx).Err`. -/
def cancelCtx.Err (s : State) (p : Nat) : Option error := (s.cell p).err

/-- `Err()`: own method of `cancelCtx` (promoted in `timerCtx`), promoted
from the parent in `valueCtx`, nil for `empty`. -/
def Context.Err (s : State) : Context → Option error
| Context.empty => none
| Context.cancelCtx _ p => cancelCtx.Err s p
| Context.valueCtx parent _ _ => parent.Err s
| Context.timerCtx _ p _ => cancelCtx.Err s p

/-- `(*cancelCtx).Done`: builds the channel on first use. -/
def cancelCtx.Done (s : State) (p : Nat) : State × Chan :=
  if (s.cell p).done = Chan.nil then
    (s.put p { s.cell p with done := Chan.made false }, Chan.made false)
  else (s, (s.cell p).done)

/-- `Done()` through the interface. -/
def Context.Done (s : State) : Context → State × Chan
| Context.empty => (s, Chan.nil)
| Context.cancelCtx _ p => cancelCtx.Done s p
| Context.valueCtx parent _ _ => parent.Done s
| Context.timerCtx _ p _ => cancelCtx.Done s p

/-- `parentCancelCtx`: the loop climbs through `valueCtx` nodes. -/
def parentCancelCtx : Context → Option Nat
| Context.cancelCtx _ p => some p
| Context.valueCtx parent _ _ => parentCancelCtx parent
| Context.timerCtx _ p _ => some p
| Context.empty => none

/-- `removeChild`: `delete` on the registry of the nearest `cancelCtx`. -/
def removeChild (s : State) (parent : Context) (child : canceler) : State :=
  match parentCancelCtx parent with
  | none => s
  | some p =>
    match (s.cell p).children with
    | none => s
    | some m => s.put p { s.cell p with children := some (m.filter (fun x => x ≠ child)) }

/-- The loop `for child := range c.children { child.cancel(false, err) }`. -/
def fanOut (sub : State → canceler → Option error → Except Fault State) :
    List canceler → State → Option error → Except Fault State
| [], s, _ => Except.ok s
| child :: rest, s, err =>
  match sub s child err with
  | Except.error f => Except.error f
  | Except.ok s1 => fanOut sub rest s1 err

/-- `(*cancelCtx).cancel`; `sub` is the dynamic call `child.cancel(false, err)`. -/
def cancelCtx.cancel (sub : State → canceler → Option error → Except Fault State)
    (s : State) (parent : Context) (p : Nat) (removeFromParent : Bool)
    (err : Option error) : Except Fault State :=
  match err with
  | none => Except.error Fault.panic
  | some e =>
    if (s.cell p).err ≠ none then Except.ok s
    else
      let s1 := s.put p { s.cell p with err := some e }
      let closed : Option Chan :=
        if (s1.cell p).done = Chan.nil then some Chan.closedChan else (s1.cell p).done.close
      match closed with
      | none => Except.error Fault.panic
      | some ch =>
        let s2 := s1.put p { s1.cell p with done := ch }
        match fanOut sub ((s2.cell p).children.getD []) s2 (some e) with
        | Except.error f => Except.error f
        | Except.ok s3 =>
          let s4 := s3.put p { s3.cell p with children := none }
          Except.ok (if removeFromParent then
            removeChild s4 parent (canceler.cancelCtx parent p) else s4)

/-- The last step of `(*timerCtx).cancel`:
`if t.Timer != nil { t.Timer.Stop(); t.Timer = nil }`. -/
def timerCtx.stopTimer (s : State) (p : Nat) : State :=
  if (s.cell p).Timer ≠ none then s.put p { s.cell p with Timer := none } else s

/-- `(*timerCtx).cancel`. -/
def timerCtx.cancel (sub : State → canceler → Option error → Except Fault State)
    (s : State) (parent : Context) (p : Nat) (deadLine : Time) (removeFromParent : Bool)
    (err : Option error) : Except Fault State :=
  match cancelCtx.cancel sub s parent p false err with
  | Except.error f => Except.error f
  | Except.ok s1 =>
    let s2 := if removeFromParent then
      removeChild s1 parent (canceler.timerCtx parent p deadLine) else s1
    Except.ok (timerCtx.stopTimer s2 p)

/-- The method `cancel` through the interface `canceler`, with at most `fuel`
nested calls. -/
def cancelAux : Nat → State → canceler → Bool → Option error → Except Fault State
| 0, _, _, _, _ => Except.error Fault.fuel
| n + 1, s, canceler.cancelCtx parent p, removeFromParent, err =>
  cancelCtx.cancel (fun s1 c e => cancelAux n s1 c false e) s parent p removeFromParent err
| n + 1, s, canceler.timerCtx parent p d, removeFromParent, err =>
  timerCtx.cancel (fun s1 c e => cancelAux n s1 c false e) s parent p d removeFromParent err

/-- The method `cancel`; a nest of calls is never deeper than the heap is
large (see `cancel_returns`). -/
def canceler.cancel (s : State) (c : canceler) (removeFromParent : Bool)
    (err : Option error) : Except Fault State :=
  cancelAux (s.cells.length + 1) s c removeFromParent err

/-- The map store `m[child] = struct{}{}`: a key is held once. -/
def mapInsert (m : List canceler) (child : canceler) : List canceler :=
  if child ∈ m then m else m ++ [child]

/-- `propagateCancel`. -/
def propagateCancel (s : State) (parent : Context) (child : canceler) : Except Fault State :=
  let r := parent.Done s
  if r.2 = Chan.nil then Except.ok r.1
  else
    match parentCancelCtx parent with
    | some p =>
      if (r.1.cell p).err ≠ none then child.cancel r.1 false (r.1.cell p).err
      else
        let m := (r.1.cell p).children.getD []
        Except.ok (r.1.put p { r.1.cell p with children := some (mapInsert m child) })
    | none => Except.ok { r.1 with monitors := r.1.monitors ++ [(parent, child)] }

/-- The closures returned by `WithCancel` and `WithDeadline`:
`func() { ctx.cancel(removeFromParent, canceled) }`. -/
structure CancelFunc where
  ctx : canceler
  removeFromParent : Bool
deriving DecidableEq, Repr

/-- Calling the closure. -/
def CancelFunc.call (f : CancelFunc) (s : State) : Except Fault State :=
  f.ctx.cancel s f.removeFromParent (some canceled)

/-- `newCancelCtx`: a fresh object with zero-valued fields. -/
def newCancelCtx (s : State) (parent : Context) : State × canceler :=
  (s.alloc, canceler.cancelCtx parent s.cells.length)

/-- `WithCancel`. -/
def WithCancel (s : State) (parent : Context) : Except Fault (State × Context × CancelFunc) :=
  let r := newCancelCtx s parent
  match propagateCancel r.1 parent r.2 with
  | Except.error f => Except.error f
  | Except.ok s1 => Except.ok (s1, r.2.toContext, ⟨r.2, true⟩)

/-- `WithValue`. -/
def WithValue (parent : Context) (key value : Any) : Except Fault Context :=
  if key = Any.nil then Except.error Fault.panic
  else Except.ok (Context.valueCtx parent key value)

/-- `WithDeadline`; `now` is the clock read by `time.Until`. -/
def WithDeadline (s : State) (now : Time) (parent : Context) (deadline : Time) :
    Except Fault (State × Context × CancelFunc) :=
  if parent.Deadline.2 = true ∧ parent.Deadline.1 < deadline then WithCancel s parent
  else
    let p := s.cells.length
    let ctx := canceler.timerCtx parent p deadline
    match propagateCancel s.alloc parent ctx with
    | Except.error f => Except.error f
    | Except.ok s1 =>
      let dur := deadline - now
      if dur ≤ 0 then
        match ctx.cancel s1 true (some timeOutErr) with
        | Except.error f => Except.error f
        | Except.ok s2 => Except.ok (s2, ctx.toContext, ⟨ctx, false⟩)
      else
        let s2 := if (s1.cell p).timerErr = none then
          s1.put p { s1.cell p with Timer := some dur } else s1
        Except.ok (s2, ctx.toContext, ⟨ctx, true⟩)

/-- `WithTimeOut`. -/
def WithTimeOut (s : State) (now : Time) (parent : Context) (duration : Int) :
    Except Fault (State × Context × CancelFunc) :=
  WithDeadline s now parent (now + duration)

/-- The function handed to `time.AfterFunc`: `ctx.cancel(true, timeOutErr)`. -/
def timerFire (s : State) (ctx : canceler) : Except Fault State :=
  ctx.cancel s true (some timeOutErr)

/-! ## Specification vocabulary -/

/-- The three `cancelCtx` fields of object `q` are the same in both states. -/
def Kept (s s' : State) (q : Nat) : Prop :=
  (s'.cell q).err = (s.cell q).err ∧ (s'.cell q).done = (s.cell q).done ∧
  (s'.cell q).children = (s.cell q).children

/-- Object `q` went from uncancelled to cancelled with reason `e`: its signal
was closed, its registry released, every child it had registered is cancelled
too, and it was reached either as one of `roots` or through the registry of
another object cancelled on the way. -/
def Hit (e : error) (roots : Nat → Prop) (s s' : State) (q : Nat) : Prop :=
  (s.cell q).err = none ∧ (s'.cell q).err = some e ∧
  (((s.cell q).done = Chan.nil ∧ (s'.cell q).done = Chan.closedChan) ∨
    ((s.cell q).done = Chan.made false ∧ (s'.cell q).done = Chan.made true)) ∧
  (s'.cell q).children = none ∧
  (∀ x ∈ (s.cell q).children.getD [], x.addr < s.cells.length →
    (s'.cell x.addr).err ≠ none) ∧
  (roots q ∨ ∃ p x, (s.cell p).err = none ∧ (s'.cell p).err ≠ none ∧
    x ∈ (s.cell p).children.getD [] ∧ x.addr = q)

/-- What a nest of `cancel(false, e)` calls started at `roots` does to the
heap. -/
structure Spread (e : error) (roots : Nat → Prop) (s s' : State) : Prop where
  length : s'.cells.length = s.cells.length
  monitors : s'.monitors = s.monitors
  timerErr : ∀ q, (s'.cell q).timerErr = (s.cell q).timerErr
  timer : ∀ q, (s'.cell q).Timer = (s.cell q).Timer ∨ (s'.cell q).Timer = none
  cells : ∀ q, Kept s s' q ∨ Hit e roots s s' q

/-- No `close` can panic: an uncancelled object has a nil or an open signal. -/
def OpenSignals (s : State) : Prop :=
  ∀ q, (s.cell q).err = none →
    (s.cell q).done = Chan.nil ∨ (s.cell q).done = Chan.made false

/-- Registries point down the heap: a registered child was allocated after
the object that registers it. -/
def Downward (s : State) : Prop :=
  ∀ q, ∀ x ∈ (s.cell q).children.getD [], q < x.addr

/-- What `cancel` does after the locked section of `(*cancelCtx).cancel`, as
a function of the state `s1` at the unlock and of the node's error `was` at
entry: detach from the parent when asked to (a `cancelCtx` that was already
cancelled has returned before), and for a `timerCtx` stop the timer. -/
def canceler.finish (c : canceler) (removeFromParent : Bool) (was : Option error)
    (s1 : State) : State :=
  match c with
  | canceler.cancelCtx parent p =>
    if removeFromParent = true ∧ was = none then
      removeChild s1 parent (canceler.cancelCtx parent p) else s1
  | canceler.timerCtx parent p d =>
    timerCtx.stopTimer
      (if removeFromParent = true then removeChild s1 parent (canceler.timerCtx parent p d)
        else s1) p

/-- Every object on the chain from the context to the root is allocated
below `b`, and the addresses decrease towards the root: a node is allocated
after its ancestors. -/
def Context.Below : Nat → Context → Prop
| _, Context.empty => True
| b, Context.cancelCtx parent p => p < b ∧ parent.Below p
| b, Context.valueCtx parent _ _ => parent.Below b
| b, Context.timerCtx parent p _ => p < b ∧ parent.Below p

/-- A run of a client program: the heap, the contexts handed out so far and
the cancel functions handed out so far. -/
structure World where
  st : State
  ctxs : List Context
  funcs : List CancelFunc

/-- The worlds a client can reach through the public operations on the
contexts of this package: `Background`, `WithCancel`, `WithValue`,
`WithDeadline` (hence `WithTimeOut`), calling a returned cancel function,
a pending timer firing, and `Done()`. The other methods do not write. The
clock value read by `WithDeadline` is free at every call, and a pending timer
may fire at any step. Every call runs to its end before the next step; the
calls interleave in `Interleaved`, of which these worlds are the pools with no
call in progress (`Reachable.interleaved`). -/
inductive Reachable : World → Prop
| init : Reachable ⟨⟨[], []⟩, [Background], []⟩
| withCancel {w : World} (parent : Context) {s' : State} {ctx : Context} {f : CancelFunc} :
    Reachable w → parent ∈ w.ctxs → WithCancel w.st parent = Except.ok (s', ctx, f) →
    Reachable ⟨s', ctx :: w.ctxs, f :: w.funcs⟩
| withValue {w : World} (parent : Context) (key value : Any) {ctx : Context} :
    Reachable w → parent ∈ w.ctxs → WithValue parent key value = Except.ok ctx →
    Reachable ⟨w.st, ctx :: w.ctxs, w.funcs⟩
| withDeadline {w : World} (now : Time) (parent : Context) (deadline : Time) {s' : State}
    {ctx : Context} {f : CancelFunc} :
    Reachable w → parent ∈ w.ctxs →
    WithDeadline w.st now parent deadline = Except.ok (s', ctx, f) →
    Reachable ⟨s', ctx :: w.ctxs, f :: w.funcs⟩
| call {w : World} {f : CancelFunc} {s' : State} :
    Reachable w → f ∈ w.funcs → f.call w.st = Except.ok s' →
    Reachable ⟨s', w.ctxs, w.funcs⟩
| fire {w : World} {parent : Context} {p : Nat} {d : Time} {s' : State} :
    Reachable w → Context.timerCtx parent p d ∈ w.ctxs → (w.st.cell p).Timer ≠ none →
    timerFire w.st (canceler.timerCtx parent p d) = Except.ok s' →
    Reachable ⟨s', w.ctxs, w.funcs⟩
| done {w : World} {c : Context} :
    Reachable w → c ∈ w.ctxs → Reachable ⟨(c.Done w.st).1, w.ctxs, w.funcs⟩

/-- The invariant of the reachable worlds. -/
structure Inv (w : World) : Prop where
  below : ∀ c ∈ w.ctxs, c.Below w.st.cells.length
  unique : ∀ c1 c2 : canceler, c1.toContext ∈ w.ctxs → c2.toContext ∈ w.ctxs →
    c1.addr = c2.addr → c1 = c2
  registered : ∀ q, ∀ x ∈ (w.st.cell q).children.getD [],
    x.toContext ∈ w.ctxs ∧ parentCancelCtx x.parent = some q ∧ (w.st.cell x.addr).err = none
  funcs : ∀ f ∈ w.funcs, f.ctx.toContext ∈ w.ctxs ∧
    (f.removeFromParent = false → (w.st.cell f.ctx.addr).err ≠ none)
  signalOpen : OpenSignals w.st
  signalClosed : ∀ q, (w.st.cell q).err ≠ none → (w.st.cell q).done.isClosed = true
  released : ∀ q, (w.st.cell q).err ≠ none → (w.st.cell q).children = none
  monitors : w.st.monitors = []
  timerErr : ∀ q, (w.st.cell q).timerErr = none

/-- Canceler `d` is registered below object `p`: in the children registry of
`p`, or in the registry of a canceler that is itself registered below `p`. -/
inductive Registered (s : State) : Nat → canceler → Prop
| direct {p : Nat} {d : canceler} :
    d ∈ (s.cell p).children.getD [] → Registered s p d
| step {p : Nat} {x d : canceler} :
    x ∈ (s.cell p).children.getD [] → Registered s x.addr d → Registered s p d

/-- The channel `Done()` hands out (the state it leaves is `(c.Done s).1`). -/
def Context.signal (s : State) (c : Context) : Chan := (c.Done s).2

/-- The world of `TestWithCancel` before `cancel()`:
`parent, cancel := WithCancel(Background()); context, _ := WithCancel(parent)`. -/
def testWithCancel : World :=
  ⟨⟨[⟨some [canceler.cancelCtx (Context.cancelCtx Context.empty 0) 1], Chan.made false, none,
        none, none⟩,
      ⟨none, Chan.nil, none, none, none⟩], []⟩,
    [Context.cancelCtx (Context.cancelCtx Context.empty 0) 1, Context.cancelCtx Context.empty 0,
      Context.empty],
    [⟨canceler.cancelCtx (Context.cancelCtx Context.empty 0) 1, true⟩,
      ⟨canceler.cancelCtx Context.empty 0, true⟩]⟩

/-- Whether the canceler is a `*timerCtx`. -/
def canceler.isTimer : canceler → Bool
| canceler.cancelCtx _ _ => false
| canceler.timerCtx _ _ _ => true

/-- The world after `parent, _ := WithCancel(Background())` and
`WithDeadline(parent, 10)` called at time `0`. -/
def timerUnderCancel : World :=
  ⟨⟨[⟨some [canceler.timerCtx (Context.cancelCtx Context.empty 0) 1 10], Chan.made false, none,
        none, none⟩,
      ⟨none, Chan.nil, none, none, some 10⟩], []⟩,
    [Context.timerCtx (Context.cancelCtx Context.empty 0) 1 10, Context.cancelCtx Context.empty 0,
      Context.empty],
    [⟨canceler.timerCtx (Context.cancelCtx Context.empty 0) 1 10, true⟩,
      ⟨canceler.cancelCtx Context.empty 0, true⟩]⟩

/-- The context and its ancestors, nearest first, down to the root. -/
def Context.chain : Context → List Context
| Context.empty => [Context.empty]
| Context.cancelCtx parent p => Context.cancelCtx parent p :: parent.chain
| Context.valueCtx parent k v => Context.valueCtx parent k v :: parent.chain
| Context.timerCtx parent p d => Context.timerCtx parent p d :: parent.chain

/-- The state of the done-signal of a context: the `done` field that its
`Done()` reads (nil while not built, then open, then closed); a `valueCtx`
has the signal of its parent and the root has none. -/
def Context.doneField (s : State) : Context → Chan
| Context.empty => Chan.nil
| Context.cancelCtx _ p => (s.cell p).done
| Context.valueCtx parent _ _ => parent.doneField s
| Context.timerCtx _ p _ => (s.cell p).done

/-- The key/value pairs carried by the `valueCtx` nodes on the chain from the
context to the root, nearest first; the other nodes carry none. -/
def Context.bindings : Context → List (Any × Any)
| Context.empty => []
| Context.cancelCtx parent _ => parent.bindings
| Context.valueCtx parent k v => (k, v) :: parent.bindings
| Context.timerCtx parent _ _ => parent.bindings

/-- The lookup as the specification words it: the value of the nearest
value-carrying node whose key equals `k` (by the operator `eq`), nil when
there is none. -/
def Context.nearestValue (eq : Comparison) (c : Context) (k : Any) : Any :=
  match c.bindings.find? (fun kv => decide (eq kv.1 k = some true)) with
  | some kv => kv.2
  | none => Any.nil

/-- The world after `parent, cancel := WithCancel(Background()); cancel()`. -/
def cancelledParent : World :=
  ⟨⟨[⟨none, Chan.closedChan, some canceled, none, none⟩], []⟩,
    [Context.cancelCtx Context.empty 0, Context.empty],
    [⟨canceler.cancelCtx Context.empty 0, true⟩]⟩

/-- The world after `WithDeadline(Background(), 10)` called at time `0`. -/
def deadlineRoot : World :=
  ⟨⟨[⟨none, Chan.nil, none, none, some 10⟩], []⟩,
    [Context.timerCtx Context.empty 0 10, Context.empty],
    [⟨canceler.timerCtx Context.empty 0 10, true⟩]⟩

/-- The context is the node `A` itself or a chain of one or more `valueCtx`
nodes above `A`. -/
inductive AttachedTo (A : canceler) : Context → Prop
| self : AttachedTo A A.toContext
| value {c : Context} (k v : Any) : AttachedTo A c → AttachedTo A (Context.valueCtx c k v)

/-- The world after `a, _ := WithCancel(Background())` and
`WithValue(a, 1, 2)`. -/
def valueUnderCancel : World :=
  ⟨⟨[⟨none, Chan.nil, none, none, none⟩], []⟩,
    [Context.valueCtx (Context.cancelCtx Context.empty 0) (Any.val 1) (Any.val 2),
      Context.cancelCtx Context.empty 0, Context.empty],
    [⟨canceler.cancelCtx Context.empty 0, true⟩]⟩

/-! ## Lock traces

The functions that take a mutex, once more, now recording every `Lock()` and
`Unlock()` of the source in the order of one call chain, and keeping the
state reached when a call stops at a fault. `Run.erase` of each of them is
the function above (the theorems `cancelAuxL_erase` and following). -/

/-- `Lock()` and `Unlock()` on the mutex of the `cancelCtx` object at an
address. -/
inductive LockEvent
| lock (p : Nat)
| unlock (p : Nat)
deriving DecidableEq, Repr

/-- The outcome of a call with its lock events, oldest first: a return with
the new state, or a fault with the state at the fault. -/
inductive Run
| ret (s : State) (locks : List LockEvent)
| fault (f : Fault) (s : State) (locks : List LockEvent)
deriving DecidableEq, Repr

/-- Forgetting the lock events and the state at a fault. -/
def Run.erase : Run → Except Fault State
| Run.ret s _ => Except.ok s
| Run.fault f _ _ => Except.error f

/-- The lock events of `removeChild`: the mutex of the nearest `cancelCtx`
is taken whether or not its registry is nil. -/
def removeChildLocks (parent : Context) : List LockEvent :=
  match parentCancelCtx parent with
  | none => []
  | some p => [LockEvent.lock p, LockEvent.unlock p]

/-- The lock events of `Done()`: `(*cancelCtx).Done` takes the mutex of its
object, a `valueCtx` passes the call on, `empty` has no mutex. -/
def Context.DoneLocks : Context → List LockEvent
| Context.empty => []
| Context.cancelCtx _ p => [LockEvent.lock p, LockEvent.unlock p]
| Context.valueCtx parent _ _ => parent.DoneLocks
| Context.timerCtx _ p _ => [LockEvent.lock p, LockEvent.unlock p]

/-- The loop of `fanOut` with the lock events of the calls it makes. -/
def fanOutL (sub : State → canceler → Option error → Run) :
    List canceler → State → Option error → Run
| [], s, _ => Run.ret s []
| child :: rest, s, err =>
  match sub s child err with
  | Run.fault f s1 t1 => Run.fault f s1 t1
  | Run.ret s1 t1 =>
    match fanOutL sub rest s1 err with
    | Run.fault f s2 t2 => Run.fault f s2 (t1 ++ t2)
    | Run.ret s2 t2 => Run.ret s2 (t1 ++ t2)

/-- `(*cancelCtx).cancel` with its lock events: the panic on a nil reason
comes before `c.lock.Lock()`, the fan-out runs with the mutex held, and
`removeChild` follows `c.lock.Unlock()`. -/
def cancelCtx.cancelL (sub : State → canceler → Option error → Run)
    (s : State) (parent : Context) (p : Nat) (removeFromParent : Bool)
    (err : Option error) : Run :=
  match err with
  | none => Run.fault Fault.panic s []
  | some e =>
    if (s.cell p).err ≠ none then Run.ret s [LockEvent.lock p, LockEvent.unlock p]
    else
      let s1 := s.put p { s.cell p with err := some e }
      let closed : Option Chan :=
        if (s1.cell p).done = Chan.nil then some Chan.closedChan else (s1.cell p).done.close
      match closed with
      | none => Run.fault Fault.panic s1 [LockEvent.lock p]
      | some ch =>
        let s2 := s1.put p { s1.cell p with done := ch }
        match fanOutL sub ((s2.cell p).children.getD []) s2 (some e) with
        | Run.fault f s3 t => Run.fault f s3 (LockEvent.lock p :: t)
        | Run.ret s3 t =>
          let s4 := s3.put p { s3.cell p with children := none }
          if removeFromParent then
            Run.ret (removeChild s4 parent (canceler.cancelCtx parent p))
              (LockEvent.lock p :: t ++ LockEvent.unlock p :: removeChildLocks parent)
          else Run.ret s4 (LockEvent.lock p :: t ++ [LockEvent.unlock p])

/-- `(*timerCtx).cancel` with its lock events: the embedded `cancel`, then
`removeChild`, then the mutex of the embedded object around the timer stop. -/
def timerCtx.cancelL (sub : State → canceler → Option error → Run)
    (s : State) (parent : Context) (p : Nat) (deadLine : Time) (removeFromParent : Bool)
    (err : Option error) : Run :=
  match cancelCtx.cancelL sub s parent p false err with
  | Run.fault f s1 t => Run.fault f s1 t
  | Run.ret s1 t =>
    let s2 := if removeFromParent then
      removeChild s1 parent (canceler.timerCtx parent p deadLine) else s1
    Run.ret (timerCtx.stopTimer s2 p)
      (t ++ (if removeFromParent then removeChildLocks parent else []) ++
        [LockEvent.lock p, LockEvent.unlock p])

/-- The method `cancel` through the interface, with at most `fuel` nested
calls, with its lock events. -/
def cancelAuxL : Nat → State → canceler → Bool → Option error → Run
| 0, s, _, _, _ => Run.fault Fault.fuel s []
| n + 1, s, canceler.cancelCtx parent p, removeFromParent, err =>
  cancelCtx.cancelL (fun s1 c e => cancelAuxL n s1 c false e) s parent p removeFromParent err
| n + 1, s, canceler.timerCtx parent p d, removeFromParent, err =>
  timerCtx.cancelL (fun s1 c e => cancelAuxL n s1 c false e) s parent p d removeFromParent err

/-- The method `cancel` with its lock events. -/
def canceler.cancelL (s : State) (c : canceler) (removeFromParent : Bool)
    (err : Option error) : Run :=
  cancelAuxL (s.cells.length + 1) s c removeFromParent err

/-- `propagateCancel` with its lock events: `parent.Done()` first, then the
mutex of the nearest `cancelCtx` around the test of its error, the immediate
`child.cancel` included. -/
def propagateCancelL (s : State) (parent : Context) (child : canceler) : Run :=
  let r := parent.Done s
  if r.2 = Chan.nil then Run.ret r.1 parent.DoneLocks
  else
    match parentCancelCtx parent with
    | some p =>
      if (r.1.cell p).err ≠ none then
        match child.cancelL r.1 false (r.1.cell p).err with
        | Run.fault f s1 t => Run.fault f s1 (parent.DoneLocks ++ LockEvent.lock p :: t)
        | Run.ret s1 t =>
          Run.ret s1 (parent.DoneLocks ++ LockEvent.lock p :: t ++ [LockEvent.unlock p])
      else
        let m := (r.1.cell p).children.getD []
        Run.ret (r.1.put p { r.1.cell p with children := some (mapInsert m child) })
          (parent.DoneLocks ++ [LockEvent.lock p, LockEvent.unlock p])
    | none =>
      Run.ret { r.1 with monitors := r.1.monitors ++ [(parent, child)] } parent.DoneLocks

/-- `WithCancel` with its lock events (the context and the cancel function it
returns are those of `WithCancel`). -/
def WithCancelL (s : State) (parent : Context) : Run :=
  propagateCancelL (newCancelCtx s parent).1 parent (newCancelCtx s parent).2

/-- `WithDeadline` with its lock events; `Deadline()` takes no mutex, and the
timer is armed between `ctx.cancelCtx.lock.Lock()` and the deferred unlock. -/
def WithDeadlineL (s : State) (now : Time) (parent : Context) (deadline : Time) : Run :=
  if parent.Deadline.2 = true ∧ parent.Deadline.1 < deadline then WithCancelL s parent
  else
    let p := s.cells.length
    let ctx := canceler.timerCtx parent p deadline
    match propagateCancelL s.alloc parent ctx with
    | Run.fault f s1 t1 => Run.fault f s1 t1
    | Run.ret s1 t1 =>
      let dur := deadline - now
      if dur ≤ 0 then
        match ctx.cancelL s1 true (some timeOutErr) with
        | Run.fault f s2 t2 => Run.fault f s2 (t1 ++ t2)
        | Run.ret s2 t2 => Run.ret s2 (t1 ++ t2)
      else
        let s2 := if (s1.cell p).timerErr = none then
          s1.put p { s1.cell p with Timer := some dur } else s1
        Run.ret s2 (t1 ++ [LockEvent.lock p, LockEvent.unlock p])

/-- Calling a cancel function, with its lock events. -/
def CancelFunc.callL (f : CancelFunc) (s : State) : Run :=
  f.ctx.cancelL s f.removeFromParent (some canceled)

/-- The timer callback, with its lock events. -/
def timerFireL (s : State) (ctx : canceler) : Run :=
  ctx.cancelL s true (some timeOutErr)

/-- Replays a lock trace from the locks held at its start: `none` when a
lock is acquired that `allowed` forbids for the locks held at that moment,
otherwise the locks held at the end. -/
def replay (allowed : List Nat → Nat → Bool) : List Nat → List LockEvent → Option (List Nat)
| held, [] => some held
| held, LockEvent.lock p :: rest =>
  if allowed held p then replay allowed (p :: held) rest else none
| held, LockEvent.unlock p :: rest => replay allowed (held.erase p) rest

/-- A lock may be acquired only while no lock is held. -/
def noneHeld : List Nat → Nat → Bool := fun held _ => held.isEmpty

/-- A lock may be acquired only while it is not held itself. -/
def notHeld : List Nat → Nat → Bool := fun held p => decide (p ∉ held)

/-- A lock may be acquired only while every lock held belongs to an object
allocated earlier. -/
def olderHeld : List Nat → Nat → Bool := fun held p => held.all (fun h => decide (h < p))

/-- The lock events of what `cancel` does after the unlock that ends the
locked section of `(*cancelCtx).cancel` (see `canceler.finish`): those of
`removeChild` when it runs, and for a `timerCtx` the mutex around the timer
stop. -/
def canceler.finishLocks (c : canceler) (removeFromParent : Bool) (was : Option error) :
    List LockEvent :=
  match c with
  | canceler.cancelCtx parent _ =>
    if removeFromParent = true ∧ was = none then removeChildLocks parent else []
  | canceler.timerCtx parent p _ =>
    (if removeFromParent = true then removeChildLocks parent else []) ++
      [LockEvent.lock p, LockEvent.unlock p]

/-! ## Goroutines

Cancel functions are called from any goroutine and `time.AfterFunc` runs its
callback on a goroutine of its own, so the calls of this package interleave.
Every field is read and written under the mutex of its object, and a call is
a sequence of locked sections; the sections of different calls interleave in
any order. A locked section is one step here, with the calls `cancel(false,
err)` it makes on the registered children while it holds its mutex. What is
left of a call after a section is kept as the jobs of its goroutine.

`(*cancelCtx).cancel` unlocks before it calls `removeChild`, and
`(*timerCtx).cancel` locks once more for the timer stop, so `cancel` is up to
three steps. `propagateCancel` starts with `parent.Done()`, which is also the
step `done` of the client; the object it attaches is known to no other
goroutine before the attach section has run. So the allocation, `Done()` and
the attach section are one step, after which `WithCancel` returns;
`WithDeadline` goes on with the immediate `cancel` or with the section that
arms the timer, and returns after it. -/

/-- The `*cancelCtx` whose `cancel` holds the locked section: the object
itself, or `t.cancelCtx` for a `*timerCtx`. -/
def canceler.embedded (c : canceler) : canceler := canceler.cancelCtx c.parent c.addr

/-- What a goroutine inside a call still has to do, one job for each locked
section: a call of `cancel`, at its start; the `removeChild` that follows the
unlock in `cancel`; the timer stop at the end of `(*timerCtx).cancel`; the
section at the end of `WithDeadline` that arms the timer; and the return of
`WithDeadline`, which hands the context and the cancel function to the
client. -/
inductive Job
| cancel (c : canceler) (removeFromParent : Bool) (err : error)
| removeChild (c : canceler)
| stopTimer (p : Nat)
| arm (p : Nat) (dur : Int)
| ret (ctx : Context) (f : CancelFunc)
deriving DecidableEq, Repr

/-- The jobs left of `c.cancel(removeFromParent, err)` when its locked
section is over; `was` is the error of the node when the section began. A
`cancelCtx` that was cancelled already has returned from inside the section. -/
def canceler.afterUnlock (c : canceler) (removeFromParent : Bool) (was : Option error) :
    List Job :=
  match c with
  | canceler.cancelCtx _ _ =>
    if removeFromParent = true ∧ was = none then [Job.removeChild c] else []
  | canceler.timerCtx _ p _ =>
    (if removeFromParent = true then [Job.removeChild c] else []) ++ [Job.stopTimer p]

/-- One job: the state after its locked section and the jobs it leaves. -/
def Job.run (s : State) : Job → Except Fault (State × List Job)
| Job.cancel c removeFromParent err =>
  match c.embedded.cancel s false (some err) with
  | Except.error f => Except.error f
  | Except.ok s1 => Except.ok (s1, c.afterUnlock removeFromParent (s.cell c.addr).err)
| Job.removeChild c => Except.ok (myContext.removeChild s c.parent c, [])
| Job.stopTimer p => Except.ok (timerCtx.stopTimer s p, [])
| Job.arm p dur =>
  Except.ok (if (s.cell p).timerErr = none then s.put p { s.cell p with Timer := some dur }
    else s, [])
| Job.ret _ _ => Except.ok (s, [])

/-- The context a job hands to the client. -/
def Job.ctxs : Job → List Context
| Job.ret ctx _ => [ctx]
| _ => []

/-- The cancel function a job hands to the client. -/
def Job.funcs : Job → List CancelFunc
| Job.ret _ f => [f]
| _ => []

/-- The jobs of `WithDeadline` after `propagateCancel`; `dur` is
`time.Until(deadline)`. -/
def deadlineJobs (c : canceler) (dur : Int) : List Job :=
  if dur ≤ 0 then [Job.cancel c true timeOutErr, Job.ret c.toContext ⟨c, false⟩]
  else [Job.arm c.addr dur, Job.ret c.toContext ⟨c, true⟩]

/-- The jobs of one goroutine run back to back, with no step of another
goroutine in between; `fuel` bounds the number of jobs run. -/
def runAll : Nat → State → List Job → Except Fault State
| _, s, [] => Except.ok s
| 0, _, _ :: _ => Except.error Fault.fuel
| n + 1, s, j :: rest =>
  match j.run s with
  | Except.error f => Except.error f
  | Except.ok r => runAll n r.1 (r.2 ++ rest)

/-- The contexts handed to the client when the jobs have run, newest first. -/
def handedCtxs (th : List Job) (acc : List Context) : List Context :=
  th.foldl (fun a j => j.ctxs ++ a) acc

/-- The cancel functions handed to the client when the jobs have run. -/
def handedFuncs (th : List Job) (acc : List CancelFunc) : List CancelFunc :=
  th.foldl (fun a j => j.funcs ++ a) acc

/-- A run of a client program with its goroutines: the heap, the cancelers
allocated so far, the contexts and the cancel functions handed to the client
so far, and for every call in progress the jobs it still has to do. -/
structure Pool where
  st : State
  nodes : List canceler
  ctxs : List Context
  funcs : List CancelFunc
  running : List (List Job)

/-- One step of a pool: the client calls `WithCancel`, `WithValue`,
`WithDeadline` (`degrade` when the parent's deadline is earlier, which is a
`WithCancel`), a cancel function or `Done()`; a pending timer fires; or a
goroutine runs its next job. `WithCancel` and `WithValue` return in the step;
the other calls start a goroutine. -/
inductive Pool.Step : Pool → Pool → Prop
| withCancel (w : Pool) (parent : Context) {s' : State} {ctx : Context} {f : CancelFunc} :
    parent ∈ w.ctxs → WithCancel w.st parent = Except.ok (s', ctx, f) →
    Pool.Step w ⟨s', f.ctx :: w.nodes, ctx :: w.ctxs, f :: w.funcs, w.running⟩
| withValue (w : Pool) (parent : Context) (key value : Any) {ctx : Context} :
    parent ∈ w.ctxs → WithValue parent key value = Except.ok ctx →
    Pool.Step w ⟨w.st, w.nodes, ctx :: w.ctxs, w.funcs, w.running⟩
| degrade (w : Pool) (now : Time) (parent : Context) (deadline : Time) {s' : State}
    {ctx : Context} {f : CancelFunc} :
    parent ∈ w.ctxs → (parent.Deadline.2 = true ∧ parent.Deadline.1 < deadline) →
    WithDeadline w.st now parent deadline = Except.ok (s', ctx, f) →
    Pool.Step w ⟨s', f.ctx :: w.nodes, ctx :: w.ctxs, f :: w.funcs, w.running⟩
| withDeadline (w : Pool) (now : Time) (parent : Context) (deadline : Time) {s1 : State} :
    parent ∈ w.ctxs → ¬ (parent.Deadline.2 = true ∧ parent.Deadline.1 < deadline) →
    propagateCancel w.st.alloc parent
      (canceler.timerCtx parent w.st.cells.length deadline) = Except.ok s1 →
    Pool.Step w ⟨s1, canceler.timerCtx parent w.st.cells.length deadline :: w.nodes, w.ctxs,
      w.funcs,
      deadlineJobs (canceler.timerCtx parent w.st.cells.length deadline) (deadline - now) ::
        w.running⟩
| call (w : Pool) (f : CancelFunc) :
    f ∈ w.funcs →
    Pool.Step w ⟨w.st, w.nodes, w.ctxs, w.funcs,
      [Job.cancel f.ctx f.removeFromParent canceled] :: w.running⟩
| fire (w : Pool) (parent : Context) (p : Nat) (d : Time) :
    canceler.timerCtx parent p d ∈ w.nodes → (w.st.cell p).Timer ≠ none →
    Pool.Step w ⟨w.st, w.nodes, w.ctxs, w.funcs,
      [Job.cancel (canceler.timerCtx parent p d) true timeOutErr] :: w.running⟩
| done (w : Pool) (c : Context) :
    c ∈ w.ctxs → Pool.Step w ⟨(c.Done w.st).1, w.nodes, w.ctxs, w.funcs, w.running⟩
| run (w : Pool) (pre post : List (List Job)) (j : Job) (rest : List Job) {s' : State}
    {k : List Job} :
    w.running = pre ++ (j :: rest) :: post → j.run w.st = Except.ok (s', k) →
    Pool.Step w ⟨s', w.nodes, j.ctxs ++ w.ctxs, j.funcs ++ w.funcs,
      pre ++ (k ++ rest) :: post⟩

/-- The pools a client and the timers can reach, the locked sections of the
calls in progress interleaved in any order. -/
inductive Interleaved : Pool → Prop
| init : Interleaved ⟨⟨[], []⟩, [], [Background], [], []⟩
| step {w w' : Pool} : Interleaved w → Pool.Step w w' → Interleaved w'

/-- No call is in progress. -/
def Pool.quiet (w : Pool) : Prop := ∀ th ∈ w.running, th = []

/-- The heap is well formed for the cancelers `nodes`: they are allocated,
one to an address; a registry holds allocated cancelers whose nearest
cancelable ancestor is the owner of the registry; a signal is closed exactly
on a cancelled object, and a cancelled object has released its registry. -/
structure Shape (s : State) (nodes : List canceler) : Prop where
  below : ∀ c ∈ nodes, c.toContext.Below s.cells.length
  unique : ∀ c1 ∈ nodes, ∀ c2 ∈ nodes, c1.addr = c2.addr → c1 = c2
  registered : ∀ q, ∀ x ∈ (s.cell q).children.getD [],
    x ∈ nodes ∧ parentCancelCtx x.parent = some q
  signalOpen : OpenSignals s
  signalClosed : ∀ q, (s.cell q).err ≠ none → (s.cell q).done.isClosed = true
  released : ∀ q, (s.cell q).err ≠ none → (s.cell q).children = none

/-- The jobs of one goroutine are well formed: `cancel` is called on an
allocated node, and without the detach request only on a cancelled one (the
closure `WithDeadline` returns for a passed deadline); such a closure is
handed out when the node is cancelled. -/
def JobsOK (s : State) (nodes : List canceler) (th : List Job) : Prop :=
  (∀ c b e, Job.cancel c b e ∈ th →
    c ∈ nodes ∧ (b = false → (s.cell c.addr).err ≠ none)) ∧
  (∀ ctx f, Job.ret ctx f ∈ th →
    f.ctx ∈ nodes ∧ ctx.Below s.cells.length ∧
    (f.removeFromParent = false →
      (s.cell f.ctx.addr).err ≠ none ∨ ∃ e rest, th = Job.cancel f.ctx true e :: rest))

/-- The invariant of the interleaved pools. `stale`: a registry entry that is
cancelled belongs to a call of `cancel` that has left its locked section and
has its `removeChild` still to run. -/
structure Pool.Sound (w : Pool) : Prop where
  shape : Shape w.st w.nodes
  ctxs : ∀ c ∈ w.ctxs, c.Below w.st.cells.length
  funcs : ∀ f ∈ w.funcs, f.ctx ∈ w.nodes ∧
    (f.removeFromParent = false → (w.st.cell f.ctx.addr).err ≠ none)
  jobs : ∀ th ∈ w.running, JobsOK w.st w.nodes th
  stale : ∀ q, ∀ x ∈ (w.st.cell q).children.getD [], (w.st.cell x.addr).err ≠ none →
    ∃ th ∈ w.running, Job.removeChild x ∈ th

/-- Cancellation is final: the heap does not shrink, an error once set stays
as it is, and a closed signal stays closed. -/
def Sticky (s s' : State) : Prop :=
  s.cells.length ≤ s'.cells.length ∧
  ∀ q, ((s.cell q).err ≠ none → (s'.cell q).err = (s.cell q).err) ∧
    ((s.cell q).done.isClosed = true → (s'.cell q).done.isClosed = true)

/-- The cancelable node `d` of `detachPending`, a child of `n`. -/
def pendingChild : canceler := canceler.cancelCtx (Context.timerCtx Context.empty 0 10) 1

/-- The pool after `n, _ := WithDeadline(Background(), 10)` at time `0`,
`d, cancelD := WithCancel(n)`, and the locked section of `cancelD()`: the
goroutine of `cancelD()` is between the unlock and `removeChild`, so `d` is
cancelled and still an entry of the registry of `n`, whose timer is pending. -/
def detachPending : Pool :=
  ⟨⟨[⟨some [canceler.cancelCtx (Context.timerCtx Context.empty 0 10) 1], Chan.made false, none,
        none, some 10⟩,
      ⟨none, Chan.closedChan, some canceled, none, none⟩], []⟩,
    [canceler.cancelCtx (Context.timerCtx Context.empty 0 10) 1,
      canceler.timerCtx Context.empty 0 10],
    [Context.cancelCtx (Context.timerCtx Context.empty 0 10) 1,
      Context.timerCtx Context.empty 0 10, Context.empty],
    [⟨canceler.cancelCtx (Context.timerCtx Context.empty 0 10) 1, true⟩,
      ⟨canceler.timerCtx Context.empty 0 10, true⟩],
    [[Job.removeChild (canceler.cancelCtx (Context.timerCtx Context.empty 0 10) 1)], []]⟩
/-! ## Heap lemmas -/

theorem State.put_length (s : State) (p : Nat) (c : Cell) :
    (s.put p c).cells.length = s.cells.length := by
  simp [State.put]

theorem State.put_monitors (s : State) (p : Nat) (c : Cell) :
    (s.put p c).monitors = s.monitors := rfl

theorem State.cell_put (s : State) (p q : Nat) (c : Cell) :
    (s.put p c).cell q = if q = p ∧ p < s.cells.length then c else s.cell q := by
  unfold State.cell State.put
  simp only [List.getD_eq_getElem?_getD, List.getElem?_set]
  by_cases h : p = q
  · subst h
    by_cases h2 : p < s.cells.length
    · simp [h2]
    · simp [h2, List.getElem?_eq_none (Nat.le_of_not_lt h2)]
  · have h3 : ¬ q = p := fun h4 => h h4.symm
    simp [h, h3]

theorem State.cell_put_same (s : State) (p : Nat) (c : Cell) (h : p < s.cells.length) :
    (s.put p c).cell p = c := by
  rw [State.cell_put]; simp [h]

theorem State.cell_put_ne (s : State) (p q : Nat) (c : Cell) (h : q ≠ p) :
    (s.put p c).cell q = s.cell q := by
  rw [State.cell_put]; simp [h]

theorem State.cell_default (s : State) (p : Nat) (h : s.cells.length ≤ p) :
    s.cell p = default := by
  unfold State.cell
  simp [List.getD_eq_getElem?_getD, List.getElem?_eq_none h]

theorem State.put_outside (s : State) (p : Nat) (c : Cell) (h : s.cells.length ≤ p) :
    s.put p c = s := by
  unfold State.put
  rw [List.set_eq_of_length_le h]

theorem State.put_cell_self (s : State) (p : Nat) : s.put p (s.cell p) = s := by
  by_cases h : p < s.cells.length
  · unfold State.put State.cell
    have : s.cells.set p (s.cells.getD p default) = s.cells := by
      apply List.ext_getElem?
      intro i
      simp only [List.getElem?_set, List.getD_eq_getElem?_getD]
      by_cases h2 : p = i
      · subst h2; simp [h]
      · simp [h2]
    rw [this]
  · exact State.put_outside s p _ (Nat.le_of_not_lt h)

/-! ## What a nest of cancel calls does -/

theorem Spread.refl (e : error) (roots : Nat → Prop) (s : State) : Spread e roots s s :=
  ⟨rfl, rfl, fun _ => rfl, fun _ => Or.inl rfl, fun _ => Or.inl ⟨rfl, rfl, rfl⟩⟩

theorem Spread.err_kept {e : error} {roots : Nat → Prop} {s s' : State}
    (h : Spread e roots s s') (q : Nat) (hq : (s.cell q).err ≠ none) :
    (s'.cell q).err = (s.cell q).err := by
  rcases h.cells q with hk | hh
  · exact hk.1
  · exact absurd hh.1 hq

theorem Spread.err_stays {e : error} {roots : Nat → Prop} {s s' : State}
    (h : Spread e roots s s') (q : Nat) (hq : (s.cell q).err ≠ none) :
    (s'.cell q).err ≠ none := by
  rw [h.err_kept q hq]; exact hq

theorem Spread.mono {e : error} {A B : Nat → Prop} {s s' : State}
    (hAB : ∀ q, A q → B q) (h : Spread e A s s') : Spread e B s s' := by
  refine ⟨h.length, h.monitors, h.timerErr, h.timer, fun q => ?_⟩
  rcases h.cells q with hk | ⟨h1, h2, h3, h4, h5, h6⟩
  · exact Or.inl hk
  · refine Or.inr ⟨h1, h2, h3, h4, h5, ?_⟩
    rcases h6 with h6 | h6
    · exact Or.inl (hAB q h6)
    · exact Or.inr h6

theorem Spread.trans {e : error} {A B : Nat → Prop} {s s1 s2 : State}
    (h1 : Spread e A s s1) (h2 : Spread e B s1 s2) :
    Spread e (fun q => A q ∨ B q) s s2 := by
  refine ⟨h2.length.trans h1.length, h2.monitors.trans h1.monitors,
    fun q => (h2.timerErr q).trans (h1.timerErr q), fun q => ?_, fun q => ?_⟩
  · rcases h2.timer q with h | h
    · rcases h1.timer q with h' | h'
      · exact Or.inl (h.trans h')
      · exact Or.inr (h.trans h')
    · exact Or.inr h
  · rcases h1.cells q with hk | ⟨a1, a2, a3, a4, a5, a6⟩
    · rcases h2.cells q with hk2 | ⟨b1, b2, b3, b4, b5, b6⟩
      · exact Or.inl ⟨hk2.1.trans hk.1, hk2.2.1.trans hk.2.1, hk2.2.2.trans hk.2.2⟩
      · refine Or.inr ⟨hk.1 ▸ b1, b2, ?_, b4, ?_, ?_⟩
        · rw [← hk.2.1]; exact b3
        · intro x hx hlt
          rw [← hk.2.2] at hx
          exact b5 x hx (h1.length ▸ hlt)
        · rcases b6 with b6 | ⟨p, x, c1, c2, c3, c4⟩
          · exact Or.inl (Or.inr b6)
          · refine Or.inr ⟨p, x, ?_, c2, ?_, c4⟩
            · rcases h1.cells p with hkp | hhp
              · rw [← hkp.1]; exact c1
              · rw [hhp.2.1] at c1; exact absurd c1 (by simp)
            · rcases h1.cells p with hkp | hhp
              · rw [← hkp.2.2]; exact c3
              · rw [hhp.2.1] at c1; exact absurd c1 (by simp)
    · have hne : (s1.cell q).err ≠ none := by rw [a2]; simp
      rcases h2.cells q with hk2 | ⟨b1, _⟩
      · refine Or.inr ⟨a1, hk2.1.trans a2, ?_, hk2.2.2.trans a4, ?_, ?_⟩
        · rw [hk2.2.1]; exact a3
        · intro x hx hlt
          exact h2.err_stays _ (a5 x hx hlt)
        · rcases a6 with a6 | ⟨p, x, c1, c2, c3, c4⟩
          · exact Or.inl (Or.inl a6)
          · exact Or.inr ⟨p, x, c1, h2.err_stays _ c2, c3, c4⟩
      · exact absurd b1 hne

theorem fanOut_spread {sub : State → canceler → Option error → Except Fault State} {e : error}
    (hsub : ∀ s c s', sub s c (some e) = Except.ok s' →
      Spread e (fun q => q = c.addr) s s' ∧
        (c.addr < s.cells.length → (s'.cell c.addr).err ≠ none)) :
    ∀ (l : List canceler) (s s' : State), fanOut sub l s (some e) = Except.ok s' →
      Spread e (fun q => ∃ x ∈ l, x.addr = q) s s' ∧
        ∀ x ∈ l, x.addr < s.cells.length → (s'.cell x.addr).err ≠ none := by
  intro l
  induction l with
  | nil =>
    intro s s' h
    simp only [fanOut, Except.ok.injEq] at h
    subst h
    exact ⟨Spread.refl _ _ _, fun x hx => absurd hx (List.not_mem_nil x)⟩
  | cons child rest ih =>
    intro s s' h
    simp only [fanOut] at h
    cases hc : sub s child (some e) with
    | error f => rw [hc] at h; simp at h
    | ok s1 =>
      rw [hc] at h
      obtain ⟨h1, h1v⟩ := hsub s child s1 hc
      obtain ⟨h2, h2v⟩ := ih s1 s' h
      refine ⟨Spread.mono ?_ (h1.trans h2), ?_⟩
      · intro q hq
        rcases hq with hq | ⟨x, hx, hxq⟩
        · exact ⟨child, List.mem_cons_self _ _, hq.symm⟩
        · exact ⟨x, List.mem_cons_of_mem _ hx, hxq⟩
      · intro x hx hlt
        rcases List.mem_cons.mp hx with hx | hx
        · subst hx
          exact h2.err_stays _ (h1v hlt)
        · exact h2v x hx (h1.length ▸ hlt)

theorem cancelCtx_cancel_spread
    {sub : State → canceler → Option error → Except Fault State} {e : error}
    (hsub : ∀ s c s', sub s c (some e) = Except.ok s' →
      Spread e (fun q => q = c.addr) s s' ∧
        (c.addr < s.cells.length → (s'.cell c.addr).err ≠ none))
    (s s' : State) (parent : Context) (p : Nat)
    (h : cancelCtx.cancel sub s parent p false (some e) = Except.ok s') :
    Spread e (fun q => q = p) s s' ∧ (p < s.cells.length → (s'.cell p).err ≠ none) := by
  unfold cancelCtx.cancel at h
  simp only at h
  by_cases herr : (s.cell p).err ≠ none
  · rw [if_pos herr] at h
    simp only [Except.ok.injEq] at h
    subst h
    exact ⟨Spread.refl _ _ _, fun _ => herr⟩
  · rw [if_neg herr] at h
    have herr0 : (s.cell p).err = none := not_not.mp herr
    by_cases hp : p < s.cells.length
    · -- the object exists
      have hlen1 : p < (s.put p { s.cell p with err := some e }).cells.length := by
        rw [State.put_length]; exact hp
      rw [State.cell_put_same _ _ _ hp] at h
      simp only at h
      -- the channel after closing
      obtain ⟨ch, hch, hchd⟩ : ∃ ch, (if (s.cell p).done = Chan.nil then some Chan.closedChan
          else (s.cell p).done.close) = some ch ∧
          (((s.cell p).done = Chan.nil ∧ ch = Chan.closedChan) ∨
            ((s.cell p).done = Chan.made false ∧ ch = Chan.made true)) := by
        cases hd : (s.cell p).done with
        | nil => exact ⟨Chan.closedChan, by simp, Or.inl ⟨rfl, rfl⟩⟩
        | closedChan => rw [hd] at h; simp [Chan.close] at h
        | made b =>
          cases b with
          | true => rw [hd] at h; simp [Chan.close] at h
          | false => exact ⟨Chan.made true, by simp [Chan.close], Or.inr ⟨rfl, rfl⟩⟩
      rw [hch] at h
      simp only at h
      rw [State.cell_put_same _ _ _ hlen1] at h
      simp only at h
      generalize hs2 : (s.put p { s.cell p with err := some e }).put p
        { s.cell p with err := some e, done := ch } = s2 at h
      have hlen2 : s2.cells.length = s.cells.length := by
        rw [← hs2, State.put_length, State.put_length]
      have hc2p : s2.cell p = { s.cell p with err := some e, done := ch } := by
        rw [← hs2, State.cell_put_same _ _ _ hlen1]
      have hc2q : ∀ q, q ≠ p → s2.cell q = s.cell q := by
        intro q hq
        rw [← hs2, State.cell_put_ne _ _ _ _ hq, State.cell_put_ne _ _ _ _ hq]
      have hmon2 : s2.monitors = s.monitors := by rw [← hs2]; rfl
      cases hf : fanOut sub ((s.cell p).children.getD []) s2 (some e) with
      | error f => rw [hf] at h; simp at h
      | ok s3 =>
        rw [hf] at h
        simp only [if_false, Bool.false_eq_true, Except.ok.injEq] at h
        obtain ⟨h3, h3v⟩ := fanOut_spread hsub _ _ _ hf
        have hp3 : p < s3.cells.length := by rw [h3.length, hlen2]; exact hp
        have hk3 : Kept s2 s3 p := by
          rcases h3.cells p with hk | hh
          · exact hk
          · have h0 := hh.1
            rw [hc2p] at h0
            simp at h0
        have hc4p : s'.cell p = { s3.cell p with children := none } := by
          rw [← h, State.cell_put_same _ _ _ hp3]
        have hc4q : ∀ q, q ≠ p → s'.cell q = s3.cell q := by
          intro q hq
          rw [← h, State.cell_put_ne _ _ _ _ hq]
        have herr4 : (s'.cell p).err = some e := by
          rw [hc4p]; simp only; rw [hk3.1, hc2p]
        have hstay : ∀ q, (s3.cell q).err ≠ none → (s'.cell q).err ≠ none := by
          intro q hq
          by_cases hqp : q = p
          · subst hqp; rw [herr4]; simp
          · rw [hc4q q hqp]; exact hq
        refine ⟨⟨?_, ?_, ?_, ?_, ?_⟩, fun _ => by rw [herr4]; simp⟩
        · rw [← h, State.put_length, h3.length, hlen2]
        · rw [← h, State.put_monitors, h3.monitors, hmon2]
        · intro q
          by_cases hqp : q = p
          · subst hqp; rw [hc4p]; simp only; rw [h3.timerErr, hc2p]
          · rw [hc4q q hqp, h3.timerErr, hc2q q hqp]
        · intro q
          by_cases hqp : q = p
          · subst hqp; rw [hc4p]; simp only
            rcases h3.timer q with ht | ht
            · left; rw [ht, hc2p]
            · right; exact ht
          · rw [hc4q q hqp]
            rcases h3.timer q with ht | ht
            · left; rw [ht, hc2q q hqp]
            · right; exact ht
        · intro q
          by_cases hqp : q = p
          · subst hqp
            refine Or.inr ⟨herr0, herr4, ?_, ?_, ?_, Or.inl rfl⟩
            · have hd : (s'.cell q).done = ch := by
                rw [hc4p]; simp only; rw [hk3.2.1, hc2p]
              rw [hd]; exact hchd
            · rw [hc4p]
            · intro x hx hlt
              exact hstay _ (h3v x hx (by rw [hlen2]; exact hlt))
          · rcases h3.cells q with hk | ⟨a1, a2, a3, a4, a5, a6⟩
            · left
              refine ⟨?_, ?_, ?_⟩
              · rw [hc4q q hqp, hk.1, hc2q q hqp]
              · rw [hc4q q hqp, hk.2.1, hc2q q hqp]
              · rw [hc4q q hqp, hk.2.2, hc2q q hqp]
            · right
              rw [hc2q q hqp] at a1 a3 a5
              refine ⟨a1, ?_, ?_, ?_, ?_, ?_⟩
              · rw [hc4q q hqp]; exact a2
              · rw [hc4q q hqp]; exact a3
              · rw [hc4q q hqp]; exact a4
              · intro x hx hlt
                exact hstay _ (a5 x hx (by rw [hlen2]; exact hlt))
              · right
                rcases a6 with ⟨x, hx, hxq⟩ | ⟨p', x, c1, c2, c3, c4⟩
                · exact ⟨p, x, herr0, by rw [herr4]; simp, hx, hxq⟩
                · have hp' : p' ≠ p := by
                    intro hpp; subst hpp; rw [hc2p] at c1; simp at c1
                  rw [hc2q p' hp'] at c1 c3
                  exact ⟨p', x, c1, hstay _ c2, c3, c4⟩
    · -- a dangling address: nothing is written
      have hle : s.cells.length ≤ p := Nat.le_of_not_lt hp
      have hdef : s.cell p = default := State.cell_default s p hle
      have hdone : (s.cell p).done = Chan.nil := by rw [hdef]; rfl
      have hch : (s.cell p).children = none := by rw [hdef]; rfl
      simp only [State.put_outside _ _ _ hle, hdone, if_true, hch, Option.getD_none, fanOut,
        if_false, Bool.false_eq_true, Except.ok.injEq] at h
      subst h
      exact ⟨Spread.refl _ _ _, fun hlt => absurd hlt hp⟩

theorem stopTimer_length (s : State) (p : Nat) :
    (timerCtx.stopTimer s p).cells.length = s.cells.length := by
  unfold timerCtx.stopTimer
  split
  · exact State.put_length _ _ _
  · rfl

theorem stopTimer_monitors (s : State) (p : Nat) :
    (timerCtx.stopTimer s p).monitors = s.monitors := by
  unfold timerCtx.stopTimer
  split <;> rfl

theorem stopTimer_cell (s : State) (p q : Nat) :
    (timerCtx.stopTimer s p).cell q =
      if q = p then { s.cell q with Timer := none } else s.cell q := by
  unfold timerCtx.stopTimer
  by_cases hqp : q = p
  · subst hqp
    rw [if_pos rfl]
    by_cases ht : (s.cell q).Timer ≠ none
    · rw [if_pos ht]
      by_cases hq : q < s.cells.length
      · rw [State.cell_put_same _ _ _ hq]
      · have hd := State.cell_default s q (Nat.le_of_not_lt hq)
        rw [hd] at ht
        exact absurd rfl ht
    · rw [if_neg ht]
      have ht0 : (s.cell q).Timer = none := not_not.mp ht
      cases hc : s.cell q with
      | mk a b c d t => rw [hc] at ht0; simp only at ht0; subst ht0; rfl
  · rw [if_neg hqp]
    split
    · exact State.cell_put_ne _ _ _ _ hqp
    · rfl

theorem removeChild_length (s : State) (parent : Context) (c : canceler) :
    (removeChild s parent c).cells.length = s.cells.length := by
  unfold removeChild
  split
  · rfl
  · split
    · rfl
    · exact State.put_length _ _ _

theorem removeChild_monitors (s : State) (parent : Context) (c : canceler) :
    (removeChild s parent c).monitors = s.monitors := by
  unfold removeChild
  split
  · rfl
  · split <;> rfl

theorem removeChild_cell (s : State) (parent : Context) (c : canceler) (q : Nat) :
    (removeChild s parent c).cell q =
      if parentCancelCtx parent = some q then
        { s.cell q with children := (s.cell q).children.map (List.filter (fun x => x ≠ c)) }
      else s.cell q := by
  unfold removeChild
  cases hp : parentCancelCtx parent with
  | none => simp
  | some p =>
    simp only [Option.some.injEq]
    by_cases hpq : p = q
    · subst hpq
      rw [if_pos rfl]
      cases hm : (s.cell p).children with
      | none =>
        simp only [Option.map_none']
        cases hc : s.cell p with
        | mk a b c d t => rw [hc] at hm; simp only at hm; subst hm; rfl
      | some m =>
        simp only [Option.map_some']
        by_cases hlt : p < s.cells.length
        · rw [State.cell_put_same _ _ _ hlt]
        · have hd := State.cell_default s p (Nat.le_of_not_lt hlt)
          rw [hd] at hm
          exact absurd hm (by simp [default])
    · rw [if_neg hpq]
      cases hm : (s.cell p).children with
      | none => rfl
      | some m => exact State.cell_put_ne _ _ _ _ (fun h => hpq h.symm)

theorem Spread.congr_right {e : error} {A : Nat → Prop} {s s1 s2 : State}
    (h : Spread e A s s1) (hlen : s2.cells.length = s1.cells.length)
    (hmon : s2.monitors = s1.monitors)
    (hcell : ∀ q, (s2.cell q).err = (s1.cell q).err ∧ (s2.cell q).done = (s1.cell q).done ∧
      (s2.cell q).children = (s1.cell q).children ∧
      (s2.cell q).timerErr = (s1.cell q).timerErr ∧
      ((s2.cell q).Timer = (s1.cell q).Timer ∨ (s2.cell q).Timer = none)) :
    Spread e A s s2 := by
  refine ⟨hlen.trans h.length, hmon.trans h.monitors,
    fun q => (hcell q).2.2.2.1.trans (h.timerErr q), fun q => ?_, fun q => ?_⟩
  · rcases (hcell q).2.2.2.2 with ht | ht
    · rcases h.timer q with ht' | ht'
      · exact Or.inl (ht.trans ht')
      · exact Or.inr (ht.trans ht')
    · exact Or.inr ht
  · rcases h.cells q with hk | ⟨a1, a2, a3, a4, a5, a6⟩
    · exact Or.inl ⟨(hcell q).1.trans hk.1, (hcell q).2.1.trans hk.2.1,
        (hcell q).2.2.1.trans hk.2.2⟩
    · refine Or.inr ⟨a1, (hcell q).1.trans a2, ?_, (hcell q).2.2.1.trans a4, ?_, ?_⟩
      · rw [(hcell q).2.1]; exact a3
      · intro x hx hlt
        rw [(hcell x.addr).1]; exact a5 x hx hlt
      · rcases a6 with a6 | ⟨p, x, c1, c2, c3, c4⟩
        · exact Or.inl a6
        · exact Or.inr ⟨p, x, c1, by rw [(hcell p).1]; exact c2, c3, c4⟩

theorem stopTimer_fields (s : State) (p q : Nat) :
    ((timerCtx.stopTimer s p).cell q).err = (s.cell q).err ∧
    ((timerCtx.stopTimer s p).cell q).done = (s.cell q).done ∧
    ((timerCtx.stopTimer s p).cell q).children = (s.cell q).children ∧
    ((timerCtx.stopTimer s p).cell q).timerErr = (s.cell q).timerErr ∧
    (((timerCtx.stopTimer s p).cell q).Timer = (s.cell q).Timer ∨
      ((timerCtx.stopTimer s p).cell q).Timer = none) := by
  rw [stopTimer_cell]
  split
  · exact ⟨rfl, rfl, rfl, rfl, Or.inr rfl⟩
  · exact ⟨rfl, rfl, rfl, rfl, Or.inl rfl⟩

theorem cancelAux_false_spread : ∀ (n : Nat) (s : State) (c : canceler) (e : error) (s' : State),
    cancelAux n s c false (some e) = Except.ok s' →
      Spread e (fun q => q = c.addr) s s' ∧
        (c.addr < s.cells.length → (s'.cell c.addr).err ≠ none) := by
  intro n
  induction n with
  | zero => intro s c e s' h; simp [cancelAux] at h
  | succ n ih =>
    intro s c e s' h
    cases c with
    | cancelCtx parent p =>
      simp only [cancelAux] at h
      exact cancelCtx_cancel_spread (fun s1 c1 s2 h1 => ih s1 c1 e s2 h1) s s' parent p h
    | timerCtx parent p d =>
      simp only [cancelAux, timerCtx.cancel] at h
      cases hb : cancelCtx.cancel (fun s1 c e => cancelAux n s1 c false e) s parent p false
          (some e) with
      | error f => rw [hb] at h; simp at h
      | ok s1 =>
        rw [hb] at h
        simp only [if_false, Bool.false_eq_true, Except.ok.injEq] at h
        subst h
        obtain ⟨h1, h1v⟩ :=
          cancelCtx_cancel_spread (fun s1 c1 s2 h1 => ih s1 c1 e s2 h1) s s1 parent p hb
        refine ⟨h1.congr_right (stopTimer_length _ _) (stopTimer_monitors _ _)
          (fun q => stopTimer_fields s1 p q), fun hlt => ?_⟩
        show ((timerCtx.stopTimer s1 p).cell p).err ≠ none
        rw [(stopTimer_fields s1 p p).1]
        exact h1v hlt

/-! ## `cancel` returns -/

theorem OpenSignals.after_spread {e : error} {A : Nat → Prop} {s s' : State}
    (h0 : OpenSignals s) (h : Spread e A s s') : OpenSignals s' := by
  intro q hq
  rcases h.cells q with hk | hh
  · rw [hk.2.1]; exact h0 q (hk.1 ▸ hq)
  · rw [hh.2.1] at hq; simp at hq

theorem Downward.after_spread_down {e : error} {A : Nat → Prop} {s s' : State}
    (h0 : Downward s) (h : Spread e A s s') : Downward s' := by
  intro q x hx
  rcases h.cells q with hk | hh
  · rw [hk.2.2] at hx; exact h0 q x hx
  · rw [hh.2.2.2.1] at hx; simp at hx

theorem fanOut_returns {sub : State → canceler → Option error → Except Fault State}
    {e : error} (L : Nat)
    (hsub : ∀ s c s', sub s c (some e) = Except.ok s' →
      Spread e (fun q => q = c.addr) s s' ∧
        (c.addr < s.cells.length → (s'.cell c.addr).err ≠ none)) :
    ∀ (l : List canceler) (s : State),
      (∀ s1 x, x ∈ l → OpenSignals s1 → Downward s1 → s1.cells.length = L →
        ∃ s', sub s1 x (some e) = Except.ok s') →
      OpenSignals s → Downward s → s.cells.length = L →
      ∃ s', fanOut sub l s (some e) = Except.ok s' := by
  intro l
  induction l with
  | nil => intro s _ _ _ _; exact ⟨s, rfl⟩
  | cons child rest ih =>
    intro s hret ho hd hl
    obtain ⟨s1, h1⟩ := hret s child (List.mem_cons_self _ _) ho hd hl
    obtain ⟨hs, _⟩ := hsub s child s1 h1
    obtain ⟨s2, h2⟩ := ih s1 (fun s2 x hx => hret s2 x (List.mem_cons_of_mem _ hx))
      (ho.after_spread hs) (hd.after_spread_down hs) (hs.length.trans hl)
    exact ⟨s2, by simp only [fanOut, h1, h2]⟩

theorem cancelCtx_cancel_returns
    {sub : State → canceler → Option error → Except Fault State} {e : error}
    (hsub : ∀ s c s', sub s c (some e) = Except.ok s' →
      Spread e (fun q => q = c.addr) s s' ∧
        (c.addr < s.cells.length → (s'.cell c.addr).err ≠ none))
    (s : State) (parent : Context) (p : Nat) (b : Bool)
    (hret : ∀ s1 x, x ∈ (s.cell p).children.getD [] → OpenSignals s1 → Downward s1 →
      s1.cells.length = s.cells.length → ∃ s', sub s1 x (some e) = Except.ok s')
    (ho : OpenSignals s) (hd : Downward s) :
    ∃ s', cancelCtx.cancel sub s parent p b (some e) = Except.ok s' := by
  unfold cancelCtx.cancel
  simp only
  by_cases herr : (s.cell p).err ≠ none
  · rw [if_pos herr]; exact ⟨s, rfl⟩
  · rw [if_neg herr]
    have herr0 : (s.cell p).err = none := not_not.mp herr
    by_cases hp : p < s.cells.length
    · have hlen1 : p < (s.put p { s.cell p with err := some e }).cells.length := by
        rw [State.put_length]; exact hp
      rw [State.cell_put_same _ _ _ hp]
      simp only
      obtain ⟨ch, hch⟩ : ∃ ch, (if (s.cell p).done = Chan.nil then some Chan.closedChan
          else (s.cell p).done.close) = some ch := by
        rcases ho p herr0 with h | h
        · exact ⟨Chan.closedChan, by simp [h]⟩
        · exact ⟨Chan.made true, by simp [h, Chan.close]⟩
      rw [hch]
      simp only
      rw [State.cell_put_same _ _ _ hlen1]
      simp only
      generalize hs2 : (s.put p { s.cell p with err := some e }).put p
        { s.cell p with err := some e, done := ch } = s2
      have hlen2 : s2.cells.length = s.cells.length := by
        rw [← hs2, State.put_length, State.put_length]
      have hc2p : s2.cell p = { s.cell p with err := some e, done := ch } := by
        rw [← hs2, State.cell_put_same _ _ _ hlen1]
      have hc2q : ∀ q, q ≠ p → s2.cell q = s.cell q := by
        intro q hq
        rw [← hs2, State.cell_put_ne _ _ _ _ hq, State.cell_put_ne _ _ _ _ hq]
      have ho2 : OpenSignals s2 := by
        intro q hq
        by_cases hqp : q = p
        · subst hqp; rw [hc2p] at hq; simp at hq
        · rw [hc2q q hqp] at hq ⊢; exact ho q hq
      have hd2 : Downward s2 := by
        intro q x hx
        by_cases hqp : q = p
        · subst hqp; rw [hc2p] at hx; exact hd q x hx
        · rw [hc2q q hqp] at hx; exact hd q x hx
      obtain ⟨s3, h3⟩ := fanOut_returns s.cells.length hsub _ s2 hret ho2 hd2 hlen2
      rw [h3]
      exact ⟨_, rfl⟩
    · have hle : s.cells.length ≤ p := Nat.le_of_not_lt hp
      have hdef : s.cell p = default := State.cell_default s p hle
      have hdone : (s.cell p).done = Chan.nil := by rw [hdef]; rfl
      have hch : (s.cell p).children = none := by rw [hdef]; rfl
      simp only [State.put_outside _ _ _ hle, hdone, if_true, hch, Option.getD_none, fanOut]
      exact ⟨_, rfl⟩

theorem cancelAux_returns : ∀ (n : Nat) (s : State) (c : canceler) (b : Bool) (e : error),
    OpenSignals s → Downward s → s.cells.length ≤ c.addr + n →
      ∃ s', cancelAux (n + 1) s c b (some e) = Except.ok s' := by
  intro n
  induction n with
  | zero =>
    intro s c b e ho hd hlen
    have hnil : (s.cell c.addr).children.getD [] = [] := by
      rw [State.cell_default s c.addr (by omega)]; rfl
    have hsub : ∀ s c s', (fun s1 c e => cancelAux 0 s1 c false e) s c (some e) = Except.ok s' →
        Spread e (fun q => q = c.addr) s s' ∧
          (c.addr < s.cells.length → (s'.cell c.addr).err ≠ none) :=
      fun s1 c1 s2 h1 => cancelAux_false_spread 0 s1 c1 e s2 h1
    cases c with
    | cancelCtx parent p =>
      show ∃ s', cancelCtx.cancel (fun s1 c e => cancelAux 0 s1 c false e) s parent p b
        (some e) = Except.ok s'
      refine cancelCtx_cancel_returns hsub s parent p b ?_ ho hd
      intro s1 x hx
      rw [show (s.cell p).children.getD [] = [] from hnil] at hx
      exact absurd hx (List.not_mem_nil x)
    | timerCtx parent p d =>
      show ∃ s', timerCtx.cancel (fun s1 c e => cancelAux 0 s1 c false e) s parent p d b
        (some e) = Except.ok s'
      simp only [timerCtx.cancel]
      obtain ⟨s1, h1⟩ := cancelCtx_cancel_returns hsub s parent p false (by
        intro s1 x hx
        rw [show (s.cell p).children.getD [] = [] from hnil] at hx
        exact absurd hx (List.not_mem_nil x)) ho hd
      rw [h1]
      exact ⟨_, rfl⟩
  | succ n ih =>
    intro s c b e ho hd hlen
    have hsub : ∀ s c s', (fun s1 c e => cancelAux (n + 1) s1 c false e) s c (some e) =
        Except.ok s' → Spread e (fun q => q = c.addr) s s' ∧
          (c.addr < s.cells.length → (s'.cell c.addr).err ≠ none) :=
      fun s1 c1 s2 h1 => cancelAux_false_spread (n + 1) s1 c1 e s2 h1
    have hret : ∀ s1 x, x ∈ (s.cell c.addr).children.getD [] → OpenSignals s1 →
        Downward s1 → s1.cells.length = s.cells.length →
        ∃ s', (fun s1 c e => cancelAux (n + 1) s1 c false e) s1 x (some e) = Except.ok s' := by
      intro s1 x hx ho1 hd1 hl1
      have hlt := hd c.addr x hx
      exact ih s1 x false e ho1 hd1 (by omega)
    cases c with
    | cancelCtx parent p =>
      show ∃ s', cancelCtx.cancel (fun s1 c e => cancelAux (n + 1) s1 c false e) s parent p b
        (some e) = Except.ok s'
      exact cancelCtx_cancel_returns hsub s parent p b hret ho hd
    | timerCtx parent p d =>
      show ∃ s', timerCtx.cancel (fun s1 c e => cancelAux (n + 1) s1 c false e) s parent p d b
        (some e) = Except.ok s'
      simp only [timerCtx.cancel]
      obtain ⟨s1, h1⟩ := cancelCtx_cancel_returns hsub s parent p false hret ho hd
      rw [h1]
      exact ⟨_, rfl⟩

theorem cancel_returns (s : State) (c : canceler) (b : Bool) (e : error)
    (ho : OpenSignals s) (hd : Downward s) :
    ∃ s', c.cancel s b (some e) = Except.ok s' :=
  cancelAux_returns s.cells.length s c b e ho hd (Nat.le_add_left _ _)

theorem cancelCtx_cancel_flag (sub : State → canceler → Option error → Except Fault State)
    (s : State) (parent : Context) (p : Nat) (b : Bool) (err : Option error) :
    cancelCtx.cancel sub s parent p b err =
      match cancelCtx.cancel sub s parent p false err with
      | Except.error f => Except.error f
      | Except.ok s1 => Except.ok
          ((canceler.cancelCtx parent p).finish b (s.cell p).err s1) := by
  unfold cancelCtx.cancel canceler.finish
  cases err with
  | none => rfl
  | some e =>
    simp only
    by_cases herr : (s.cell p).err ≠ none
    · simp only [if_pos herr]
      rw [if_neg (fun h => herr h.2)]
    · simp only [if_neg herr]
      have herr0 : (s.cell p).err = none := not_not.mp herr
      split
      · rfl
      · split
        · rfl
        · cases b <;> simp [herr0]

theorem cancelAux_finish (n : Nat) (s : State) (c : canceler) (b : Bool) (e : error)
    (s' : State) (h : cancelAux n s c b (some e) = Except.ok s') :
    ∃ s1, Spread e (fun q => q = c.addr) s s1 ∧
      (c.addr < s.cells.length → (s1.cell c.addr).err ≠ none) ∧
      s' = c.finish b (s.cell c.addr).err s1 := by
  cases n with
  | zero => simp [cancelAux] at h
  | succ n =>
    have hsub : ∀ s c s', (fun s1 c e => cancelAux n s1 c false e) s c (some e) =
        Except.ok s' → Spread e (fun q => q = c.addr) s s' ∧
          (c.addr < s.cells.length → (s'.cell c.addr).err ≠ none) :=
      fun s1 c1 s2 h1 => cancelAux_false_spread n s1 c1 e s2 h1
    cases c with
    | cancelCtx parent p =>
      change cancelCtx.cancel (fun s1 c e => cancelAux n s1 c false e) s parent p b
        (some e) = Except.ok s' at h
      rw [cancelCtx_cancel_flag] at h
      cases hb : cancelCtx.cancel (fun s1 c e => cancelAux n s1 c false e) s parent p false
          (some e) with
      | error f => rw [hb] at h; simp at h
      | ok s1 =>
        rw [hb] at h
        simp only [Except.ok.injEq] at h
        obtain ⟨h1, h1v⟩ := cancelCtx_cancel_spread hsub s s1 parent p hb
        exact ⟨s1, h1, h1v, h.symm⟩
    | timerCtx parent p d =>
      change timerCtx.cancel (fun s1 c e => cancelAux n s1 c false e) s parent p d b
        (some e) = Except.ok s' at h
      simp only [timerCtx.cancel] at h
      cases hb : cancelCtx.cancel (fun s1 c e => cancelAux n s1 c false e) s parent p false
          (some e) with
      | error f => rw [hb] at h; simp at h
      | ok s1 =>
        rw [hb] at h
        simp only [Except.ok.injEq] at h
        obtain ⟨h1, h1v⟩ := cancelCtx_cancel_spread hsub s s1 parent p hb
        exact ⟨s1, h1, h1v, h.symm⟩

theorem finish_cancelCtx (parent : Context) (p : Nat) (b : Bool) (was : Option error)
    (s1 : State) :
    (canceler.cancelCtx parent p).finish b was s1 =
      if b = true ∧ was = none then removeChild s1 parent (canceler.cancelCtx parent p)
      else s1 := rfl

theorem finish_timerCtx (parent : Context) (p : Nat) (d : Time) (b : Bool)
    (was : Option error) (s1 : State) :
    (canceler.timerCtx parent p d).finish b was s1 =
      timerCtx.stopTimer
        (if b = true then removeChild s1 parent (canceler.timerCtx parent p d) else s1) p := rfl

theorem finish_length (c : canceler) (b : Bool) (was : Option error) (s1 : State) :
    (c.finish b was s1).cells.length = s1.cells.length := by
  cases c with
  | cancelCtx parent p =>
    rw [finish_cancelCtx]
    split
    · exact removeChild_length _ _ _
    · rfl
  | timerCtx parent p d =>
    rw [finish_timerCtx, stopTimer_length]
    split
    · exact removeChild_length _ _ _
    · rfl

theorem finish_monitors (c : canceler) (b : Bool) (was : Option error) (s1 : State) :
    (c.finish b was s1).monitors = s1.monitors := by
  cases c with
  | cancelCtx parent p =>
    rw [finish_cancelCtx]
    split
    · exact removeChild_monitors _ _ _
    · rfl
  | timerCtx parent p d =>
    rw [finish_timerCtx, stopTimer_monitors]
    split
    · exact removeChild_monitors _ _ _
    · rfl

theorem removeChild_fields (s : State) (parent : Context) (c : canceler) (q : Nat) :
    ((removeChild s parent c).cell q).err = (s.cell q).err ∧
    ((removeChild s parent c).cell q).done = (s.cell q).done ∧
    ((removeChild s parent c).cell q).timerErr = (s.cell q).timerErr ∧
    ((removeChild s parent c).cell q).Timer = (s.cell q).Timer ∧
    ((removeChild s parent c).cell q).children =
      if parentCancelCtx parent = some q then
        (s.cell q).children.map (List.filter (fun x => x ≠ c))
      else (s.cell q).children := by
  rw [removeChild_cell]
  split
  · exact ⟨rfl, rfl, rfl, rfl, rfl⟩
  · exact ⟨rfl, rfl, rfl, rfl, rfl⟩

theorem finish_fields (c : canceler) (b : Bool) (was : Option error) (s1 : State) (q : Nat) :
    ((c.finish b was s1).cell q).err = (s1.cell q).err ∧
    ((c.finish b was s1).cell q).done = (s1.cell q).done ∧
    ((c.finish b was s1).cell q).timerErr = (s1.cell q).timerErr ∧
    (((c.finish b was s1).cell q).Timer = (s1.cell q).Timer ∨
      ((c.finish b was s1).cell q).Timer = none) ∧
    (((c.finish b was s1).cell q).children = (s1.cell q).children ∨
      (b = true ∧ parentCancelCtx c.parent = some q ∧
        ((c.finish b was s1).cell q).children =
          (s1.cell q).children.map (List.filter (fun x => x ≠ c)))) := by
  cases c with
  | cancelCtx parent p =>
    rw [finish_cancelCtx]
    by_cases hb : b = true ∧ was = none
    · rw [if_pos hb]
      obtain ⟨r1, r2, r3, r4, r5⟩ := removeChild_fields s1 parent (canceler.cancelCtx parent p) q
      refine ⟨r1, r2, r3, Or.inl r4, ?_⟩
      by_cases hq : parentCancelCtx parent = some q
      · rw [if_pos hq] at r5
        exact Or.inr ⟨hb.1, hq, r5⟩
      · rw [if_neg hq] at r5
        exact Or.inl r5
    · rw [if_neg hb]
      exact ⟨rfl, rfl, rfl, Or.inl rfl, Or.inl rfl⟩
  | timerCtx parent p d =>
    rw [finish_timerCtx]
    by_cases hb : b = true
    · rw [if_pos hb]
      obtain ⟨t1, t2, t3, t4, t5⟩ := stopTimer_fields
        (removeChild s1 parent (canceler.timerCtx parent p d)) p q
      obtain ⟨r1, r2, r3, r4, r5⟩ := removeChild_fields s1 parent (canceler.timerCtx parent p d) q
      refine ⟨t1.trans r1, t2.trans r2, t4.trans r3, ?_, ?_⟩
      · rcases t5 with t5 | t5
        · exact Or.inl (t5.trans r4)
        · exact Or.inr t5
      · by_cases hq : parentCancelCtx parent = some q
        · rw [if_pos hq] at r5
          exact Or.inr ⟨hb, hq, t3.trans r5⟩
        · rw [if_neg hq] at r5
          exact Or.inl (t3.trans r5)
    · rw [if_neg hb]
      obtain ⟨t1, t2, t3, t4, t5⟩ := stopTimer_fields s1 p q
      exact ⟨t1, t2, t4, t5, Or.inl t3⟩

/-! ## The invariant of the reachable worlds -/

theorem finish_children_detached (c : canceler) (b : Bool) (was : Option error) (s1 : State)
    (q : Nat) (hb : b = true) (hw : c.isTimer = true ∨ was = none)
    (hq : parentCancelCtx c.parent = some q) :
    ((c.finish b was s1).cell q).children =
      (s1.cell q).children.map (List.filter (fun x => x ≠ c)) := by
  cases c with
  | cancelCtx parent p =>
    have hw : was = none := by
      rcases hw with hw | hw
      · exact absurd hw (by simp [canceler.isTimer])
      · exact hw
    rw [finish_cancelCtx, if_pos ⟨hb, hw⟩]
    have hq : parentCancelCtx parent = some q := hq
    have h5 := (removeChild_fields s1 parent (canceler.cancelCtx parent p) q).2.2.2.2
    rw [if_pos hq] at h5
    exact h5
  | timerCtx parent p d =>
    rw [finish_timerCtx, if_pos hb]
    have hq : parentCancelCtx parent = some q := hq
    have h5 := (removeChild_fields s1 parent (canceler.timerCtx parent p d) q).2.2.2.2
    rw [if_pos hq] at h5
    rw [(stopTimer_fields _ p q).2.2.1]
    exact h5

theorem mem_getD_map_filter {c x : canceler} {m : Option (List canceler)}
    (h : x ∈ (m.map (List.filter (fun y => y ≠ c))).getD []) : x ∈ m.getD [] ∧ x ≠ c := by
  cases m with
  | none => simp at h
  | some l =>
    simp only [Option.map_some', Option.getD_some, List.mem_filter, decide_eq_true_eq] at h
    exact ⟨h.1, h.2⟩

theorem Inv.cancel {w : World} (hI : Inv w) {c : canceler} {b : Bool} {e : error} {s' : State}
    (hc : c.toContext ∈ w.ctxs)
    (hb : b = false → ∀ q, c ∉ (w.st.cell q).children.getD [])
    (h : c.cancel w.st b (some e) = Except.ok s') : Inv ⟨s', w.ctxs, w.funcs⟩ := by
  obtain ⟨s1, hS, _, rfl⟩ := cancelAux_finish _ _ _ _ _ _ h
  have F := finish_fields c b (w.st.cell c.addr).err s1
  have herr : ∀ q, ((c.finish b (w.st.cell c.addr).err s1).cell q).err = (s1.cell q).err :=
    fun q => (F q).1
  have hsub : ∀ q x, x ∈ ((c.finish b (w.st.cell c.addr).err s1).cell q).children.getD [] →
      x ∈ (s1.cell q).children.getD [] := by
    intro q x hx
    rcases (F q).2.2.2.2 with hs | ⟨_, _, hf⟩
    · rw [hs] at hx; exact hx
    · rw [hf] at hx; exact (mem_getD_map_filter hx).1
  refine ⟨?_, hI.unique, ?_, ?_, ?_, ?_, ?_, ?_, ?_⟩
  · intro x hx
    show x.Below (c.finish b (w.st.cell c.addr).err s1).cells.length
    rw [finish_length, hS.length]
    exact hI.below x hx
  · intro q x hx
    show x.toContext ∈ w.ctxs ∧ parentCancelCtx x.parent = some q ∧
      ((c.finish b (w.st.cell c.addr).err s1).cell x.addr).err = none
    have hx1 := hsub q x hx
    have hk : Kept w.st s1 q := by
      rcases hS.cells q with hk | hh
      · exact hk
      · rw [hh.2.2.2.1] at hx1; simp at hx1
    have hx0 : x ∈ (w.st.cell q).children.getD [] := by rw [← hk.2.2]; exact hx1
    obtain ⟨hxc, hxp, hxe⟩ := hI.registered q x hx0
    refine ⟨hxc, hxp, ?_⟩
    rw [herr]
    rcases hS.cells x.addr with hk2 | hh2
    · rw [hk2.1]; exact hxe
    · exfalso
      rcases hh2.2.2.2.2.2 with hroot | ⟨p, y, c1, c2, c3, c4⟩
      · have hxc' : x = c := hI.unique x c hxc hc hroot
        subst hxc'
        cases b with
        | false => exact hb rfl q hx0
        | true =>
          rw [finish_children_detached x true _ s1 q rfl (Or.inr hxe) hxp] at hx
          exact (mem_getD_map_filter hx).2 rfl
      · obtain ⟨hyc, hyp, _⟩ := hI.registered p y c3
        have hyx : y = x := hI.unique y x hyc hxc c4
        subst hyx
        rw [hxp] at hyp
        have hpq : q = p := Option.some.inj hyp
        subst hpq
        rw [hk.1] at c2
        exact c2 c1
  · intro f hf
    refine ⟨(hI.funcs f hf).1, fun hfalse => ?_⟩
    show ((c.finish b (w.st.cell c.addr).err s1).cell f.ctx.addr).err ≠ none
    rw [herr]
    exact hS.err_stays _ ((hI.funcs f hf).2 hfalse)
  · intro q hq
    show ((c.finish b (w.st.cell c.addr).err s1).cell q).done = Chan.nil ∨
      ((c.finish b (w.st.cell c.addr).err s1).cell q).done = Chan.made false
    have hq' : ((c.finish b (w.st.cell c.addr).err s1).cell q).err = none := hq
    rw [herr] at hq'
    rw [(F q).2.1]
    exact (hI.signalOpen.after_spread hS) q hq'
  · intro q hq
    show ((c.finish b (w.st.cell c.addr).err s1).cell q).done.isClosed = true
    have hq' : ((c.finish b (w.st.cell c.addr).err s1).cell q).err ≠ none := hq
    rw [herr] at hq'
    rw [(F q).2.1]
    rcases hS.cells q with hk | hh
    · rw [hk.2.1]; exact hI.signalClosed q (hk.1 ▸ hq')
    · rcases hh.2.2.1 with hd | hd
      · rw [hd.2]; rfl
      · rw [hd.2]; rfl
  · intro q hq
    show ((c.finish b (w.st.cell c.addr).err s1).cell q).children = none
    have hq' : ((c.finish b (w.st.cell c.addr).err s1).cell q).err ≠ none := hq
    rw [herr] at hq'
    have h1 : (s1.cell q).children = none := by
      rcases hS.cells q with hk | hh
      · rw [hk.2.2]; exact hI.released q (hk.1 ▸ hq')
      · exact hh.2.2.2.1
    rcases (F q).2.2.2.2 with hs | ⟨_, _, hf⟩
    · rw [hs]; exact h1
    · rw [hf, h1]; rfl
  · show (c.finish b (w.st.cell c.addr).err s1).monitors = []
    rw [finish_monitors, hS.monitors]
    exact hI.monitors
  · intro q
    show ((c.finish b (w.st.cell c.addr).err s1).cell q).timerErr = none
    rw [(F q).2.2.1, hS.timerErr]
    exact hI.timerErr q

theorem Context.Below.weaken {b b' : Nat} (hbb : b ≤ b') :
    ∀ {c : Context}, c.Below b → c.Below b' := by
  intro c
  induction c generalizing b b' with
  | empty => intro _; trivial
  | cancelCtx parent p _ => intro h; exact ⟨Nat.lt_of_lt_of_le h.1 hbb, h.2⟩
  | valueCtx parent k v ih => intro h; exact ih hbb h
  | timerCtx parent p d _ => intro h; exact ⟨Nat.lt_of_lt_of_le h.1 hbb, h.2⟩

theorem canceler.toContext_inj {c1 c2 : canceler} (h : c1.toContext = c2.toContext) :
    c1 = c2 := by
  cases c1 <;> cases c2 <;> simp [canceler.toContext] at h ⊢ <;> exact h

theorem canceler.below {c : canceler} {b : Nat} (h : c.toContext.Below b) :
    c.addr < b ∧ c.parent.Below c.addr := by
  cases c <;> exact h

theorem parentCancelCtx_lt : ∀ {c : Context} {b p : Nat}, c.Below b →
    parentCancelCtx c = some p → p < b := by
  intro c
  induction c with
  | empty => intro b p _ h; simp [parentCancelCtx] at h
  | cancelCtx parent q _ =>
    intro b p hb h
    simp only [parentCancelCtx, Option.some.injEq] at h
    subst h; exact hb.1
  | valueCtx parent k v ih => intro b p hb h; exact ih hb h
  | timerCtx parent q d _ =>
    intro b p hb h
    simp only [parentCancelCtx, Option.some.injEq] at h
    subst h; exact hb.1

theorem State.alloc_length (s : State) : s.alloc.cells.length = s.cells.length + 1 := by
  simp [State.alloc]

theorem State.alloc_monitors (s : State) : s.alloc.monitors = s.monitors := rfl

theorem State.alloc_cell (s : State) (q : Nat) : s.alloc.cell q = s.cell q := by
  unfold State.cell State.alloc
  simp only [List.getD_eq_getElem?_getD]
  by_cases h : q < s.cells.length
  · rw [List.getElem?_append_left h]
  · have hle : s.cells.length ≤ q := Nat.le_of_not_lt h
    rw [List.getElem?_eq_none hle]
    by_cases h2 : q = s.cells.length
    · subst h2
      simp
    · rw [List.getElem?_eq_none (by simp; omega)]

theorem State.cell_fresh (s : State) : s.cell s.cells.length = default :=
  State.cell_default s _ (Nat.le_refl _)

theorem cancelCtx_Done_fields (s : State) (p q : Nat) :
    (cancelCtx.Done s p).1.cells.length = s.cells.length ∧
    (cancelCtx.Done s p).1.monitors = s.monitors ∧
    ((cancelCtx.Done s p).1.cell q).err = (s.cell q).err ∧
    ((cancelCtx.Done s p).1.cell q).children = (s.cell q).children ∧
    ((cancelCtx.Done s p).1.cell q).timerErr = (s.cell q).timerErr ∧
    ((cancelCtx.Done s p).1.cell q).Timer = (s.cell q).Timer ∧
    (((cancelCtx.Done s p).1.cell q).done = (s.cell q).done ∨
      ((s.cell q).done = Chan.nil ∧ ((cancelCtx.Done s p).1.cell q).done = Chan.made false)) := by
  unfold cancelCtx.Done
  by_cases hd : (s.cell p).done = Chan.nil
  · rw [if_pos hd]
    simp only
    rw [State.cell_put]
    refine ⟨State.put_length _ _ _, rfl, ?_⟩
    by_cases hq : q = p ∧ p < s.cells.length
    · rw [if_pos hq]
      obtain ⟨rfl, _⟩ := hq
      exact ⟨rfl, rfl, rfl, rfl, Or.inr ⟨hd, rfl⟩⟩
    · rw [if_neg hq]
      exact ⟨rfl, rfl, rfl, rfl, Or.inl rfl⟩
  · rw [if_neg hd]
    exact ⟨rfl, rfl, rfl, rfl, rfl, rfl, Or.inl rfl⟩

theorem Context.Done_fields (s : State) (c : Context) (q : Nat) :
    (c.Done s).1.cells.length = s.cells.length ∧
    (c.Done s).1.monitors = s.monitors ∧
    ((c.Done s).1.cell q).err = (s.cell q).err ∧
    ((c.Done s).1.cell q).children = (s.cell q).children ∧
    ((c.Done s).1.cell q).timerErr = (s.cell q).timerErr ∧
    ((c.Done s).1.cell q).Timer = (s.cell q).Timer ∧
    (((c.Done s).1.cell q).done = (s.cell q).done ∨
      ((s.cell q).done = Chan.nil ∧ ((c.Done s).1.cell q).done = Chan.made false)) := by
  induction c with
  | empty => exact ⟨rfl, rfl, rfl, rfl, rfl, rfl, Or.inl rfl⟩
  | cancelCtx parent p _ => exact cancelCtx_Done_fields s p q
  | valueCtx parent k v ih => exact ih
  | timerCtx parent p d _ => exact cancelCtx_Done_fields s p q

theorem cancelCtx_Done_ne_nil (s : State) (p : Nat) : (cancelCtx.Done s p).2 ≠ Chan.nil := by
  unfold cancelCtx.Done
  by_cases hd : (s.cell p).done = Chan.nil
  · rw [if_pos hd]; simp
  · rw [if_neg hd]; exact hd

theorem Context.Done_nil_iff (s : State) (c : Context) :
    (c.Done s).2 = Chan.nil ↔ parentCancelCtx c = none := by
  induction c with
  | empty => simp [Context.Done, parentCancelCtx]
  | cancelCtx parent p _ =>
    simp only [Context.Done, parentCancelCtx]
    exact ⟨fun h => absurd h (cancelCtx_Done_ne_nil s p), fun h => by simp at h⟩
  | valueCtx parent k v ih => exact ih
  | timerCtx parent p d _ =>
    simp only [Context.Done, parentCancelCtx]
    exact ⟨fun h => absurd h (cancelCtx_Done_ne_nil s p), fun h => by simp at h⟩

theorem Inv.of_fields {w : World} (hI : Inv w) {s' : State}
    (hlen : s'.cells.length = w.st.cells.length) (hmon : s'.monitors = w.st.monitors)
    (hf : ∀ q, (s'.cell q).err = (w.st.cell q).err ∧
      (s'.cell q).children = (w.st.cell q).children ∧
      (s'.cell q).timerErr = (w.st.cell q).timerErr ∧
      ((s'.cell q).done = (w.st.cell q).done ∨
        ((w.st.cell q).done = Chan.nil ∧ (s'.cell q).done = Chan.made false))) :
    Inv ⟨s', w.ctxs, w.funcs⟩ := by
  refine ⟨?_, hI.unique, ?_, ?_, ?_, ?_, ?_, ?_, ?_⟩
  · intro x hx
    show x.Below s'.cells.length
    rw [hlen]; exact hI.below x hx
  · intro q x hx
    show x.toContext ∈ w.ctxs ∧ parentCancelCtx x.parent = some q ∧ (s'.cell x.addr).err = none
    have hx : x ∈ (s'.cell q).children.getD [] := hx
    rw [(hf q).2.1] at hx
    rw [(hf x.addr).1]
    exact hI.registered q x hx
  · intro f hf'
    refine ⟨(hI.funcs f hf').1, fun hfalse => ?_⟩
    show (s'.cell f.ctx.addr).err ≠ none
    rw [(hf _).1]
    exact (hI.funcs f hf').2 hfalse
  · intro q hq
    have hq : (s'.cell q).err = none := hq
    show (s'.cell q).done = Chan.nil ∨ (s'.cell q).done = Chan.made false
    rw [(hf q).1] at hq
    rcases (hf q).2.2.2 with hd | hd
    · rw [hd]; exact hI.signalOpen q hq
    · exact Or.inr hd.2
  · intro q hq
    have hq : (s'.cell q).err ≠ none := hq
    show (s'.cell q).done.isClosed = true
    rw [(hf q).1] at hq
    have hc := hI.signalClosed q hq
    rcases (hf q).2.2.2 with hd | hd
    · rw [hd]; exact hc
    · rw [hd.1] at hc; simp [Chan.isClosed] at hc
  · intro q hq
    have hq : (s'.cell q).err ≠ none := hq
    show (s'.cell q).children = none
    rw [(hf q).1] at hq
    rw [(hf q).2.1]
    exact hI.released q hq
  · show s'.monitors = []
    rw [hmon]; exact hI.monitors
  · intro q
    show (s'.cell q).timerErr = none
    rw [(hf q).2.2.1]; exact hI.timerErr q

theorem Inv.done {w : World} (hI : Inv w) (c : Context) :
    Inv ⟨(c.Done w.st).1, w.ctxs, w.funcs⟩ := by
  have F := Context.Done_fields w.st c
  exact hI.of_fields (F 0).1 (F 0).2.1
    (fun q => ⟨(F q).2.2.1, (F q).2.2.2.1, (F q).2.2.2.2.1, (F q).2.2.2.2.2.2⟩)

/-- Allocating the object of a new canceler below a known parent. -/
theorem Inv.alloc {w : World} (hI : Inv w) {c : canceler}
    (haddr : c.addr = w.st.cells.length) (hpar : c.parent ∈ w.ctxs) :
    Inv ⟨w.st.alloc, c.toContext :: w.ctxs, w.funcs⟩ := by
  have hold : ∀ x : canceler, x.toContext ∈ w.ctxs → x.addr < w.st.cells.length :=
    fun x hx => (canceler.below (hI.below _ hx)).1
  refine ⟨?_, ?_, ?_, ?_, ?_, ?_, ?_, ?_, ?_⟩
  · intro x hx
    show x.Below w.st.alloc.cells.length
    rw [State.alloc_length]
    rcases List.mem_cons.mp hx with hx | hx
    · subst hx
      have hp := hI.below _ hpar
      cases c with
      | cancelCtx parent p =>
        simp only [canceler.addr] at haddr
        subst haddr
        exact ⟨Nat.lt_succ_self _, hp⟩
      | timerCtx parent p d =>
        simp only [canceler.addr] at haddr
        subst haddr
        exact ⟨Nat.lt_succ_self _, hp⟩
    · exact Context.Below.weaken (Nat.le_succ _) (hI.below x hx)
  · intro c1 c2 h1 h2 ha
    rcases List.mem_cons.mp h1 with h1 | h1
    · have e1 := canceler.toContext_inj h1
      rcases List.mem_cons.mp h2 with h2 | h2
      · exact e1.trans (canceler.toContext_inj h2).symm
      · have := hold c2 h2
        rw [← ha, e1, haddr] at this
        exact absurd this (Nat.lt_irrefl _)
    · rcases List.mem_cons.mp h2 with h2 | h2
      · have e2 := canceler.toContext_inj h2
        have := hold c1 h1
        rw [ha, e2, haddr] at this
        exact absurd this (Nat.lt_irrefl _)
      · exact hI.unique c1 c2 h1 h2 ha
  · intro q x hx
    have hx : x ∈ (w.st.alloc.cell q).children.getD [] := hx
    rw [State.alloc_cell] at hx
    obtain ⟨a1, a2, a3⟩ := hI.registered q x hx
    refine ⟨List.mem_cons_of_mem _ a1, a2, ?_⟩
    show (w.st.alloc.cell x.addr).err = none
    rw [State.alloc_cell]; exact a3
  · intro f hf
    refine ⟨List.mem_cons_of_mem _ (hI.funcs f hf).1, fun hfalse => ?_⟩
    show (w.st.alloc.cell f.ctx.addr).err ≠ none
    rw [State.alloc_cell]; exact (hI.funcs f hf).2 hfalse
  · intro q hq
    have hq : (w.st.alloc.cell q).err = none := hq
    show (w.st.alloc.cell q).done = Chan.nil ∨ (w.st.alloc.cell q).done = Chan.made false
    rw [State.alloc_cell] at hq ⊢
    exact hI.signalOpen q hq
  · intro q hq
    have hq : (w.st.alloc.cell q).err ≠ none := hq
    show (w.st.alloc.cell q).done.isClosed = true
    rw [State.alloc_cell] at hq ⊢
    exact hI.signalClosed q hq
  · intro q hq
    have hq : (w.st.alloc.cell q).err ≠ none := hq
    show (w.st.alloc.cell q).children = none
    rw [State.alloc_cell] at hq ⊢
    exact hI.released q hq
  · exact hI.monitors
  · intro q
    show (w.st.alloc.cell q).timerErr = none
    rw [State.alloc_cell]; exact hI.timerErr q

theorem Inv.addFunc {s : State} {ctxs : List Context} {funcs : List CancelFunc}
    (hI : Inv ⟨s, ctxs, funcs⟩) (f : CancelFunc) (hf : f.ctx.toContext ∈ ctxs)
    (hflag : f.removeFromParent = false → (s.cell f.ctx.addr).err ≠ none) :
    Inv ⟨s, ctxs, f :: funcs⟩ := by
  refine ⟨hI.below, hI.unique, hI.registered, ?_, hI.signalOpen, hI.signalClosed, hI.released,
    hI.monitors, hI.timerErr⟩
  intro g hg
  rcases List.mem_cons.mp hg with hg | hg
  · subst hg; exact ⟨hf, hflag⟩
  · exact hI.funcs g hg

theorem Inv.addValue {s : State} {ctxs : List Context} {funcs : List CancelFunc}
    (hI : Inv ⟨s, ctxs, funcs⟩) (parent : Context) (k v : Any) (hpar : parent ∈ ctxs) :
    Inv ⟨s, Context.valueCtx parent k v :: ctxs, funcs⟩ := by
  have hnot : ∀ c : canceler, c.toContext = Context.valueCtx parent k v → False := by
    intro c h; cases c <;> simp [canceler.toContext] at h
  refine ⟨?_, ?_, ?_, ?_, hI.signalOpen, hI.signalClosed, hI.released, hI.monitors, hI.timerErr⟩
  · intro x hx
    rcases List.mem_cons.mp hx with hx | hx
    · subst hx; exact hI.below parent hpar
    · exact hI.below x hx
  · intro c1 c2 h1 h2 ha
    rcases List.mem_cons.mp h1 with h1 | h1
    · exact absurd h1 (fun h => hnot c1 h)
    · rcases List.mem_cons.mp h2 with h2 | h2
      · exact absurd h2 (fun h => hnot c2 h)
      · exact hI.unique c1 c2 h1 h2 ha
  · intro q x hx
    obtain ⟨a1, a2, a3⟩ := hI.registered q x hx
    exact ⟨List.mem_cons_of_mem _ a1, a2, a3⟩
  · intro f hf
    exact ⟨List.mem_cons_of_mem _ (hI.funcs f hf).1, (hI.funcs f hf).2⟩

/-- Inserting a live node into the registry of its nearest cancelable
ancestor, itself live. -/
theorem Inv.register {w : World} (hI : Inv w) {c : canceler} {p : Nat}
    (hc : c.toContext ∈ w.ctxs) (hp : parentCancelCtx c.parent = some p)
    (hperr : (w.st.cell p).err = none) (hcerr : (w.st.cell c.addr).err = none)
    (l : List canceler) (hl : ∀ x ∈ l, x ∈ (w.st.cell p).children.getD [] ∨ x = c) :
    Inv ⟨w.st.put p { w.st.cell p with children := some l }, w.ctxs, w.funcs⟩ := by
  have hcell : ∀ q, ((w.st.put p { w.st.cell p with children := some l }).cell q).err =
        (w.st.cell q).err ∧
      ((w.st.put p { w.st.cell p with children := some l }).cell q).done =
        (w.st.cell q).done ∧
      ((w.st.put p { w.st.cell p with children := some l }).cell q).timerErr =
        (w.st.cell q).timerErr ∧
      (((w.st.put p { w.st.cell p with children := some l }).cell q).children =
        (w.st.cell q).children ∨
        (q = p ∧ ((w.st.put p { w.st.cell p with children := some l }).cell q).children =
          some l)) := by
    intro q
    rw [State.cell_put]
    by_cases hq : q = p ∧ p < w.st.cells.length
    · rw [if_pos hq]
      obtain ⟨rfl, _⟩ := hq
      exact ⟨rfl, rfl, rfl, Or.inr ⟨rfl, rfl⟩⟩
    · rw [if_neg hq]
      exact ⟨rfl, rfl, rfl, Or.inl rfl⟩
  refine ⟨?_, hI.unique, ?_, ?_, ?_, ?_, ?_, ?_, ?_⟩
  · intro x hx
    show x.Below (w.st.put p _).cells.length
    rw [State.put_length]; exact hI.below x hx
  · intro q x hx
    replace hx : x ∈
      ((w.st.put p { w.st.cell p with children := some l }).cell q).children.getD [] := hx
    show x.toContext ∈ w.ctxs ∧ parentCancelCtx x.parent = some q ∧
      ((w.st.put p { w.st.cell p with children := some l }).cell x.addr).err = none
    rw [(hcell x.addr).1]
    rcases (hcell q).2.2.2 with hs | ⟨hqp, hs⟩
    · rw [hs] at hx; exact hI.registered q x hx
    · rw [hs, Option.getD_some] at hx
      subst hqp
      rcases hl x hx with hx | hx
      · exact hI.registered q x hx
      · subst hx; exact ⟨hc, hp, hcerr⟩
  · intro f hf
    refine ⟨(hI.funcs f hf).1, fun hfalse => ?_⟩
    show ((w.st.put p { w.st.cell p with children := some l }).cell f.ctx.addr).err ≠ none
    rw [(hcell _).1]; exact (hI.funcs f hf).2 hfalse
  · intro q hq
    replace hq : ((w.st.put p { w.st.cell p with children := some l }).cell q).err = none := hq
    show ((w.st.put p { w.st.cell p with children := some l }).cell q).done = Chan.nil ∨
      ((w.st.put p { w.st.cell p with children := some l }).cell q).done = Chan.made false
    rw [(hcell q).1] at hq
    rw [(hcell q).2.1]; exact hI.signalOpen q hq
  · intro q hq
    replace hq : ((w.st.put p { w.st.cell p with children := some l }).cell q).err ≠ none := hq
    show ((w.st.put p { w.st.cell p with children := some l }).cell q).done.isClosed = true
    rw [(hcell q).1] at hq
    rw [(hcell q).2.1]; exact hI.signalClosed q hq
  · intro q hq
    replace hq : ((w.st.put p { w.st.cell p with children := some l }).cell q).err ≠ none := hq
    show ((w.st.put p { w.st.cell p with children := some l }).cell q).children = none
    rw [(hcell q).1] at hq
    rcases (hcell q).2.2.2 with hs | ⟨hqp, _⟩
    · rw [hs]; exact hI.released q hq
    · subst hqp; exact absurd hperr hq
  · exact hI.monitors
  · intro q
    show ((w.st.put p { w.st.cell p with children := some l }).cell q).timerErr = none
    rw [(hcell q).2.2.1]; exact hI.timerErr q

theorem Inv.propagate {w : World} (hI : Inv w) {c : canceler} {s' : State}
    (hc : c.toContext ∈ w.ctxs)
    (hfresh : (w.st.cell c.addr).err = none)
    (hunreg : ∀ q, c ∉ (w.st.cell q).children.getD [])
    (h : propagateCancel w.st c.parent c = Except.ok s') :
    Inv ⟨s', w.ctxs, w.funcs⟩ := by
  unfold propagateCancel at h
  simp only at h
  have hI2 := hI.done c.parent
  have F := Context.Done_fields w.st c.parent
  by_cases hnil : (c.parent.Done w.st).2 = Chan.nil
  · rw [if_pos hnil] at h
    simp only [Except.ok.injEq] at h
    subst h; exact hI2
  · rw [if_neg hnil] at h
    cases hp : parentCancelCtx c.parent with
    | none => exact absurd ((Context.Done_nil_iff w.st c.parent).mpr hp) hnil
    | some p =>
      rw [hp] at h
      simp only at h
      by_cases hperr : ((c.parent.Done w.st).1.cell p).err ≠ none
      · rw [if_pos hperr] at h
        obtain ⟨e, he⟩ := Option.ne_none_iff_exists'.mp hperr
        rw [he] at h
        refine Inv.cancel hI2 hc (fun _ q => ?_) h
        show c ∉ ((c.parent.Done w.st).1.cell q).children.getD []
        rw [(F q).2.2.2.1]; exact hunreg q
      · rw [if_neg hperr] at h
        simp only [Except.ok.injEq] at h
        subst h
        refine Inv.register hI2 hc hp (not_not.mp hperr) ?_ _ ?_
        · show ((c.parent.Done w.st).1.cell c.addr).err = none
          rw [(F _).2.2.1]; exact hfresh
        · intro x hx
          unfold mapInsert at hx
          split at hx
          · exact Or.inl hx
          · rcases List.mem_append.mp hx with hx | hx
            · exact Or.inl hx
            · exact Or.inr (List.mem_singleton.mp hx)

theorem cancel_length {s s' : State} {c : canceler} {b : Bool} {e : error}
    (h : c.cancel s b (some e) = Except.ok s') : s'.cells.length = s.cells.length := by
  obtain ⟨s1, hS, _, rfl⟩ := cancelAux_finish _ _ _ _ _ _ h
  rw [finish_length, hS.length]

theorem cancel_err_set {s s' : State} {c : canceler} {b : Bool} {e : error}
    (h : c.cancel s b (some e) = Except.ok s') (hlt : c.addr < s.cells.length) :
    (s'.cell c.addr).err ≠ none := by
  obtain ⟨s1, _, hv, rfl⟩ := cancelAux_finish _ _ _ _ _ _ h
  rw [(finish_fields _ _ _ _ _).1]
  exact hv hlt

theorem propagateCancel_length {s s' : State} {parent : Context} {c : canceler}
    (h : propagateCancel s parent c = Except.ok s') : s'.cells.length = s.cells.length := by
  unfold propagateCancel at h
  simp only at h
  have F := (Context.Done_fields s parent 0).1
  split at h
  · simp only [Except.ok.injEq] at h; subst h; exact F
  · split at h
    · split at h
      · next hperr =>
        obtain ⟨e, he⟩ := Option.ne_none_iff_exists'.mp hperr
        rw [he] at h
        rw [cancel_length h, F]
      · simp only [Except.ok.injEq] at h; subst h
        rw [State.put_length, F]
    · simp only [Except.ok.injEq] at h; subst h; exact F

theorem Inv.fresh {w : World} (hI : Inv w) {c : canceler} {s1 : State}
    (haddr : c.addr = w.st.cells.length) (hpar : c.parent ∈ w.ctxs)
    (h : propagateCancel w.st.alloc c.parent c = Except.ok s1) :
    Inv ⟨s1, c.toContext :: w.ctxs, w.funcs⟩ := by
  have hI1 : Inv ⟨w.st.alloc, c.toContext :: w.ctxs, w.funcs⟩ := hI.alloc haddr hpar
  refine Inv.propagate hI1 (List.mem_cons_self _ _) ?_ ?_ h
  · show (w.st.alloc.cell c.addr).err = none
    rw [State.alloc_cell, haddr, State.cell_fresh]; rfl
  · intro q hq
    have hq : c ∈ (w.st.alloc.cell q).children.getD [] := hq
    rw [State.alloc_cell] at hq
    have hlt := (canceler.below (hI.below _ (hI.registered q c hq).1)).1
    rw [haddr] at hlt
    exact Nat.lt_irrefl _ hlt

theorem Inv.withCancel {w : World} (hI : Inv w) {parent : Context} {s' : State}
    {ctx : Context} {f : CancelFunc} (hpar : parent ∈ w.ctxs)
    (h : WithCancel w.st parent = Except.ok (s', ctx, f)) :
    Inv ⟨s', ctx :: w.ctxs, f :: w.funcs⟩ := by
  unfold WithCancel newCancelCtx at h
  simp only at h
  cases hp : propagateCancel w.st.alloc parent (canceler.cancelCtx parent w.st.cells.length) with
  | error e => rw [hp] at h; simp at h
  | ok s1 =>
    rw [hp] at h
    simp only [Except.ok.injEq, Prod.mk.injEq] at h
    obtain ⟨rfl, rfl, rfl⟩ := h
    have hI1 := Inv.fresh hI (c := canceler.cancelCtx parent w.st.cells.length) rfl hpar hp
    exact hI1.addFunc _ (List.mem_cons_self _ _) (fun hf => by simp at hf)

theorem Inv.withDeadline {w : World} (hI : Inv w) {now : Time} {parent : Context}
    {deadline : Time} {s' : State} {ctx : Context} {f : CancelFunc} (hpar : parent ∈ w.ctxs)
    (h : WithDeadline w.st now parent deadline = Except.ok (s', ctx, f)) :
    Inv ⟨s', ctx :: w.ctxs, f :: w.funcs⟩ := by
  unfold WithDeadline at h
  split at h
  · exact hI.withCancel hpar h
  · simp only at h
    cases hp : propagateCancel w.st.alloc parent
        (canceler.timerCtx parent w.st.cells.length deadline) with
    | error e => rw [hp] at h; simp at h
    | ok s1 =>
      rw [hp] at h
      simp only at h
      have hI1 := Inv.fresh hI (c := canceler.timerCtx parent w.st.cells.length deadline)
        rfl hpar hp
      have hlen1 : s1.cells.length = w.st.cells.length + 1 := by
        rw [propagateCancel_length hp, State.alloc_length]
      split at h
      · cases hc : (canceler.timerCtx parent w.st.cells.length deadline).cancel s1 true
            (some timeOutErr) with
        | error e => rw [hc] at h; simp at h
        | ok s2 =>
          rw [hc] at h
          simp only [Except.ok.injEq, Prod.mk.injEq] at h
          obtain ⟨rfl, rfl, rfl⟩ := h
          have hI2 := Inv.cancel hI1 (List.mem_cons_self _ _) (fun hb => by simp at hb) hc
          refine hI2.addFunc _ (List.mem_cons_self _ _) (fun _ => ?_)
          exact cancel_err_set hc (by rw [hlen1]; exact Nat.lt_succ_self _)
      · simp only [Except.ok.injEq, Prod.mk.injEq] at h
        obtain ⟨rfl, rfl, rfl⟩ := h
        refine Inv.addFunc ?_ _ (List.mem_cons_self _ _) (fun hf => by simp at hf)
        split
        · refine hI1.of_fields (State.put_length _ _ _) rfl (fun q => ?_)
          show ((s1.put _ _).cell q).err = (s1.cell q).err ∧ _
          rw [State.cell_put]
          split
          · next hq => obtain ⟨rfl, _⟩ := hq; exact ⟨rfl, rfl, rfl, Or.inl rfl⟩
          · exact ⟨rfl, rfl, rfl, Or.inl rfl⟩
        · exact hI1

theorem Inv.init : Inv ⟨⟨[], []⟩, [Background], []⟩ := by
  have hcell : ∀ q, (State.mk [] []).cell q = default :=
    fun q => State.cell_default _ q (Nat.zero_le _)
  refine ⟨?_, ?_, ?_, ?_, ?_, ?_, ?_, rfl, ?_⟩
  · intro x hx
    rw [List.mem_singleton.mp hx]; trivial
  · intro c1 c2 h1 _ _
    have := List.mem_singleton.mp h1
    cases c1 <;> simp [canceler.toContext, Background] at this
  · intro q x hx
    have hx : x ∈ ((State.mk [] []).cell q).children.getD [] := hx
    rw [hcell] at hx; simp [default] at hx
  · intro f hf; simp at hf
  · intro q _
    show ((State.mk [] []).cell q).done = Chan.nil ∨ _
    rw [hcell]; exact Or.inl rfl
  · intro q hq
    have hq : ((State.mk [] []).cell q).err ≠ none := hq
    rw [hcell] at hq; exact absurd rfl hq
  · intro q hq
    have hq : ((State.mk [] []).cell q).err ≠ none := hq
    rw [hcell] at hq; exact absurd rfl hq
  · intro q
    show ((State.mk [] []).cell q).timerErr = none
    rw [hcell]; rfl

/-- Every reachable world satisfies the invariant. -/
theorem Reachable.inv {w : World} (h : Reachable w) : Inv w := by
  induction h with
  | init => exact Inv.init
  | withCancel _ _ hpar hw ih => exact ih.withCancel hpar hw
  | @withValue w parent key value ctx _ hpar hw ih =>
    unfold WithValue at hw
    split at hw
    · simp at hw
    · simp only [Except.ok.injEq] at hw
      subst hw
      exact Inv.addValue ih parent key value hpar
  | withDeadline _ _ _ _ hpar hw ih => exact ih.withDeadline hpar hw
  | @call w f s' _ hf hw ih =>
    refine Inv.cancel ih (ih.funcs f hf).1 (fun hb q hq => ?_) hw
    exact (ih.funcs f hf).2 hb (ih.registered q f.ctx hq).2.2
  | @fire w parent p d s' _ hc _ hw ih =>
    exact Inv.cancel ih (c := canceler.timerCtx parent p d) hc (fun hb => by simp at hb) hw
  | done _ _ ih => exact ih.done _

/-! ## The claims -/

theorem Inv.downward {w : World} (hI : Inv w) : Downward w.st := by
  intro q x hx
  obtain ⟨hc, hp, _⟩ := hI.registered q x hx
  exact parentCancelCtx_lt (canceler.below (hI.below _ hc)).2 hp

theorem Inv.cancel_total {w : World} (hI : Inv w) (c : canceler) (b : Bool) (e : error) :
    ∃ s', c.cancel w.st b (some e) = Except.ok s' :=
  cancel_returns w.st c b e hI.signalOpen hI.downward

theorem Inv.addr_lt {w : World} (hI : Inv w) {c : canceler} (hc : c.toContext ∈ w.ctxs) :
    c.addr < w.st.cells.length :=
  (canceler.below (hI.below _ hc)).1

theorem canceler.Err_toContext (s : State) (c : canceler) :
    c.toContext.Err s = (s.cell c.addr).err := by
  cases c <;> rfl

theorem canceler.signal_toContext (s : State) (c : canceler) :
    c.toContext.signal s =
      if (s.cell c.addr).done = Chan.nil then Chan.made false else (s.cell c.addr).done := by
  cases c <;>
  · simp only [Context.signal, canceler.toContext, Context.Done, cancelCtx.Done, canceler.addr]
    split <;> rfl

theorem canceler.signal_closed (s : State) (c : canceler)
    (h : (s.cell c.addr).done.isClosed = true) : (c.toContext.signal s).isClosed = true := by
  rw [canceler.signal_toContext]
  split
  · next hn => rw [hn] at h; simp [Chan.isClosed] at h
  · exact h

theorem Hit.closed {e : error} {A : Nat → Prop} {s s' : State} {q : Nat}
    (h : Hit e A s s' q) : (s'.cell q).done.isClosed = true := by
  rcases h.2.2.1 with hd | hd
  · rw [hd.2]; rfl
  · rw [hd.2]; rfl

/-- A cell whose error appears was hit. -/
theorem Spread.hit_of_err {e : error} {A : Nat → Prop} {s s' : State}
    (h : Spread e A s s') {q : Nat} (h0 : (s.cell q).err = none)
    (h1 : (s'.cell q).err ≠ none) : Hit e A s s' q := by
  rcases h.cells q with hk | hh
  · rw [hk.1] at h1; exact absurd h0 h1
  · exact hh

/-- Cancellation only reaches objects allocated at or after the root. -/
theorem Spread.hit_ge {e : error} {a : Nat} {s s' : State}
    (h : Spread e (fun q => q = a) s s') (hd : Downward s) :
    ∀ q, Hit e (fun q => q = a) s s' q → a ≤ q := by
  intro q
  induction q using Nat.strong_induction_on with
  | _ q ih =>
    intro hq
    rcases hq.2.2.2.2.2 with hr | ⟨p, x, c1, c2, c3, c4⟩
    · exact Nat.le_of_eq hr.symm
    · have hlt : p < q := c4 ▸ hd p x c3
      exact Nat.le_trans (ih p hlt (h.hit_of_err c1 c2)) (Nat.le_of_lt hlt)

theorem Spread.kept_below {e : error} {a : Nat} {s s' : State}
    (h : Spread e (fun q => q = a) s s') (hd : Downward s) {q : Nat} (hq : q < a) :
    Kept s s' q := by
  rcases h.cells q with hk | hh
  · exact hk
  · exact absurd (h.hit_ge hd q hh) (Nat.not_le_of_lt hq)

/-- Everything registered below a node that gets cancelled is cancelled with
it, provided the registered nodes were live and allocated. -/
theorem Spread.registered {e : error} {A : Nat → Prop} {s s' : State}
    (h : Spread e A s s')
    (hlive : ∀ q, ∀ x ∈ (s.cell q).children.getD [],
      (s.cell x.addr).err = none ∧ x.addr < s.cells.length) :
    ∀ {p : Nat} {d : canceler}, Registered s p d → Hit e A s s' p → Hit e A s s' d.addr := by
  intro p d hreg
  induction hreg with
  | direct hm =>
    intro hp
    exact h.hit_of_err (hlive _ _ hm).1 (hp.2.2.2.2.1 _ hm (hlive _ _ hm).2)
  | step hm _ ih =>
    intro hp
    exact ih (h.hit_of_err (hlive _ _ hm).1 (hp.2.2.2.2.1 _ hm (hlive _ _ hm).2))

theorem Inv.live {w : World} (hI : Inv w) : ∀ q, ∀ x ∈ (w.st.cell q).children.getD [],
    (w.st.cell x.addr).err = none ∧ x.addr < w.st.cells.length :=
  fun q x hx => ⟨(hI.registered q x hx).2.2, hI.addr_lt (hI.registered q x hx).1⟩

/-- The core of downward propagation, shared by the claims about it. -/
theorem Inv.cancel_reaches {w : World} (hI : Inv w) {n d : canceler} {b : Bool} {r : error}
    {s' : State} (hn : n.toContext ∈ w.ctxs) (hlive : (w.st.cell n.addr).err = none)
    (h : n.cancel w.st b (some r) = Except.ok s') :
    (s'.cell n.addr).err = some r ∧ (s'.cell n.addr).done.isClosed = true ∧
    (Registered w.st n.addr d →
      (s'.cell d.addr).err = some r ∧ (s'.cell d.addr).done.isClosed = true) := by
  obtain ⟨s1, hS, hv, rfl⟩ := cancelAux_finish _ _ _ _ _ _ h
  have hN : Hit r (fun q => q = n.addr) w.st s1 n.addr :=
    hS.hit_of_err hlive (hv (hI.addr_lt hn))
  have F := finish_fields n b (w.st.cell n.addr).err s1
  refine ⟨?_, ?_, fun hreg => ?_⟩
  · rw [(F _).1]; exact hN.2.1
  · rw [(F _).2.1]; exact hN.closed
  · have hD := hS.registered hI.live hreg hN
    rw [(F _).1, (F _).2.1]
    exact ⟨hD.2.1, hD.closed⟩

theorem testWithCancel_reachable : Reachable testWithCancel :=
  Reachable.withCancel (Context.cancelCtx Context.empty 0)
    (Reachable.withCancel Context.empty Reachable.init (by decide) rfl)
    (by decide) rfl

theorem stopTimer_noop (s : State) (p : Nat) (h : (s.cell p).Timer = none) :
    timerCtx.stopTimer s p = s := by
  unfold timerCtx.stopTimer
  rw [if_neg (fun hn => hn h)]

theorem stopTimer_timer (s : State) (p : Nat) : ((timerCtx.stopTimer s p).cell p).Timer = none := by
  rw [stopTimer_cell, if_pos rfl]

/-- `removeChild` of a canceler that is in no registry it could be deleted
from writes nothing. -/
theorem removeChild_noop (s : State) (parent : Context) (c : canceler)
    (h : ∀ a, parentCancelCtx parent = some a → c ∉ (s.cell a).children.getD []) :
    removeChild s parent c = s := by
  unfold removeChild
  cases hp : parentCancelCtx parent with
  | none => rfl
  | some p =>
    simp only
    cases hm : (s.cell p).children with
    | none => rfl
    | some m =>
      simp only
      have hc : c ∉ m := by
        have := h p hp
        rw [hm] at this
        exact this
      have hfil : m.filter (fun x => x ≠ c) = m := by
        rw [List.filter_eq_self]
        intro x hx
        simp only [ne_eq, decide_eq_true_eq]
        intro hxc; subst hxc; exact hc hx
      rw [hfil]
      have hcell : { s.cell p with children := some m } = s.cell p := by
        cases hcp : s.cell p with
        | mk a b c d t => rw [hcp] at hm; simp only at hm; subst hm; rfl
      rw [hcell, State.put_cell_self]

/-- A call of `cancel` on a node that is already cancelled: only what follows
the unlock is done. -/
theorem cancel_cancelled (s : State) (c : canceler) (b : Bool) (r : error)
    (h : (s.cell c.addr).err ≠ none) :
    c.cancel s b (some r) = Except.ok (c.finish b (s.cell c.addr).err s) := by
  cases c with
  | cancelCtx parent p =>
    have h : (s.cell p).err ≠ none := h
    show cancelCtx.cancel _ s parent p b (some r) = _
    rw [finish_cancelCtx, if_neg (fun hn => h hn.2)]
    unfold cancelCtx.cancel
    simp only [if_pos h]
  | timerCtx parent p d =>
    have h : (s.cell p).err ≠ none := h
    show timerCtx.cancel _ s parent p d b (some r) = _
    rw [finish_timerCtx]
    unfold timerCtx.cancel cancelCtx.cancel
    simp only [if_pos h]

/-- Two calls of `cancel` in a row on an allocated node. -/
theorem cancel_twice {s s1 : State} {c : canceler} {b1 : Bool} {r1 : error}
    (h : c.cancel s b1 (some r1) = Except.ok s1) (hlt : c.addr < s.cells.length)
    (b2 : Bool) (r2 : error) :
    c.cancel s1 b2 (some r2) = Except.ok
      (if c.isTimer = true ∧ b1 = false ∧ b2 = true then removeChild s1 c.parent c else s1) := by
  have herr := cancel_err_set h hlt
  rw [cancel_cancelled s1 c b2 r2 herr]
  congr 1
  obtain ⟨s0, _, _, rfl⟩ := cancelAux_finish _ _ _ _ _ _ h
  cases c with
  | cancelCtx parent p =>
    have hf : canceler.isTimer (canceler.cancelCtx parent p) = false := rfl
    rw [hf]
    rw [finish_cancelCtx _ _ b2, if_neg (fun hn => herr hn.2)]
    simp
  | timerCtx parent p d =>
    have hf : canceler.isTimer (canceler.timerCtx parent p d) = true := rfl
    rw [hf]
    have ht : (((canceler.timerCtx parent p d).finish b1 (s.cell p).err s0).cell p).Timer
        = none := by
      rw [finish_timerCtx]; exact stopTimer_timer _ _
    generalize hs1 : (canceler.timerCtx parent p d).finish b1
      (s.cell (canceler.timerCtx parent p d).addr).err s0 = s1 at herr ⊢
    have ht1 : (s1.cell p).Timer = none := by rw [← hs1]; exact ht
    rw [finish_timerCtx _ _ _ b2]
    cases b2 with
    | false =>
      simp only [Bool.false_eq_true, if_false, and_false]
      exact stopTimer_noop s1 p ht1
    | true =>
      simp only [if_true, and_true, true_and]
      have hrm : ((removeChild s1 parent (canceler.timerCtx parent p d)).cell p).Timer = none := by
        rw [(removeChild_fields _ _ _ _).2.2.2.1]; exact ht1
      rw [stopTimer_noop _ p hrm]
      cases b1 with
      | false => simp; rfl
      | true =>
        simp only [Bool.true_eq_false, if_false]
        apply removeChild_noop
        intro a ha hmem
        rw [← hs1, finish_children_detached (canceler.timerCtx parent p d) true _ s0 a rfl (Or.inl rfl) ha] at hmem
        exact (mem_getD_map_filter hmem).2 rfl

theorem cancel_err_kept {s s' : State} {c : canceler} {b : Bool} {e : error}
    (h : c.cancel s b (some e) = Except.ok s') (q : Nat) (hq : (s.cell q).err ≠ none) :
    (s'.cell q).err = (s.cell q).err := by
  obtain ⟨s1, hS, _, rfl⟩ := cancelAux_finish _ _ _ _ _ _ h
  rw [(finish_fields _ _ _ _ _).1]
  exact hS.err_kept q hq

theorem timerUnderCancel_reachable : Reachable timerUnderCancel :=
  Reachable.withDeadline 0 (Context.cancelCtx Context.empty 0) 10
    (Reachable.withCancel Context.empty Reachable.init (by decide) rfl)
    (by decide) rfl

theorem Context.chain_below : ∀ {c : Context} {b : Nat} {n : Context}, c.Below b →
    n ∈ c.chain → n.Below b := by
  intro c
  induction c with
  | empty =>
    intro b n _ hn
    rw [List.mem_singleton.mp hn]; trivial
  | cancelCtx parent p ih =>
    intro b n hb hn
    rcases List.mem_cons.mp hn with hn | hn
    · rw [hn]; exact hb
    · exact Context.Below.weaken (Nat.le_of_lt hb.1) (ih hb.2 hn)
  | valueCtx parent k v ih =>
    intro b n hb hn
    rcases List.mem_cons.mp hn with hn | hn
    · rw [hn]; exact hb
    · exact ih hb hn
  | timerCtx parent p d ih =>
    intro b n hb hn
    rcases List.mem_cons.mp hn with hn | hn
    · rw [hn]; exact hb
    · exact Context.Below.weaken (Nat.le_of_lt hb.1) (ih hb.2 hn)

/-- What a context reports depends only on the objects on its chain. -/
theorem Context.frame_below {s s' : State} : ∀ {n : Context} {b : Nat}, n.Below b →
    (∀ q, q < b → (s'.cell q).err = (s.cell q).err ∧ (s'.cell q).done = (s.cell q).done) →
    n.Err s' = n.Err s ∧ n.doneField s' = n.doneField s := by
  intro n
  induction n with
  | empty => intro b _ _; exact ⟨rfl, rfl⟩
  | cancelCtx parent p _ => intro b hb h; exact h p hb.1
  | valueCtx parent k v ih => intro b hb h; exact ih hb h
  | timerCtx parent p d _ => intro b hb h; exact h p hb.1

/-- `cancel` writes no error and no signal of an object allocated before the
node. -/
theorem Inv.cancel_frame {w : World} (hI : Inv w) {c : canceler} {b : Bool} {r : error}
    {s' : State} (h : c.cancel w.st b (some r) = Except.ok s') (q : Nat) (hq : q < c.addr) :
    (s'.cell q).err = (w.st.cell q).err ∧ (s'.cell q).done = (w.st.cell q).done := by
  obtain ⟨s1, hS, _, rfl⟩ := cancelAux_finish _ _ _ _ _ _ h
  have hk := hS.kept_below hI.downward hq
  have F := finish_fields c b (w.st.cell c.addr).err s1 q
  exact ⟨F.1.trans hk.1, F.2.1.trans hk.2.1⟩

/-- C3. Cancellation only flows downward: in a reachable world, cancelling a
node `D` (with any reason, detaching or not: its cancel function and a firing
timer are instances) returns and leaves `Err()` and the state of the
done-signal of every proper ancestor `N` of `D` as they were. -/
theorem C3_cancel_leaves_ancestors_unchanged {w : World} (hw : Reachable w) (D : canceler)
    (N : Context) (b : Bool) (r : error)
    (hD : D.toContext ∈ w.ctxs) (hN : N ∈ D.parent.chain) :
    ∃ s', D.cancel w.st b (some r) = Except.ok s' ∧
      N.Err s' = N.Err w.st ∧ N.doneField s' = N.doneField w.st := by
  obtain ⟨s', h⟩ := hw.inv.cancel_total D b r
  have hbelow : N.Below D.addr :=
    Context.chain_below (canceler.below (hw.inv.below _ hD)).2 hN
  exact ⟨s', h, Context.frame_below hbelow (fun q hq => hw.inv.cancel_frame h q hq)⟩

/-- C3 in the world of `TestWithCancel`: cancelling the child leaves the parent alone. -/
theorem C3_witness :
    Reachable testWithCancel ∧
    (canceler.cancelCtx (Context.cancelCtx Context.empty 0) 1).toContext ∈
      testWithCancel.ctxs ∧
    Context.cancelCtx Context.empty 0 ∈
      (canceler.cancelCtx (Context.cancelCtx Context.empty 0) 1).parent.chain ∧
    ∃ s', (canceler.cancelCtx (Context.cancelCtx Context.empty 0) 1).cancel testWithCancel.st
        true (some canceled) = Except.ok s' ∧
      (Context.cancelCtx Context.empty 0).Err s' =
        (Context.cancelCtx Context.empty 0).Err testWithCancel.st ∧
      (Context.cancelCtx Context.empty 0).doneField s' =
        (Context.cancelCtx Context.empty 0).doneField testWithCancel.st :=
  ⟨testWithCancel_reachable, by decide, by decide,
    C3_cancel_leaves_ancestors_unchanged testWithCancel_reachable _ _ true canceled
      (by decide) (by decide)⟩

theorem Context.Value_eq_nearestValue (eq : Comparison) (c : Context) (k : Any)
    (hcmp : ∀ pre kv post, c.bindings = pre ++ kv :: post →
      (∀ x ∈ pre, eq x.1 k = some false) → eq kv.1 k ≠ none) :
    c.Value eq k = Except.ok (c.nearestValue eq k) := by
  induction c with
  | empty => rfl
  | cancelCtx parent p ih => exact ih hcmp
  | valueCtx parent k1 v ih =>
    have hhead : eq k1 k ≠ none :=
      hcmp [] (k1, v) parent.bindings rfl (fun x hx => by simp at hx)
    unfold Context.nearestValue at ih ⊢
    simp only [Context.Value, Context.bindings, List.find?_cons]
    cases hk : eq k1 k with
    | none => exact absurd hk hhead
    | some b =>
      cases b with
      | true => simp
      | false =>
        simp only [Option.some.injEq, Bool.false_eq_true, decide_False]
        refine ih (fun pre kv post hb hpre => ?_)
        refine hcmp ((k1, v) :: pre) kv post (by simp [Context.bindings, hb]) ?_
        intro x hx
        rcases List.mem_cons.mp hx with hx | hx
        · rw [hx]; exact hk
        · exact hpre x hx
  | timerCtx parent p d ih => exact ih hcmp

/-- C4 (as amended). Whatever `==` does on the dynamic types of the keys: let
`k` be a key on which `==` does not panic in any comparison the lookup makes,
that is, with a key of the chain all nearer keys of which compared unequal.
Then `Value(k)` returns the value of the nearest value-carrying node on the
chain whose key `== k`, the cancelable and deadline-bound nodes being
transparent; it returns nil when no value-carrying node on the chain has a key
`== k`, and a result other than nil comes from a node with a key `== k`. (A
nil result does not show absence: the nearest node with key `== k` may carry
nil.) -/
theorem C4_value_is_nearest_binding (eq : Comparison) (c : Context) (k : Any)
    (hcmp : ∀ pre kv post, c.bindings = pre ++ kv :: post →
      (∀ x ∈ pre, eq x.1 k = some false) → eq kv.1 k ≠ none) :
    c.Value eq k = Except.ok (c.nearestValue eq k) ∧
    ((∀ kv ∈ c.bindings, eq kv.1 k ≠ some true) → c.Value eq k = Except.ok Any.nil) ∧
    (∀ v, c.Value eq k = Except.ok v → v ≠ Any.nil →
      ∃ kv ∈ c.bindings, eq kv.1 k = some true ∧ kv.2 = v) := by
  refine ⟨Context.Value_eq_nearestValue eq c k hcmp, ?_, ?_⟩
  · intro h
    rw [Context.Value_eq_nearestValue eq c k hcmp]
    unfold Context.nearestValue
    cases hf : c.bindings.find? (fun kv => decide (eq kv.1 k = some true)) with
    | none => rfl
    | some kv =>
      have h1 := List.find?_some hf
      have h2 := List.mem_of_find?_eq_some hf
      simp only [decide_eq_true_eq] at h1
      exact absurd h1 (h kv h2)
  · intro v hv hne
    rw [Context.Value_eq_nearestValue eq c k hcmp] at hv
    simp only [Except.ok.injEq] at hv
    unfold Context.nearestValue at hv
    cases hf : c.bindings.find? (fun kv => decide (eq kv.1 k = some true)) with
    | none => rw [hf] at hv; exact absurd hv.symm hne
    | some kv =>
      rw [hf] at hv
      have h1 := List.find?_some hf
      simp only [decide_eq_true_eq] at h1
      exact ⟨kv, List.mem_of_find?_eq_some hf, h1, hv⟩

/-- C4 (as amended) on the chain of `TestWithValue`:
`ctx3 = WithValue(WithCancel(WithValue(Background(), 1, 11)), 3, 33)`, key `1`. -/
theorem C4_witness :
    (∀ pre kv post, (Context.valueCtx (Context.cancelCtx
        (Context.valueCtx Context.empty (Any.val 1) (Any.val 11)) 0)
        (Any.val 3) (Any.val 33)).bindings = pre ++ kv :: post →
      (∀ x ∈ pre, Any.equal x.1 (Any.val 1) = some false) →
      Any.equal kv.1 (Any.val 1) ≠ none) ∧
    ((Context.valueCtx (Context.cancelCtx
        (Context.valueCtx Context.empty (Any.val 1) (Any.val 11)) 0)
        (Any.val 3) (Any.val 33)).Value Any.equal (Any.val 1) =
      Except.ok ((Context.valueCtx (Context.cancelCtx
        (Context.valueCtx Context.empty (Any.val 1) (Any.val 11)) 0)
        (Any.val 3) (Any.val 33)).nearestValue Any.equal (Any.val 1)) ∧
    ((∀ kv ∈ (Context.valueCtx (Context.cancelCtx
        (Context.valueCtx Context.empty (Any.val 1) (Any.val 11)) 0)
        (Any.val 3) (Any.val 33)).bindings, Any.equal kv.1 (Any.val 1) ≠ some true) →
      (Context.valueCtx (Context.cancelCtx
        (Context.valueCtx Context.empty (Any.val 1) (Any.val 11)) 0)
        (Any.val 3) (Any.val 33)).Value Any.equal (Any.val 1) = Except.ok Any.nil) ∧
    (∀ v, (Context.valueCtx (Context.cancelCtx
        (Context.valueCtx Context.empty (Any.val 1) (Any.val 11)) 0)
        (Any.val 3) (Any.val 33)).Value Any.equal (Any.val 1) = Except.ok v → v ≠ Any.nil →
      ∃ kv ∈ (Context.valueCtx (Context.cancelCtx
        (Context.valueCtx Context.empty (Any.val 1) (Any.val 11)) 0)
        (Any.val 3) (Any.val 33)).bindings,
        Any.equal kv.1 (Any.val 1) = some true ∧ kv.2 = v)) ∧
    (Context.valueCtx (Context.cancelCtx
        (Context.valueCtx Context.empty (Any.val 1) (Any.val 11)) 0)
        (Any.val 3) (Any.val 33)).Value Any.equal (Any.val 1) = Except.ok (Any.val 11) :=
  ⟨fun pre kv post h _ =>
      (by decide : ∀ kv ∈ (Context.valueCtx (Context.cancelCtx
          (Context.valueCtx Context.empty (Any.val 1) (Any.val 11)) 0)
          (Any.val 3) (Any.val 33)).bindings, Any.equal kv.1 (Any.val 1) ≠ none) kv
        (by rw [h]; simp),
    C4_value_is_nearest_binding Any.equal _ (Any.val 1)
      (fun pre kv post h _ =>
        (by decide : ∀ kv ∈ (Context.valueCtx (Context.cancelCtx
            (Context.valueCtx Context.empty (Any.val 1) (Any.val 11)) 0)
            (Any.val 3) (Any.val 33)).bindings, Any.equal kv.1 (Any.val 1) ≠ none) kv
          (by rw [h]; simp)),
    by decide⟩

/-- C4, the claim as stated fails. `WithValue(Background(), 1, nil)` is a node
with key `1`, and `Value(1)` on it is nil. `WithValue` also accepts a key of an
uncomparable type (a slice), and `Value` with a key of the same type panics in
`c.key == key` instead of returning. A NaN key is accepted too and `Value`
never finds it. -/
theorem C4_counterexample :
    (WithValue Background (Any.val 1) Any.nil =
      Except.ok (Context.valueCtx Context.empty (Any.val 1) Any.nil) ∧
    ¬ ((Context.valueCtx Context.empty (Any.val 1) Any.nil).Value Any.equal (Any.val 1) =
        Except.ok Any.nil ↔
      ∀ kv ∈ (Context.valueCtx Context.empty (Any.val 1) Any.nil).bindings,
        kv.1 ≠ Any.val 1)) ∧
    (WithValue Background (Any.uncomparable 0 1) (Any.val 5) =
      Except.ok (Context.valueCtx Context.empty (Any.uncomparable 0 1) (Any.val 5)) ∧
    (Context.valueCtx Context.empty (Any.uncomparable 0 1) (Any.val 5)).Value Any.equal
      (Any.uncomparable 0 1) = Except.error Fault.panic) ∧
    (WithValue Background Any.nan (Any.val 5) =
      Except.ok (Context.valueCtx Context.empty Any.nan (Any.val 5)) ∧
    (Context.valueCtx Context.empty Any.nan (Any.val 5)).Value Any.equal Any.nan =
      Except.ok Any.nil) := by
  decide

theorem Context.Err_eq (s : State) (c : Context) :
    c.Err s = match parentCancelCtx c with
      | none => none
      | some a => (s.cell a).err := by
  induction c with
  | empty => rfl
  | cancelCtx parent p _ => rfl
  | valueCtx parent k v ih => exact ih
  | timerCtx parent p d _ => rfl

theorem Context.Done_cell_ne (s : State) (c : Context) (q : Nat)
    (h : parentCancelCtx c ≠ some q) : (c.Done s).1.cell q = s.cell q := by
  induction c with
  | empty => rfl
  | cancelCtx parent p _ =>
    have hqp : q ≠ p := fun hq => h (by rw [hq]; rfl)
    simp only [Context.Done, cancelCtx.Done]
    split
    · exact State.cell_put_ne _ _ _ _ hqp
    · rfl
  | valueCtx parent k v ih => exact ih h
  | timerCtx parent p d _ =>
    have hqp : q ≠ p := fun hq => h (by rw [hq]; rfl)
    simp only [Context.Done, cancelCtx.Done]
    split
    · exact State.cell_put_ne _ _ _ _ hqp
    · rfl

/-- What `propagateCancel` does with a node just allocated below a parent of
a reachable world: the node gets the parent's error (none when the parent is
not cancelled or not cancelable), and it is stored in the registry of the
nearest cancelable ancestor exactly when that ancestor is not cancelled. -/
theorem Inv.propagate_fresh {w : World} (hI : Inv w) {c : canceler}
    (haddr : c.addr = w.st.cells.length) (hpar : c.parent ∈ w.ctxs) :
    ∃ s1, propagateCancel w.st.alloc c.parent c = Except.ok s1 ∧
      s1.cells.length = w.st.cells.length + 1 ∧
      (∀ q, (s1.cell q).err = if q = c.addr then c.parent.Err w.st else (w.st.cell q).err) ∧
      (∀ q, (s1.cell q).children =
        if parentCancelCtx c.parent = some q ∧ c.parent.Err w.st = none then
          some (mapInsert ((w.st.cell q).children.getD []) c)
        else (w.st.cell q).children) ∧
      ((s1.cell c.addr).done =
        if c.parent.Err w.st = none then Chan.nil else Chan.closedChan) ∧
      (∀ q, (s1.cell q).Timer = (w.st.cell q).Timer ∨ (s1.cell q).Timer = none) ∧
      (∀ q, (s1.cell q).timerErr = (w.st.cell q).timerErr) := by
  have FD := Context.Done_fields w.st.alloc c.parent
  simp only [State.alloc_cell, State.alloc_length, State.alloc_monitors] at FD
  have hlenD : (c.parent.Done w.st.alloc).1.cells.length = w.st.cells.length + 1 := (FD 0).1
  have hDerr : ∀ q, ((c.parent.Done w.st.alloc).1.cell q).err = (w.st.cell q).err :=
    fun q => (FD q).2.2.1
  have hDch : ∀ q, ((c.parent.Done w.st.alloc).1.cell q).children = (w.st.cell q).children :=
    fun q => (FD q).2.2.2.1
  have hDte : ∀ q, ((c.parent.Done w.st.alloc).1.cell q).timerErr = (w.st.cell q).timerErr :=
    fun q => (FD q).2.2.2.2.1
  have hDtm : ∀ q, ((c.parent.Done w.st.alloc).1.cell q).Timer = (w.st.cell q).Timer :=
    fun q => (FD q).2.2.2.2.2.1
  have hplt : ∀ a, parentCancelCtx c.parent = some a → a < w.st.cells.length :=
    fun a ha => parentCancelCtx_lt (hI.below _ hpar) ha
  have hpne : parentCancelCtx c.parent ≠ some c.addr := by
    intro h; have := hplt _ h; rw [haddr] at this; exact Nat.lt_irrefl _ this
  have hw0 : w.st.cell c.addr = default := by rw [haddr]; exact State.cell_fresh _
  have hfreshD : (c.parent.Done w.st.alloc).1.cell c.addr = default := by
    rw [Context.Done_cell_ne _ _ _ hpne, State.alloc_cell, hw0]
  have hInvD : Inv ⟨(c.parent.Done w.st.alloc).1, c.toContext :: w.ctxs, w.funcs⟩ :=
    (hI.alloc haddr hpar).done c.parent
  have hErr := Context.Err_eq w.st c.parent
  unfold propagateCancel
  simp only
  by_cases hnil : (c.parent.Done w.st.alloc).2 = Chan.nil
  · -- no cancelable ancestor
    have hp := (Context.Done_nil_iff _ _).mp hnil
    rw [hp] at hErr
    simp only at hErr
    rw [if_pos hnil]
    refine ⟨_, rfl, hlenD, ?_, ?_, ?_, fun q => Or.inl (hDtm q), hDte⟩
    · intro q
      split
      · next hq => rw [hq, hfreshD, hErr]; rfl
      · exact hDerr q
    · intro q
      rw [if_neg (fun h => by rw [hp] at h; simp at h)]
      exact hDch q
    · rw [hfreshD, if_pos hErr]; rfl
  · rw [if_neg hnil]
    cases hp : parentCancelCtx c.parent with
    | none => exact absurd ((Context.Done_nil_iff _ _).mpr hp) hnil
    | some a =>
      rw [hp] at hErr
      simp only at hErr ⊢
      have halt := hplt a hp
      have hane : c.addr ≠ a := by rw [haddr]; exact Nat.ne_of_gt halt
      by_cases hperr : ((c.parent.Done w.st.alloc).1.cell a).err ≠ none
      · -- the ancestor is cancelled: the node is cancelled with its reason
        rw [if_pos hperr]
        obtain ⟨e, he⟩ := Option.ne_none_iff_exists'.mp hperr
        have hEe : c.parent.Err w.st = some e := by rw [hErr, ← hDerr a, he]
        rw [he]
        obtain ⟨s1, h1⟩ := hInvD.cancel_total c false e
        refine ⟨s1, h1, ?_⟩
        obtain ⟨s0, hS, hv, rfl⟩ := cancelAux_finish _ _ _ _ _ _ h1
        have F := finish_fields c false ((c.parent.Done w.st.alloc).1.cell c.addr).err s0
        have hFch : ∀ q, ((c.finish false ((c.parent.Done w.st.alloc).1.cell c.addr).err
            s0).cell q).children = (s0.cell q).children := by
          intro q
          rcases (F q).2.2.2.2 with h | ⟨hb, _⟩
          · exact h
          · exact absurd hb (by simp)
        have hclt : c.addr < (c.parent.Done w.st.alloc).1.cells.length := by
          rw [hlenD, haddr]; exact Nat.lt_succ_self _
        have hHit : Hit e (fun q => q = c.addr) (c.parent.Done w.st.alloc).1 s0 c.addr :=
          hS.hit_of_err (by rw [hfreshD]; rfl) (hv hclt)
        have hKept : ∀ q, q ≠ c.addr → Kept (c.parent.Done w.st.alloc).1 s0 q := by
          intro q hq
          rcases hS.cells q with hk | hh
          · exact hk
          · exfalso
            have hge := hS.hit_ge hInvD.downward q hh
            rcases hh.2.2.2.2.2 with hr | ⟨p, x, _, _, c3, c4⟩
            · exact hq hr
            · have hx := (hInvD.live p x c3).2
              have hx : x.addr < (c.parent.Done w.st.alloc).1.cells.length := hx
              rw [hlenD, c4] at hx
              rw [haddr] at hge hq
              omega
        refine ⟨by rw [finish_length, hS.length, hlenD], ?_, ?_, ?_, ?_, ?_⟩
        · intro q
          rw [(F q).1]
          split
          · next hq => rw [hq, hHit.2.1, hEe]
          · next hq => rw [(hKept q hq).1]; exact hDerr q
        · intro q
          rw [if_neg (fun h => by rw [hEe] at h; simp at h), hFch]
          by_cases hq : q = c.addr
          · rw [hq, hHit.2.2.2.1, hw0]; rfl
          · rw [(hKept q hq).2.2]; exact hDch q
        · rw [(F _).2.1, if_neg (by rw [hEe]; simp)]
          rcases hHit.2.2.1 with hd | hd
          · exact hd.2
          · rw [hfreshD] at hd; exact absurd hd.1 (by simp [default])
        · intro q
          rcases (F q).2.2.2.1 with ht | ht
          · rcases hS.timer q with ht' | ht'
            · exact Or.inl (ht.trans (ht'.trans (hDtm q)))
            · exact Or.inr (ht.trans ht')
          · exact Or.inr ht
        · intro q
          rw [(F q).2.2.1, hS.timerErr]; exact hDte q
      · -- the ancestor is live: the node is registered
        rw [if_neg hperr]
        have hE0 : c.parent.Err w.st = none := by
          rw [hErr, ← hDerr a]; exact not_not.mp hperr
        have haD : a < (c.parent.Done w.st.alloc).1.cells.length := by
          rw [hlenD]; exact Nat.lt_succ_of_lt halt
        refine ⟨_, rfl, by rw [State.put_length]; exact hlenD, ?_, ?_, ?_, ?_, ?_⟩
        · intro q
          rw [State.cell_put]
          split
          · next hq =>
            obtain ⟨rfl, _⟩ := hq
            simp only
            rw [if_neg (fun h => hane h.symm)]
            exact hDerr q
          · split
            · next hq => rw [hq, hfreshD, hE0]; rfl
            · exact hDerr q
        · intro q
          rw [State.cell_put]
          by_cases hq : q = a
          · subst hq
            rw [if_pos ⟨rfl, haD⟩, if_pos ⟨rfl, hE0⟩, hDch]
          · rw [if_neg (fun h => hq h.1), if_neg (fun h => hq (Option.some.inj h.1).symm)]
            exact hDch q
        · rw [State.cell_put_ne _ _ _ _ hane, hfreshD, if_pos hE0]; rfl
        · intro q
          rw [State.cell_put]
          split
          · next hq => obtain ⟨rfl, _⟩ := hq; exact Or.inl (hDtm q)
          · exact Or.inl (hDtm q)
        · intro q
          rw [State.cell_put]
          split
          · next hq => obtain ⟨rfl, _⟩ := hq; exact hDte q
          · exact hDte q

theorem cancel_timer_none {s s' : State} {parent : Context} {p : Nat} {d : Time} {b : Bool}
    {e : error} (h : (canceler.timerCtx parent p d).cancel s b (some e) = Except.ok s') :
    (s'.cell p).Timer = none := by
  obtain ⟨s1, _, _, rfl⟩ := cancelAux_finish _ _ _ _ _ _ h
  rw [finish_timerCtx]
  exact stopTimer_timer _ _

theorem cancelledParent_reachable : Reachable cancelledParent :=
  Reachable.call (f := ⟨canceler.cancelCtx Context.empty 0, true⟩)
    (Reachable.withCancel Context.empty Reachable.init (by decide) rfl)
    (by decide) rfl

theorem deadlineRoot_reachable : Reachable deadlineRoot :=
  Reachable.withDeadline 0 Context.empty 10 Reachable.init (by decide) rfl

/-- What one of the two cancellations of an armed deadline-bound node does,
and that the other one then changes nothing. -/
theorem Inv.armed_cancel {w : World} (hI : Inv w) {parent : Context} {p : Nat} {d : Time}
    (hc : Context.timerCtx parent p d ∈ w.ctxs) (hE : (w.st.cell p).err = none)
    (r r' : error) :
    ∃ s1, (canceler.timerCtx parent p d).cancel w.st true (some r) = Except.ok s1 ∧
      (Context.timerCtx parent p d).Err s1 = some r ∧
      ((Context.timerCtx parent p d).signal s1).isClosed = true ∧
      (s1.cell p).Timer = none ∧
      (canceler.timerCtx parent p d).cancel s1 true (some r') = Except.ok s1 := by
  obtain ⟨s1, h1⟩ := hI.cancel_total (canceler.timerCtx parent p d) true r
  have hc' : (canceler.timerCtx parent p d).toContext ∈ w.ctxs := hc
  obtain ⟨e1, e2, _⟩ := hI.cancel_reaches (d := canceler.timerCtx parent p d) hc' hE h1
  have h2 := cancel_twice h1 (hI.addr_lt hc') true r'
  rw [if_neg (fun h => by simp at h)] at h2
  exact ⟨s1, h1, e1, canceler.signal_closed s1 (canceler.timerCtx parent p d) e2,
    cancel_timer_none h1, h2⟩

/-- C5. For a deadline-bound node of a reachable world in the armed state
(timer pending, error unset), with `f` its cancel function: if `f` runs
first, `Err()` is `canceled`, the done-signal is closed, the timer handle is
cleared, and the timer callback run afterwards changes nothing; if the timer
callback runs first, `Err()` is `timeOutErr`, the done-signal is closed, the
timer handle is cleared, and `f` run afterwards changes nothing. -/
theorem C5_first_of_cancel_and_timer_decides {w : World} (hw : Reachable w) (f : CancelFunc)
    (parent : Context) (p : Nat) (d : Time)
    (hf : f ∈ w.funcs) (hctx : f.ctx = canceler.timerCtx parent p d)
    (_hT : (w.st.cell p).Timer ≠ none) (hE : (w.st.cell p).err = none) :
    (∃ s1, f.call w.st = Except.ok s1 ∧
      (Context.timerCtx parent p d).Err s1 = some canceled ∧
      ((Context.timerCtx parent p d).signal s1).isClosed = true ∧
      (s1.cell p).Timer = none ∧
      timerFire s1 (canceler.timerCtx parent p d) = Except.ok s1) ∧
    (∃ s2, timerFire w.st (canceler.timerCtx parent p d) = Except.ok s2 ∧
      (Context.timerCtx parent p d).Err s2 = some timeOutErr ∧
      ((Context.timerCtx parent p d).signal s2).isClosed = true ∧
      (s2.cell p).Timer = none ∧
      f.call s2 = Except.ok s2) := by
  have hI := hw.inv
  have hflag : f.removeFromParent = true := by
    cases hb : f.removeFromParent with
    | true => rfl
    | false =>
      have := (hI.funcs f hf).2 hb
      rw [hctx] at this
      exact absurd hE this
  have hc : Context.timerCtx parent p d ∈ w.ctxs := by
    have := (hI.funcs f hf).1
    rw [hctx] at this
    exact this
  have hcall : ∀ s, f.call s = (canceler.timerCtx parent p d).cancel s true (some canceled) := by
    intro s
    unfold CancelFunc.call
    rw [hctx, hflag]
  constructor
  · obtain ⟨s1, h1, h2, h3, h4, h5⟩ := hI.armed_cancel hc hE canceled timeOutErr
    exact ⟨s1, by rw [hcall]; exact h1, h2, h3, h4, h5⟩
  · obtain ⟨s2, h1, h2, h3, h4, h5⟩ := hI.armed_cancel hc hE timeOutErr canceled
    exact ⟨s2, h1, h2, h3, h4, by rw [hcall]; exact h5⟩

/-- C5 in the world `timerUnderCancel`, whose deadline-bound node is armed. -/
theorem C5_witness :
    Reachable timerUnderCancel ∧
    (⟨canceler.timerCtx (Context.cancelCtx Context.empty 0) 1 10, true⟩ : CancelFunc) ∈
      timerUnderCancel.funcs ∧
    (timerUnderCancel.st.cell 1).Timer ≠ none ∧ (timerUnderCancel.st.cell 1).err = none ∧
    ((∃ s1, (⟨canceler.timerCtx (Context.cancelCtx Context.empty 0) 1 10, true⟩ :
          CancelFunc).call timerUnderCancel.st = Except.ok s1 ∧
      (Context.timerCtx (Context.cancelCtx Context.empty 0) 1 10).Err s1 = some canceled ∧
      ((Context.timerCtx (Context.cancelCtx Context.empty 0) 1 10).signal s1).isClosed = true ∧
      (s1.cell 1).Timer = none ∧
      timerFire s1 (canceler.timerCtx (Context.cancelCtx Context.empty 0) 1 10) =
        Except.ok s1) ∧
    (∃ s2, timerFire timerUnderCancel.st
        (canceler.timerCtx (Context.cancelCtx Context.empty 0) 1 10) = Except.ok s2 ∧
      (Context.timerCtx (Context.cancelCtx Context.empty 0) 1 10).Err s2 = some timeOutErr ∧
      ((Context.timerCtx (Context.cancelCtx Context.empty 0) 1 10).signal s2).isClosed = true ∧
      (s2.cell 1).Timer = none ∧
      (⟨canceler.timerCtx (Context.cancelCtx Context.empty 0) 1 10, true⟩ :
          CancelFunc).call s2 = Except.ok s2)) :=
  ⟨timerUnderCancel_reachable, by decide, by decide, by decide,
    C5_first_of_cancel_and_timer_decides timerUnderCancel_reachable
      ⟨canceler.timerCtx (Context.cancelCtx Context.empty 0) 1 10, true⟩
      (Context.cancelCtx Context.empty 0) 1 10 (by decide) rfl (by decide) (by decide)⟩

/-- `WithDeadline` on the path that builds a `timerCtx`, up to the test of
the remaining duration. -/
theorem WithDeadline_timer_path (s : State) (now : Time) (parent : Context) (t : Time)
    (hdl : ¬ (parent.Deadline.2 = true ∧ parent.Deadline.1 < t)) (s1 : State)
    (h1 : propagateCancel s.alloc parent (canceler.timerCtx parent s.cells.length t) =
      Except.ok s1) :
    WithDeadline s now parent t =
      if t - now ≤ 0 then
        match (canceler.timerCtx parent s.cells.length t).cancel s1 true (some timeOutErr) with
        | Except.error f => Except.error f
        | Except.ok s2 => Except.ok (s2, Context.timerCtx parent s.cells.length t,
            ⟨canceler.timerCtx parent s.cells.length t, false⟩)
      else
        Except.ok (if (s1.cell s.cells.length).timerErr = none then
            s1.put s.cells.length { s1.cell s.cells.length with Timer := some (t - now) }
          else s1, Context.timerCtx parent s.cells.length t,
          ⟨canceler.timerCtx parent s.cells.length t, true⟩) := by
  unfold WithDeadline
  rw [if_neg hdl]
  simp only [h1]
  rfl

/-- C6 (as amended). In a reachable world, for a parent that does not report
a deadline strictly earlier than `t` and a `t` that is not after the clock,
`WithDeadline(parent, t)` returns a deadline-bound node that is already
cancelled: its done-signal is closed, and its `Err()` is `timeOutErr` when
the parent reports no error, and the parent's error when the parent is
already cancelled. -/
theorem C6_past_deadline_returns_cancelled {w : World} (hw : Reachable w) (parent : Context)
    (now t : Time) (hpar : parent ∈ w.ctxs)
    (hdl : ¬ (parent.Deadline.2 = true ∧ parent.Deadline.1 < t)) (hpast : t ≤ now) :
    ∃ s' f, WithDeadline w.st now parent t =
        Except.ok (s', Context.timerCtx parent w.st.cells.length t, f) ∧
      ((Context.timerCtx parent w.st.cells.length t).signal s').isClosed = true ∧
      (Context.timerCtx parent w.st.cells.length t).Err s' =
        some ((parent.Err w.st).getD timeOutErr) := by
  have hI := hw.inv
  obtain ⟨s1, h1, hlen1, herr1, _, _, _, _⟩ :=
    hI.propagate_fresh (c := canceler.timerCtx parent w.st.cells.length t) rfl hpar
  have hI1 : Inv ⟨s1, (canceler.timerCtx parent w.st.cells.length t).toContext :: w.ctxs,
      w.funcs⟩ := hI.fresh (c := canceler.timerCtx parent w.st.cells.length t) rfl hpar h1
  obtain ⟨s2, h2⟩ := hI1.cancel_total (canceler.timerCtx parent w.st.cells.length t) true
    timeOutErr
  have hI2 := Inv.cancel hI1 (List.mem_cons_self _ _) (fun hb => by simp at hb) h2
  have hpath := WithDeadline_timer_path w.st now parent t hdl s1 h1
  rw [if_pos (sub_nonpos.mpr hpast)] at hpath
  have h2' : (canceler.timerCtx parent w.st.cells.length t).cancel s1 true (some timeOutErr) =
      Except.ok s2 := h2
  rw [h2'] at hpath
  have hc1 : (s1.cell w.st.cells.length).err = parent.Err w.st := by
    have := herr1 w.st.cells.length
    simpa [canceler.addr, canceler.parent] using this
  have herr2 : (s2.cell w.st.cells.length).err = some ((parent.Err w.st).getD timeOutErr) := by
    cases hp : parent.Err w.st with
    | none =>
      rw [hp] at hc1
      exact (hI1.cancel_reaches (d := canceler.timerCtx parent w.st.cells.length t)
        (List.mem_cons_self _ _) hc1 h2).1
    | some r =>
      rw [hp] at hc1
      have := cancel_err_kept h2 w.st.cells.length (by
        show (s1.cell w.st.cells.length).err ≠ none
        rw [hc1]; simp)
      rw [this]; exact hc1
  refine ⟨s2, _, hpath, ?_, herr2⟩
  exact canceler.signal_closed s2 (canceler.timerCtx parent w.st.cells.length t)
    (hI2.signalClosed w.st.cells.length (by
      show (s2.cell w.st.cells.length).err ≠ none
      rw [herr2]; simp))

/-- C6 in the world of `TestWithCancel`: a deadline `3` asked for at time `5`. -/
theorem C6_witness :
    Reachable testWithCancel ∧ Context.cancelCtx Context.empty 0 ∈ testWithCancel.ctxs ∧
    ¬ ((Context.cancelCtx Context.empty 0).Deadline.2 = true ∧
      (Context.cancelCtx Context.empty 0).Deadline.1 < 3) ∧ (3 : Time) ≤ 5 ∧
    ∃ s' f, WithDeadline testWithCancel.st 5 (Context.cancelCtx Context.empty 0) 3 =
        Except.ok (s', Context.timerCtx (Context.cancelCtx Context.empty 0)
          testWithCancel.st.cells.length 3, f) ∧
      ((Context.timerCtx (Context.cancelCtx Context.empty 0)
          testWithCancel.st.cells.length 3).signal s').isClosed = true ∧
      (Context.timerCtx (Context.cancelCtx Context.empty 0)
          testWithCancel.st.cells.length 3).Err s' =
        some (((Context.cancelCtx Context.empty 0).Err testWithCancel.st).getD timeOutErr) :=
  ⟨testWithCancel_reachable, by decide, by decide, by decide,
    C6_past_deadline_returns_cancelled testWithCancel_reachable _ 5 3 (by decide) (by decide)
      (by decide)⟩

/-- C6, the claim as stated fails: under the cancelled parent of the
reachable world `cancelledParent`, `WithDeadline(parent, 3)` called at time
`5` returns a node whose `Err()` is the parent's `canceled`, not
`timeOutErr`. -/
theorem C6_counterexample :
    Reachable cancelledParent ∧ Context.cancelCtx Context.empty 0 ∈ cancelledParent.ctxs ∧
    ¬ ((Context.cancelCtx Context.empty 0).Deadline.2 = true ∧
      (Context.cancelCtx Context.empty 0).Deadline.1 < 3) ∧ (3 : Time) ≤ 5 ∧
    ∃ s' ctx f, WithDeadline cancelledParent.st 5 (Context.cancelCtx Context.empty 0) 3 =
        Except.ok (s', ctx, f) ∧
      ctx.Err s' = some canceled ∧ ctx.Err s' ≠ some timeOutErr :=
  ⟨cancelledParent_reachable, by decide, by decide, by decide,
    ⟨[⟨none, Chan.closedChan, some canceled, none, none⟩,
      ⟨none, Chan.closedChan, some canceled, none, none⟩], []⟩,
    Context.timerCtx (Context.cancelCtx Context.empty 0) 1 3,
    ⟨canceler.timerCtx (Context.cancelCtx Context.empty 0) 1 3, false⟩,
    by decide, by decide, by decide⟩

theorem WithCancel_eq (s : State) (parent : Context) (s1 : State)
    (h1 : propagateCancel s.alloc parent (canceler.cancelCtx parent s.cells.length) =
      Except.ok s1) :
    WithCancel s parent = Except.ok (s1, Context.cancelCtx parent s.cells.length,
      ⟨canceler.cancelCtx parent s.cells.length, true⟩) := by
  unfold WithCancel newCancelCtx
  simp only [h1]
  rfl

/-- C7 (as amended). In a reachable world, for a parent that reports a
deadline `d` strictly earlier than the requested `t`, `WithDeadline(parent, t)`
is `WithCancel(parent)`: it returns a plain cancelable node, not a
deadline-bound one, and the new node has no timer. (For `d = t` a
deadline-bound node is built.) -/
theorem C7_strictly_earlier_parent_deadline_degrades {w : World} (hw : Reachable w)
    (parent : Context) (now t : Time) (hpar : parent ∈ w.ctxs)
    (hok : parent.Deadline.2 = true) (hlt : parent.Deadline.1 < t) :
    WithDeadline w.st now parent t = WithCancel w.st parent ∧
    ∃ s', WithDeadline w.st now parent t =
        Except.ok (s', Context.cancelCtx parent w.st.cells.length,
          ⟨canceler.cancelCtx parent w.st.cells.length, true⟩) ∧
      (s'.cell w.st.cells.length).Timer = none := by
  have heq : WithDeadline w.st now parent t = WithCancel w.st parent := by
    unfold WithDeadline
    rw [if_pos ⟨hok, hlt⟩]
  obtain ⟨s1, h1, _, _, _, _, htm, _⟩ :=
    hw.inv.propagate_fresh (c := canceler.cancelCtx parent w.st.cells.length) rfl hpar
  refine ⟨heq, s1, by rw [heq]; exact WithCancel_eq w.st parent s1 h1, ?_⟩
  rcases htm w.st.cells.length with h | h
  · rw [h, State.cell_fresh]; rfl
  · exact h

/-- C7 in the world `deadlineRoot`: the parent deadline `10` is before `11`. -/
theorem C7_witness :
    Reachable deadlineRoot ∧ Context.timerCtx Context.empty 0 10 ∈ deadlineRoot.ctxs ∧
    (Context.timerCtx Context.empty 0 10).Deadline.2 = true ∧
    (Context.timerCtx Context.empty 0 10).Deadline.1 < 11 ∧
    (WithDeadline deadlineRoot.st 0 (Context.timerCtx Context.empty 0 10) 11 =
      WithCancel deadlineRoot.st (Context.timerCtx Context.empty 0 10) ∧
    ∃ s', WithDeadline deadlineRoot.st 0 (Context.timerCtx Context.empty 0 10) 11 =
        Except.ok (s', Context.cancelCtx (Context.timerCtx Context.empty 0 10)
            deadlineRoot.st.cells.length,
          ⟨canceler.cancelCtx (Context.timerCtx Context.empty 0 10)
            deadlineRoot.st.cells.length, true⟩) ∧
      (s'.cell deadlineRoot.st.cells.length).Timer = none) :=
  ⟨deadlineRoot_reachable, by decide, by decide, by decide,
    C7_strictly_earlier_parent_deadline_degrades deadlineRoot_reachable _ 0 11 (by decide)
      (by decide) (by decide)⟩

/-- C7, the claim as stated fails: the parent of the reachable world
`deadlineRoot` reports the deadline `10`, and `WithDeadline(parent, 10)`,
called at time `0`, is not `WithCancel(parent)`: it returns a deadline-bound
node with a timer armed. -/
theorem C7_counterexample :
    Reachable deadlineRoot ∧ Context.timerCtx Context.empty 0 10 ∈ deadlineRoot.ctxs ∧
    (Context.timerCtx Context.empty 0 10).Deadline = (10, true) ∧ (10 : Time) ≤ 10 ∧
    WithDeadline deadlineRoot.st 0 (Context.timerCtx Context.empty 0 10) 10 ≠
      WithCancel deadlineRoot.st (Context.timerCtx Context.empty 0 10) ∧
    ∃ s' f, WithDeadline deadlineRoot.st 0 (Context.timerCtx Context.empty 0 10) 10 =
        Except.ok (s', Context.timerCtx (Context.timerCtx Context.empty 0 10) 1 10, f) ∧
      (s'.cell 1).Timer = some 10 :=
  ⟨deadlineRoot_reachable, by decide, by decide, by decide, by decide,
    ⟨[⟨some [canceler.timerCtx (Context.timerCtx Context.empty 0 10) 1 10], Chan.made false,
        none, none, some 10⟩, ⟨none, Chan.nil, none, none, some 10⟩], []⟩,
    ⟨canceler.timerCtx (Context.timerCtx Context.empty 0 10) 1 10, true⟩,
    by decide, by decide⟩

/-- C8. In a reachable world, when the nearest cancelable or deadline-bound
ancestor `a` of `parent` (found by skipping value-carrying nodes, `parent`
itself included) is already cancelled with reason `r`, `WithCancel(parent)`
returns a node that is already cancelled: its `Err()` is `r`, its done-signal
is closed, the registry of `a` is as before, and the new node is in no
registry. -/
theorem C8_cancelled_ancestor_cancels_new_node {w : World} (hw : Reachable w)
    (parent : Context) (a : Nat) (r : error) (hpar : parent ∈ w.ctxs)
    (ha : parentCancelCtx parent = some a) (hr : (w.st.cell a).err = some r) :
    ∃ s' f, WithCancel w.st parent =
        Except.ok (s', Context.cancelCtx parent w.st.cells.length, f) ∧
      (Context.cancelCtx parent w.st.cells.length).Err s' = some r ∧
      ((Context.cancelCtx parent w.st.cells.length).signal s').isClosed = true ∧
      (s'.cell a).children = (w.st.cell a).children ∧
      ∀ q, canceler.cancelCtx parent w.st.cells.length ∉ (s'.cell q).children.getD [] := by
  have hI := hw.inv
  obtain ⟨s1, h1, _, herr1, hch1, hdone1, _, _⟩ :=
    hI.propagate_fresh (c := canceler.cancelCtx parent w.st.cells.length) rfl hpar
  simp only [canceler.addr, canceler.parent] at herr1 hch1 hdone1
  have hE : parent.Err w.st = some r := by
    rw [Context.Err_eq, ha]; exact hr
  have hne : ¬ parent.Err w.st = none := by rw [hE]; simp
  have hch : ∀ q, (s1.cell q).children = (w.st.cell q).children := by
    intro q
    rw [hch1 q, if_neg (fun h => hne h.2)]
  refine ⟨s1, _, WithCancel_eq w.st parent s1 h1, ?_, ?_, hch a, ?_⟩
  · show (s1.cell w.st.cells.length).err = some r
    rw [herr1, if_pos rfl, hE]
  · apply canceler.signal_closed s1 (canceler.cancelCtx parent w.st.cells.length)
    show (s1.cell w.st.cells.length).done.isClosed = true
    rw [hdone1, if_neg hne]; rfl
  · intro q hq
    rw [hch q] at hq
    exact Nat.lt_irrefl _ (hI.live q _ hq).2

/-- C8 in the world `cancelledParent`. -/
theorem C8_witness :
    Reachable cancelledParent ∧ Context.cancelCtx Context.empty 0 ∈ cancelledParent.ctxs ∧
    parentCancelCtx (Context.cancelCtx Context.empty 0) = some 0 ∧
    (cancelledParent.st.cell 0).err = some canceled ∧
    ∃ s' f, WithCancel cancelledParent.st (Context.cancelCtx Context.empty 0) =
        Except.ok (s', Context.cancelCtx (Context.cancelCtx Context.empty 0)
          cancelledParent.st.cells.length, f) ∧
      (Context.cancelCtx (Context.cancelCtx Context.empty 0)
        cancelledParent.st.cells.length).Err s' = some canceled ∧
      ((Context.cancelCtx (Context.cancelCtx Context.empty 0)
        cancelledParent.st.cells.length).signal s').isClosed = true ∧
      (s'.cell 0).children = (cancelledParent.st.cell 0).children ∧
      ∀ q, canceler.cancelCtx (Context.cancelCtx Context.empty 0)
        cancelledParent.st.cells.length ∉ (s'.cell q).children.getD [] :=
  ⟨cancelledParent_reachable, by decide, by decide, by decide,
    C8_cancelled_ancestor_cancels_new_node cancelledParent_reachable _ 0 canceled
      (by decide) (by decide) (by decide)⟩

theorem AttachedTo.nearest {A : canceler} {c : Context} (h : AttachedTo A c) :
    parentCancelCtx c = some A.addr := by
  induction h with
  | self => cases A <;> rfl
  | value k v _ ih => exact ih

theorem mem_mapInsert (m : List canceler) (c : canceler) : c ∈ mapInsert m c := by
  unfold mapInsert
  split
  · next h => exact h
  · exact List.mem_append_right _ (List.mem_singleton_self c)

/-- A new node attached below the live node `A` is cancelled by a later
`cancel` of `A`. -/
theorem Reachable.cancel_new_child {w : World} (hw : Reachable w) {A c : canceler}
    (hA : A.toContext ∈ w.ctxs) (hlive : (w.st.cell A.addr).err = none)
    (hc : c ∈ (w.st.cell A.addr).children.getD []) (b : Bool) (r : error) :
    ∃ s', A.cancel w.st b (some r) = Except.ok s' ∧ c.toContext.Err s' = some r := by
  obtain ⟨s', h⟩ := hw.inv.cancel_total A b r
  refine ⟨s', h, ?_⟩
  rw [canceler.Err_toContext]
  exact ((hw.inv.cancel_reaches (d := c) hA hlive h).2.2 (Registered.direct hc)).1

/-- C9. Attachment skips value-carrying nodes: in a reachable world, for an
uncancelled cancelable or deadline-bound node `A` and a parent that is `A`
itself or a chain of value-carrying nodes above `A`, `WithCancel(parent)`
and, for `t` after the clock, `WithDeadline(parent, t)` put the new node into
the registry of `A`, leave every other registry as it was, and a `cancel` of
`A` called next, with any reason `r`, sets the new node's `Err()` to `r`. -/
theorem C9_new_node_registers_with_nearest_canceler {w : World} (hw : Reachable w)
    (A : canceler) (parent : Context) (hA : A.toContext ∈ w.ctxs) (hpar : parent ∈ w.ctxs)
    (hat : AttachedTo A parent) (hlive : A.toContext.Err w.st = none) :
    (∃ s' c f, WithCancel w.st parent = Except.ok (s', c.toContext, f) ∧
      c ∈ (s'.cell A.addr).children.getD [] ∧
      (∀ q, q ≠ A.addr → (s'.cell q).children = (w.st.cell q).children) ∧
      ∀ b r, ∃ s'', A.cancel s' b (some r) = Except.ok s'' ∧ c.toContext.Err s'' = some r) ∧
    (∀ now t : Time, now < t →
      ∃ s' c f, WithDeadline w.st now parent t = Except.ok (s', c.toContext, f) ∧
        c ∈ (s'.cell A.addr).children.getD [] ∧
        (∀ q, q ≠ A.addr → (s'.cell q).children = (w.st.cell q).children) ∧
        ∀ b r, ∃ s'', A.cancel s' b (some r) = Except.ok s'' ∧
          c.toContext.Err s'' = some r) := by
  have hI := hw.inv
  rw [canceler.Err_toContext] at hlive
  have hnear := hat.nearest
  have hE : parent.Err w.st = none := by rw [Context.Err_eq, hnear]; exact hlive
  have hAlt : A.addr < w.st.cells.length := hI.addr_lt hA
  -- the attachment itself, for either kind of new node
  have attach : ∀ c : canceler, c.addr = w.st.cells.length → c.parent = parent →
      ∃ s1, propagateCancel w.st.alloc parent c = Except.ok s1 ∧
        c ∈ (s1.cell A.addr).children.getD [] ∧
        (∀ q, q ≠ A.addr → (s1.cell q).children = (w.st.cell q).children) ∧
        (s1.cell A.addr).err = none := by
    intro c haddr hcp
    obtain ⟨s1, h1, _, herr1, hch1, _, _, _⟩ :=
      hI.propagate_fresh (c := c) haddr (by rw [hcp]; exact hpar)
    rw [hcp] at h1 herr1 hch1
    refine ⟨s1, h1, ?_, ?_, ?_⟩
    · rw [hch1, if_pos ⟨hnear, hE⟩]
      exact mem_mapInsert _ _
    · intro q hq
      rw [hch1, if_neg (fun h => hq (by rw [hnear] at h; exact (Option.some.inj h.1).symm))]
    · rw [herr1, if_neg (by rw [haddr]; exact Nat.ne_of_lt hAlt)]
      exact hlive
  constructor
  · obtain ⟨s1, h1, hm, hothers, hAerr⟩ :=
      attach (canceler.cancelCtx parent w.st.cells.length) rfl rfl
    have hwc := WithCancel_eq w.st parent s1 h1
    have hw' := Reachable.withCancel parent hw hpar hwc
    exact ⟨s1, canceler.cancelCtx parent w.st.cells.length, _, hwc, hm, hothers, fun b r =>
      hw'.cancel_new_child (List.mem_cons_of_mem _ hA) hAerr hm b r⟩
  · intro now t hnt
    by_cases hdl : parent.Deadline.2 = true ∧ parent.Deadline.1 < t
    · -- degraded to a plain cancelable node
      obtain ⟨s1, h1, hm, hothers, hAerr⟩ :=
        attach (canceler.cancelCtx parent w.st.cells.length) rfl rfl
      have hwc := WithCancel_eq w.st parent s1 h1
      have hwd : WithDeadline w.st now parent t = Except.ok (s1,
          (canceler.cancelCtx parent w.st.cells.length).toContext,
          ⟨canceler.cancelCtx parent w.st.cells.length, true⟩) := by
        unfold WithDeadline
        rw [if_pos hdl]; exact hwc
      have hw' := Reachable.withDeadline now parent t hw hpar hwd
      exact ⟨s1, canceler.cancelCtx parent w.st.cells.length, _, hwd, hm, hothers, fun b r =>
        hw'.cancel_new_child (List.mem_cons_of_mem _ hA) hAerr hm b r⟩
    · obtain ⟨s1, h1, hm, hothers, hAerr⟩ :=
        attach (canceler.timerCtx parent w.st.cells.length t) rfl rfl
      have hpath := WithDeadline_timer_path w.st now parent t hdl s1 h1
      rw [if_neg (by intro h; have := sub_nonpos.mp h; exact absurd hnt (not_lt.mpr this))]
        at hpath
      have hw' := Reachable.withDeadline now parent t hw hpar hpath
      -- arming the timer writes no registry and no error
      have hsame : ∀ q, ((if (s1.cell w.st.cells.length).timerErr = none then
            s1.put w.st.cells.length
              { s1.cell w.st.cells.length with Timer := some (t - now) }
          else s1).cell q).children = (s1.cell q).children ∧
          ((if (s1.cell w.st.cells.length).timerErr = none then
            s1.put w.st.cells.length
              { s1.cell w.st.cells.length with Timer := some (t - now) }
          else s1).cell q).err = (s1.cell q).err := by
        intro q
        split
        · rw [State.cell_put]
          split
          · next hq => obtain ⟨rfl, _⟩ := hq; exact ⟨rfl, rfl⟩
          · exact ⟨rfl, rfl⟩
        · exact ⟨rfl, rfl⟩
      have hm' := hm
      rw [← (hsame A.addr).1] at hm'
      refine ⟨_, canceler.timerCtx parent w.st.cells.length t, _, hpath, hm', ?_, fun b r =>
        hw'.cancel_new_child (List.mem_cons_of_mem _ hA) ?_ hm' b r⟩
      · intro q hq
        rw [(hsame q).1]; exact hothers q hq
      · show ((if (s1.cell w.st.cells.length).timerErr = none then
            s1.put w.st.cells.length
              { s1.cell w.st.cells.length with Timer := some (t - now) }
          else s1).cell A.addr).err = none
        rw [(hsame A.addr).2]; exact hAerr

theorem valueUnderCancel_reachable : Reachable valueUnderCancel :=
  Reachable.withValue (Context.cancelCtx Context.empty 0) (Any.val 1) (Any.val 2)
    (Reachable.withCancel Context.empty Reachable.init (by decide) rfl)
    (by decide) rfl

/-- C9 in the world `valueUnderCancel`: the parent is a value node above the canceler. -/
theorem C9_witness :
    Reachable valueUnderCancel ∧
    (canceler.cancelCtx Context.empty 0).toContext ∈ valueUnderCancel.ctxs ∧
    Context.valueCtx (Context.cancelCtx Context.empty 0) (Any.val 1) (Any.val 2) ∈
      valueUnderCancel.ctxs ∧
    AttachedTo (canceler.cancelCtx Context.empty 0)
      (Context.valueCtx (Context.cancelCtx Context.empty 0) (Any.val 1) (Any.val 2)) ∧
    (canceler.cancelCtx Context.empty 0).toContext.Err valueUnderCancel.st = none ∧
    ((∃ s' c f, WithCancel valueUnderCancel.st
        (Context.valueCtx (Context.cancelCtx Context.empty 0) (Any.val 1) (Any.val 2)) =
          Except.ok (s', c.toContext, f) ∧
      c ∈ (s'.cell (canceler.cancelCtx Context.empty 0).addr).children.getD [] ∧
      (∀ q, q ≠ (canceler.cancelCtx Context.empty 0).addr →
        (s'.cell q).children = (valueUnderCancel.st.cell q).children) ∧
      ∀ b r, ∃ s'', (canceler.cancelCtx Context.empty 0).cancel s' b (some r) =
        Except.ok s'' ∧ c.toContext.Err s'' = some r) ∧
    (∀ now t : Time, now < t →
      ∃ s' c f, WithDeadline valueUnderCancel.st now
        (Context.valueCtx (Context.cancelCtx Context.empty 0) (Any.val 1) (Any.val 2)) t =
          Except.ok (s', c.toContext, f) ∧
        c ∈ (s'.cell (canceler.cancelCtx Context.empty 0).addr).children.getD [] ∧
        (∀ q, q ≠ (canceler.cancelCtx Context.empty 0).addr →
          (s'.cell q).children = (valueUnderCancel.st.cell q).children) ∧
        ∀ b r, ∃ s'', (canceler.cancelCtx Context.empty 0).cancel s' b (some r) =
          Except.ok s'' ∧ c.toContext.Err s'' = some r)) :=
  ⟨valueUnderCancel_reachable, by decide, by decide, AttachedTo.value _ _ AttachedTo.self,
    by decide,
    C9_new_node_registers_with_nearest_canceler valueUnderCancel_reachable
      (canceler.cancelCtx Context.empty 0) _ (by decide) (by decide)
      (AttachedTo.value _ _ AttachedTo.self) (by decide)⟩

/-- C11. The root context returned by `Background()` is inert: in every
state and for every key, `Done()` returns the nil channel (which is never
closed) and leaves the state as it is, `Value(k)` is nil (it compares no key,
so whatever `==` does), `Err()` is nil and `Deadline()` is the zero time with
`ok = false`. -/
theorem C11_background_is_inert (s : State) (k : Any) (eq : Comparison) :
    Background.Done s = (s, Chan.nil) ∧ Chan.nil.isClosed = false ∧
    Background.Value eq k = Except.ok Any.nil ∧ Background.Err s = none ∧
    Background.Deadline = (0, false) :=
  ⟨rfl, rfl, rfl, rfl, rfl⟩

/-- C12. `WithValue(parent, key, value)` panics exactly when `key` is nil;
for every other key it returns the value-carrying node that holds this
parent, key and value. The function has no access to the heap, so it writes
no registry, and its result is not a canceler, so it can be an entry of no
registry; the nearest cancelable ancestor of the result is the parent's. -/
theorem C12_withValue_panics_iff_nil_key (parent : Context) (key value : Any) :
    (WithValue parent key value = Except.error Fault.panic ↔ key = Any.nil) ∧
    (key ≠ Any.nil →
      WithValue parent key value = Except.ok (Context.valueCtx parent key value)) ∧
    (∀ ctx, WithValue parent key value = Except.ok ctx →
      ctx = Context.valueCtx parent key value ∧ (∀ c : canceler, c.toContext ≠ ctx) ∧
      parentCancelCtx ctx = parentCancelCtx parent) := by
  unfold WithValue
  by_cases hk : key = Any.nil
  · simp [hk]
  · rw [if_neg hk]
    refine ⟨⟨fun h => by simp at h, fun h => absurd h hk⟩, fun _ => rfl, ?_⟩
    intro ctx hctx
    simp only [Except.ok.injEq] at hctx
    subst hctx
    refine ⟨rfl, ?_, rfl⟩
    intro c hc
    cases c <;> simp [canceler.toContext] at hc

theorem propagateCancel_err_kept {s s' : State} {parent : Context} {c : canceler}
    (h : propagateCancel s parent c = Except.ok s') (q : Nat) (hq : (s.cell q).err ≠ none) :
    (s'.cell q).err = (s.cell q).err := by
  unfold propagateCancel at h
  simp only at h
  have F := (Context.Done_fields s parent q).2.2.1
  split at h
  · simp only [Except.ok.injEq] at h; subst h; exact F
  · split at h
    · split at h
      · next hperr =>
        obtain ⟨e, he⟩ := Option.ne_none_iff_exists'.mp hperr
        rw [he] at h
        rw [cancel_err_kept h q (by rw [F]; exact hq), F]
      · simp only [Except.ok.injEq] at h; subst h
        rw [State.cell_put]
        split
        · next hqp => obtain ⟨rfl, _⟩ := hqp; exact F
        · exact F
    · simp only [Except.ok.injEq] at h; subst h; exact F

theorem WithCancel_err_kept {s s' : State} {parent ctx : Context} {f : CancelFunc}
    (h : WithCancel s parent = Except.ok (s', ctx, f)) (q : Nat)
    (hq : (s.cell q).err ≠ none) : (s'.cell q).err = (s.cell q).err := by
  unfold WithCancel newCancelCtx at h
  simp only at h
  cases hp : propagateCancel s.alloc parent (canceler.cancelCtx parent s.cells.length) with
  | error e => rw [hp] at h; simp at h
  | ok s1 =>
    rw [hp] at h
    simp only [Except.ok.injEq, Prod.mk.injEq] at h
    obtain ⟨rfl, _, _⟩ := h
    rw [propagateCancel_err_kept hp q (by rw [State.alloc_cell]; exact hq), State.alloc_cell]

theorem WithDeadline_err_kept {s s' : State} {now t : Time} {parent ctx : Context}
    {f : CancelFunc} (h : WithDeadline s now parent t = Except.ok (s', ctx, f)) (q : Nat)
    (hq : (s.cell q).err ≠ none) : (s'.cell q).err = (s.cell q).err := by
  unfold WithDeadline at h
  split at h
  · exact WithCancel_err_kept h q hq
  · simp only at h
    cases hp : propagateCancel s.alloc parent (canceler.timerCtx parent s.cells.length t) with
    | error e => rw [hp] at h; simp at h
    | ok s1 =>
      rw [hp] at h
      simp only at h
      have h1 : (s1.cell q).err = (s.cell q).err := by
        rw [propagateCancel_err_kept hp q (by rw [State.alloc_cell]; exact hq),
          State.alloc_cell]
      split at h
      · cases hc : (canceler.timerCtx parent s.cells.length t).cancel s1 true
            (some timeOutErr) with
        | error e => rw [hc] at h; simp at h
        | ok s2 =>
          rw [hc] at h
          simp only [Except.ok.injEq, Prod.mk.injEq] at h
          obtain ⟨rfl, _, _⟩ := h
          rw [cancel_err_kept hc q (by rw [h1]; exact hq), h1]
      · simp only [Except.ok.injEq, Prod.mk.injEq] at h
        obtain ⟨rfl, _, _⟩ := h
        split
        · rw [State.cell_put]
          split
          · next hqp => obtain ⟨rfl, _⟩ := hqp; exact h1
          · exact h1
        · exact h1

/-- In a reachable world `WithCancel` returns. -/
theorem Reachable.withCancel_total {w : World} (hw : Reachable w) (parent : Context)
    (hpar : parent ∈ w.ctxs) :
    ∃ s', WithCancel w.st parent = Except.ok (s', Context.cancelCtx parent w.st.cells.length,
      ⟨canceler.cancelCtx parent w.st.cells.length, true⟩) := by
  obtain ⟨s1, h1, _⟩ :=
    hw.inv.propagate_fresh (c := canceler.cancelCtx parent w.st.cells.length) rfl hpar
  exact ⟨s1, WithCancel_eq w.st parent s1 h1⟩

/-- In a reachable world `WithDeadline` returns: a plain `cancelCtx` when the
parent's deadline is strictly earlier, a `timerCtx` otherwise. -/
theorem Reachable.withDeadline_total {w : World} (hw : Reachable w) (now : Time)
    (parent : Context) (t : Time) (hpar : parent ∈ w.ctxs) :
    ∃ s' f, WithDeadline w.st now parent t = Except.ok (s',
      if parent.Deadline.2 = true ∧ parent.Deadline.1 < t then
        Context.cancelCtx parent w.st.cells.length
      else Context.timerCtx parent w.st.cells.length t, f) := by
  by_cases hdl : parent.Deadline.2 = true ∧ parent.Deadline.1 < t
  · obtain ⟨s1, h1⟩ := hw.withCancel_total parent hpar
    refine ⟨s1, ⟨canceler.cancelCtx parent w.st.cells.length, true⟩, ?_⟩
    rw [if_pos hdl]
    unfold WithDeadline
    rw [if_pos hdl]; exact h1
  · rw [if_neg hdl]
    obtain ⟨s1, h1, _⟩ :=
      hw.inv.propagate_fresh (c := canceler.timerCtx parent w.st.cells.length t) rfl hpar
    have hI1 := hw.inv.fresh (c := canceler.timerCtx parent w.st.cells.length t) rfl hpar h1
    have hpath := WithDeadline_timer_path w.st now parent t hdl s1 h1
    by_cases hd : t - now ≤ 0
    · rw [if_pos hd] at hpath
      obtain ⟨s2, h2⟩ := hI1.cancel_total (canceler.timerCtx parent w.st.cells.length t) true
        timeOutErr
      have h2' : (canceler.timerCtx parent w.st.cells.length t).cancel s1 true
          (some timeOutErr) = Except.ok s2 := h2
      rw [h2'] at hpath
      exact ⟨s2, _, hpath⟩
    · rw [if_neg hd] at hpath
      exact ⟨_, _, hpath⟩

/-- C15. Registry release: in a reachable world an object whose error is set
has no children registry (the nil map). `cancel` of a node of the world
returns and leaves the node without registry, and `WithCancel` and
`WithDeadline` below a parent whose nearest cancelable ancestor is cancelled
leave that ancestor without registry. -/
theorem C15_cancelled_node_has_no_registry {w : World} (hw : Reachable w) :
    (∀ q, (w.st.cell q).err ≠ none → (w.st.cell q).children = none) ∧
    (∀ (c : canceler) (b : Bool) (r : error), c.toContext ∈ w.ctxs →
      ∃ s', c.cancel w.st b (some r) = Except.ok s' ∧ (s'.cell c.addr).children = none) ∧
    (∀ (parent : Context) (a : Nat), parent ∈ w.ctxs → parentCancelCtx parent = some a →
      (w.st.cell a).err ≠ none →
      (∃ s' ctx f, WithCancel w.st parent = Except.ok (s', ctx, f) ∧
        (s'.cell a).children = none) ∧
      (∀ now t : Time, ∃ s' ctx f, WithDeadline w.st now parent t = Except.ok (s', ctx, f) ∧
        (s'.cell a).children = none)) := by
  have hI := hw.inv
  refine ⟨hI.released, ?_, ?_⟩
  · intro c b r hc
    obtain ⟨s', h⟩ := hI.cancel_total c b r
    refine ⟨s', h, ?_⟩
    obtain ⟨s1, hS, hv, rfl⟩ := cancelAux_finish _ _ _ _ _ _ h
    have h1 : (s1.cell c.addr).children = none := by
      rcases hS.cells c.addr with hk | hh
      · rw [hk.2.2]
        exact hI.released _ (by rw [← hk.1]; exact hv (hI.addr_lt hc))
      · exact hh.2.2.2.1
    rcases (finish_fields c b (w.st.cell c.addr).err s1 c.addr).2.2.2.2 with hs | ⟨_, _, hf⟩
    · rw [hs]; exact h1
    · rw [hf, h1]; rfl
  · intro parent a hpar _ herr
    constructor
    · obtain ⟨s', h⟩ := hw.withCancel_total parent hpar
      refine ⟨s', _, _, h, ?_⟩
      exact (Reachable.withCancel parent hw hpar h).inv.released a
        (by show (s'.cell a).err ≠ none; rw [WithCancel_err_kept h a herr]; exact herr)
    · intro now t
      obtain ⟨s', f, h⟩ := hw.withDeadline_total now parent t hpar
      refine ⟨s', _, f, h, ?_⟩
      exact (Reachable.withDeadline now parent t hw hpar h).inv.released a
        (by show (s'.cell a).err ≠ none; rw [WithDeadline_err_kept h a herr]; exact herr)

/-- C15 in the world `cancelledParent`. -/
theorem C15_witness :
    Reachable cancelledParent ∧
    ((∀ q, (cancelledParent.st.cell q).err ≠ none →
      (cancelledParent.st.cell q).children = none) ∧
    (∀ (c : canceler) (b : Bool) (r : error), c.toContext ∈ cancelledParent.ctxs →
      ∃ s', c.cancel cancelledParent.st b (some r) = Except.ok s' ∧
        (s'.cell c.addr).children = none) ∧
    (∀ (parent : Context) (a : Nat), parent ∈ cancelledParent.ctxs →
      parentCancelCtx parent = some a → (cancelledParent.st.cell a).err ≠ none →
      (∃ s' ctx f, WithCancel cancelledParent.st parent = Except.ok (s', ctx, f) ∧
        (s'.cell a).children = none) ∧
      (∀ now t : Time, ∃ s' ctx f,
        WithDeadline cancelledParent.st now parent t = Except.ok (s', ctx, f) ∧
        (s'.cell a).children = none))) :=
  ⟨cancelledParent_reachable, C15_cancelled_node_has_no_registry cancelledParent_reachable⟩

/-- C19. In a reachable world `WithDeadline(parent, t)` returns a context
whose `Deadline()` is `(d, true)` with `d` not after `t`: when the parent
reports a deadline strictly earlier than `t` the result is a plain cancelable
node and `d` is the parent's deadline, otherwise the result is a
deadline-bound node and `d = t`. -/
theorem C19_returned_deadline_is_not_after_requested {w : World} (hw : Reachable w)
    (now : Time) (parent : Context) (t : Time) (hpar : parent ∈ w.ctxs) :
    ∃ s' ctx f, WithDeadline w.st now parent t = Except.ok (s', ctx, f) ∧
      ctx.Deadline.2 = true ∧ ctx.Deadline.1 ≤ t ∧
      ((parent.Deadline.2 = true ∧ parent.Deadline.1 < t) →
        ctx = Context.cancelCtx parent w.st.cells.length ∧
        ctx.Deadline = parent.Deadline ∧ ctx.Deadline.1 < t) ∧
      (¬ (parent.Deadline.2 = true ∧ parent.Deadline.1 < t) →
        ctx = Context.timerCtx parent w.st.cells.length t ∧ ctx.Deadline = (t, true)) := by
  obtain ⟨s', f, h⟩ := hw.withDeadline_total now parent t hpar
  refine ⟨s', _, f, h, ?_⟩
  by_cases hdl : parent.Deadline.2 = true ∧ parent.Deadline.1 < t
  · rw [if_pos hdl]
    exact ⟨hdl.1, le_of_lt hdl.2, fun _ => ⟨rfl, rfl, hdl.2⟩, fun hn => absurd hdl hn⟩
  · rw [if_neg hdl]
    exact ⟨rfl, le_refl t, fun hp => absurd hp hdl, fun _ => ⟨rfl, rfl⟩⟩

/-- C19 in the world `deadlineRoot`: a later deadline asked below the
deadline `10`. -/
theorem C19_witness :
    Reachable deadlineRoot ∧ Context.timerCtx Context.empty 0 10 ∈ deadlineRoot.ctxs ∧
    ∃ s' ctx f, WithDeadline deadlineRoot.st 0 (Context.timerCtx Context.empty 0 10) 20 =
        Except.ok (s', ctx, f) ∧
      ctx.Deadline.2 = true ∧ ctx.Deadline.1 ≤ 20 ∧
      (((Context.timerCtx Context.empty 0 10).Deadline.2 = true ∧
          (Context.timerCtx Context.empty 0 10).Deadline.1 < 20) →
        ctx = Context.cancelCtx (Context.timerCtx Context.empty 0 10)
            deadlineRoot.st.cells.length ∧
        ctx.Deadline = (Context.timerCtx Context.empty 0 10).Deadline ∧
        ctx.Deadline.1 < 20) ∧
      (¬ ((Context.timerCtx Context.empty 0 10).Deadline.2 = true ∧
          (Context.timerCtx Context.empty 0 10).Deadline.1 < 20) →
        ctx = Context.timerCtx (Context.timerCtx Context.empty 0 10)
            deadlineRoot.st.cells.length 20 ∧
        ctx.Deadline = (20, true)) :=
  ⟨deadlineRoot_reachable, by decide,
    C19_returned_deadline_is_not_after_requested deadlineRoot_reachable 0 _ 20 (by decide)⟩

/-- What `cancel` does to the done fields: a field is left as it is, or it
belongs to an object that was uncancelled and is cancelled now, and then a
nil field got the shared closed channel and an open channel was closed. -/
theorem Inv.cancel_signal {w : World} (hI : Inv w) (c : canceler) (b : Bool) (r : error) :
    ∃ s', c.cancel w.st b (some r) = Except.ok s' ∧
      ∀ q, (s'.cell q).done = (w.st.cell q).done ∨
        ((w.st.cell q).err = none ∧ (s'.cell q).err = some r ∧
          (((w.st.cell q).done = Chan.nil ∧ (s'.cell q).done = Chan.closedChan) ∨
            ((w.st.cell q).done = Chan.made false ∧ (s'.cell q).done = Chan.made true))) := by
  obtain ⟨s', h⟩ := hI.cancel_total c b r
  refine ⟨s', h, fun q => ?_⟩
  obtain ⟨s1, hS, _, rfl⟩ := cancelAux_finish _ _ _ _ _ _ h
  have F := finish_fields c b (w.st.cell c.addr).err s1 q
  rw [F.1, F.2.1]
  rcases hS.cells q with hk | hh
  · exact Or.inl hk.2.1
  · exact Or.inr ⟨hh.1, hh.2.1, hh.2.2.1⟩

/-- C14. One-shot signal: in a reachable world the done-signal of an object
is closed exactly when its error is set, and it is nil or open while the
error is unset. `cancel` returns (so no `close` met a nil, a closed or the
shared pre-closed channel) and every done field is left as it was or belongs
to an object cancelled by this call, where a nil field got the pre-closed
channel and an open channel was closed. The channel handed out by `Done()`
of an uncancelled node is open, and a `cancel` that follows closes this very
channel: the field holds the node's own channel, closed, not the pre-closed
one. -/
theorem C14_signal_closed_iff_error_set {w : World} (hw : Reachable w) :
    (∀ q, ((w.st.cell q).done.isClosed = true ↔ (w.st.cell q).err ≠ none) ∧
      ((w.st.cell q).err = none →
        (w.st.cell q).done = Chan.nil ∨ (w.st.cell q).done = Chan.made false)) ∧
    (∀ (c : canceler) (b : Bool) (r : error),
      ∃ s', c.cancel w.st b (some r) = Except.ok s' ∧
        ∀ q, (s'.cell q).done = (w.st.cell q).done ∨
          ((w.st.cell q).err = none ∧ (s'.cell q).err = some r ∧
            (((w.st.cell q).done = Chan.nil ∧ (s'.cell q).done = Chan.closedChan) ∨
              ((w.st.cell q).done = Chan.made false ∧
                (s'.cell q).done = Chan.made true)))) ∧
    (∀ (c : canceler) (b : Bool) (r : error), c.toContext ∈ w.ctxs →
      c.toContext.Err w.st = none →
      (c.toContext.Done w.st).2 = Chan.made false ∧
      ∃ s', c.cancel (c.toContext.Done w.st).1 b (some r) = Except.ok s' ∧
        (s'.cell c.addr).done = Chan.made true ∧
        c.toContext.signal s' = Chan.made true) := by
  have hI := hw.inv
  refine ⟨fun q => ⟨⟨fun hc => ?_, hI.signalClosed q⟩, hI.signalOpen q⟩,
    fun c b r => hI.cancel_signal c b r, ?_⟩
  · intro hn
    rcases hI.signalOpen q hn with hd | hd
    · rw [hd] at hc; simp [Chan.isClosed] at hc
    · rw [hd] at hc; simp [Chan.isClosed] at hc
  · intro c b r hc hlive
    rw [canceler.Err_toContext] at hlive
    have hlt := hI.addr_lt hc
    have hD : (c.toContext.Done w.st) = cancelCtx.Done w.st c.addr := by cases c <;> rfl
    have hopen := hI.signalOpen c.addr hlive
    -- the channel handed out, and the field after `Done()`
    have h2 : (cancelCtx.Done w.st c.addr).2 = Chan.made false ∧
        ((cancelCtx.Done w.st c.addr).1.cell c.addr).done = Chan.made false := by
      unfold cancelCtx.Done
      rcases hopen with hd | hd
      · rw [if_pos hd]
        exact ⟨rfl, by rw [State.cell_put_same _ _ _ hlt]⟩
      · rw [if_neg (by rw [hd]; simp)]
        exact ⟨hd, hd⟩
    rw [hD]
    refine ⟨h2.1, ?_⟩
    have hI1 : Inv ⟨(cancelCtx.Done w.st c.addr).1, w.ctxs, w.funcs⟩ := by
      rw [← hD]; exact hI.done c.toContext
    obtain ⟨s', h, hs⟩ := hI1.cancel_signal c b r
    have herr1 : ((cancelCtx.Done w.st c.addr).1.cell c.addr).err = none := by
      rw [(cancelCtx_Done_fields w.st c.addr c.addr).2.2.1]; exact hlive
    have hclosed := (hI1.cancel_reaches (d := c) hc herr1 h).2.1
    have hdone : (s'.cell c.addr).done = Chan.made true := by
      rcases hs c.addr with hk | ⟨_, _, hd | hd⟩
      · have hk : (s'.cell c.addr).done = ((cancelCtx.Done w.st c.addr).1.cell c.addr).done := hk
        rw [hk, h2.2] at hclosed
        simp [Chan.isClosed] at hclosed
      · have hd1 : ((cancelCtx.Done w.st c.addr).1.cell c.addr).done = Chan.nil := hd.1
        rw [h2.2] at hd1
        simp at hd1
      · exact hd.2
    refine ⟨s', h, hdone, ?_⟩
    rw [canceler.signal_toContext, hdone]
    simp

/-- C14 in the world of `TestWithCancel`. -/
theorem C14_witness :
    Reachable testWithCancel ∧
    ((∀ q, ((testWithCancel.st.cell q).done.isClosed = true ↔
        (testWithCancel.st.cell q).err ≠ none) ∧
      ((testWithCancel.st.cell q).err = none →
        (testWithCancel.st.cell q).done = Chan.nil ∨
          (testWithCancel.st.cell q).done = Chan.made false)) ∧
    (∀ (c : canceler) (b : Bool) (r : error),
      ∃ s', c.cancel testWithCancel.st b (some r) = Except.ok s' ∧
        ∀ q, (s'.cell q).done = (testWithCancel.st.cell q).done ∨
          ((testWithCancel.st.cell q).err = none ∧ (s'.cell q).err = some r ∧
            (((testWithCancel.st.cell q).done = Chan.nil ∧
                (s'.cell q).done = Chan.closedChan) ∨
              ((testWithCancel.st.cell q).done = Chan.made false ∧
                (s'.cell q).done = Chan.made true)))) ∧
    (∀ (c : canceler) (b : Bool) (r : error), c.toContext ∈ testWithCancel.ctxs →
      c.toContext.Err testWithCancel.st = none →
      (c.toContext.Done testWithCancel.st).2 = Chan.made false ∧
      ∃ s', c.cancel (c.toContext.Done testWithCancel.st).1 b (some r) = Except.ok s' ∧
        (s'.cell c.addr).done = Chan.made true ∧
        c.toContext.signal s' = Chan.made true)) :=
  ⟨testWithCancel_reachable, C14_signal_closed_iff_error_set testWithCancel_reachable⟩

/-- Below a cancelled ancestor and with a deadline after the clock,
`WithDeadline` on its `timerCtx` path returns a cancelled node whose timer is
armed all the same: the test `ctx.err == nil` reads the field `err` of the
`timerCtx`, which nothing writes. -/
theorem Reachable.withDeadline_arms_cancelled {w : World} (hw : Reachable w) (now : Time)
    (parent : Context) (t : Time) (a : Nat) (r : error) (hpar : parent ∈ w.ctxs)
    (ha : parentCancelCtx parent = some a) (hr : (w.st.cell a).err = some r)
    (hdl : ¬ (parent.Deadline.2 = true ∧ parent.Deadline.1 < t)) (hfut : now < t) :
    ∃ s' f, WithDeadline w.st now parent t =
        Except.ok (s', Context.timerCtx parent w.st.cells.length t, f) ∧
      (Context.timerCtx parent w.st.cells.length t).Err s' = some r ∧
      (s'.cell w.st.cells.length).Timer = some (t - now) := by
  have hI := hw.inv
  obtain ⟨s1, h1, hlen1, herr1, _, _, _, hte1⟩ :=
    hI.propagate_fresh (c := canceler.timerCtx parent w.st.cells.length t) rfl hpar
  simp only [canceler.addr, canceler.parent] at herr1
  have hpath := WithDeadline_timer_path w.st now parent t hdl s1 h1
  rw [if_neg (by intro h; have := sub_nonpos.mp h; exact absurd hfut (not_lt.mpr this))]
    at hpath
  have hte : (s1.cell w.st.cells.length).timerErr = none := by
    rw [hte1]; exact hI.timerErr _
  rw [if_pos hte] at hpath
  have hlt : w.st.cells.length < s1.cells.length := by rw [hlen1]; exact Nat.lt_succ_self _
  refine ⟨_, _, hpath, ?_, ?_⟩
  · show ((s1.put w.st.cells.length _).cell w.st.cells.length).err = some r
    rw [State.cell_put_same _ _ _ hlt]
    show (s1.cell w.st.cells.length).err = some r
    rw [herr1, if_pos rfl, Context.Err_eq, ha]; exact hr
  · rw [State.cell_put_same _ _ _ hlt]

/-- C13, the code at the failing input: in the reachable world
`cancelledParent`, `WithDeadline(parent, 10)` called at time `0` below the
cancelled parent returns a node that is already cancelled (with the parent's
`canceled`) and whose timer is armed, with the duration `10`. -/
theorem C13_timer_armed_on_cancelled_node :
    Reachable cancelledParent ∧ Context.cancelCtx Context.empty 0 ∈ cancelledParent.ctxs ∧
    parentCancelCtx (Context.cancelCtx Context.empty 0) = some 0 ∧
    (cancelledParent.st.cell 0).err = some canceled ∧ (0 : Time) < 10 ∧
    ∃ s' f, WithDeadline cancelledParent.st 0 (Context.cancelCtx Context.empty 0) 10 =
        Except.ok (s', Context.timerCtx (Context.cancelCtx Context.empty 0) 1 10, f) ∧
      (Context.timerCtx (Context.cancelCtx Context.empty 0) 1 10).Err s' = some canceled ∧
      (s'.cell 1).Timer = some 10 :=
  ⟨cancelledParent_reachable, by decide, by decide, by decide, by decide,
    ⟨[⟨none, Chan.closedChan, some canceled, none, none⟩,
      ⟨none, Chan.closedChan, some canceled, none, some 10⟩], []⟩,
    ⟨canceler.timerCtx (Context.cancelCtx Context.empty 0) 1 10, true⟩,
    by decide, by decide, by decide⟩

/-! ## Lock traces: the instrumented functions are the functions -/

theorem Run.erase_eq_ok {r : Run} {s : State} (h : r.erase = Except.ok s) :
    ∃ t, r = Run.ret s t := by
  cases r with
  | ret s1 t => simp only [Run.erase, Except.ok.injEq] at h; subst h; exact ⟨t, rfl⟩
  | fault f s1 t => simp [Run.erase] at h

theorem fanOutL_erase {subL : State → canceler → Option error → Run}
    {sub : State → canceler → Option error → Except Fault State}
    (hsub : ∀ s c e, (subL s c e).erase = sub s c e) :
    ∀ (l : List canceler) (s : State) (e : Option error),
      (fanOutL subL l s e).erase = fanOut sub l s e := by
  intro l
  induction l with
  | nil => intro s e; rfl
  | cons child rest ih =>
    intro s e
    simp only [fanOutL, fanOut]
    rw [← hsub s child e]
    cases hc : subL s child e with
    | fault f s1 t1 => rfl
    | ret s1 t1 =>
      simp only [Run.erase]
      rw [← ih s1 e]
      cases hr : fanOutL subL rest s1 e with
      | fault f s2 t2 => rfl
      | ret s2 t2 => rfl

theorem cancelCtx_cancelL_erase {subL : State → canceler → Option error → Run}
    {sub : State → canceler → Option error → Except Fault State}
    (hsub : ∀ s c e, (subL s c e).erase = sub s c e)
    (s : State) (parent : Context) (p : Nat) (b : Bool) (err : Option error) :
    (cancelCtx.cancelL subL s parent p b err).erase = cancelCtx.cancel sub s parent p b err := by
  unfold cancelCtx.cancelL cancelCtx.cancel
  cases err with
  | none => rfl
  | some e =>
    simp only
    by_cases herr : (s.cell p).err ≠ none
    · simp only [if_pos herr]; rfl
    · simp only [if_neg herr]
      cases hcl : (if ((s.put p { s.cell p with err := some e }).cell p).done = Chan.nil then
          some Chan.closedChan
        else ((s.put p { s.cell p with err := some e }).cell p).done.close) with
      | none => rfl
      | some ch =>
        simp only
        rw [← fanOutL_erase hsub]
        cases hf : fanOutL subL _ _ (some e) with
        | fault f s3 t => rfl
        | ret s3 t =>
          cases b <;> rfl

theorem timerCtx_cancelL_erase {subL : State → canceler → Option error → Run}
    {sub : State → canceler → Option error → Except Fault State}
    (hsub : ∀ s c e, (subL s c e).erase = sub s c e)
    (s : State) (parent : Context) (p : Nat) (d : Time) (b : Bool) (err : Option error) :
    (timerCtx.cancelL subL s parent p d b err).erase =
      timerCtx.cancel sub s parent p d b err := by
  unfold timerCtx.cancelL timerCtx.cancel
  rw [← cancelCtx_cancelL_erase hsub]
  cases cancelCtx.cancelL subL s parent p false err with
  | fault f s1 t => rfl
  | ret s1 t => rfl

theorem cancelAuxL_erase : ∀ (n : Nat) (s : State) (c : canceler) (b : Bool)
    (err : Option error), (cancelAuxL n s c b err).erase = cancelAux n s c b err := by
  intro n
  induction n with
  | zero => intro s c b err; rfl
  | succ n ih =>
    intro s c b err
    cases c with
    | cancelCtx parent p =>
      exact cancelCtx_cancelL_erase (fun s1 c1 e1 => ih s1 c1 false e1) s parent p b err
    | timerCtx parent p d =>
      exact timerCtx_cancelL_erase (fun s1 c1 e1 => ih s1 c1 false e1) s parent p d b err

theorem cancelL_erase (s : State) (c : canceler) (b : Bool) (err : Option error) :
    (c.cancelL s b err).erase = c.cancel s b err :=
  cancelAuxL_erase _ s c b err

theorem propagateCancelL_erase (s : State) (parent : Context) (child : canceler) :
    (propagateCancelL s parent child).erase = propagateCancel s parent child := by
  unfold propagateCancelL propagateCancel
  simp only
  by_cases hnil : (parent.Done s).2 = Chan.nil
  · simp only [if_pos hnil]; rfl
  · simp only [if_neg hnil]
    cases hp : parentCancelCtx parent with
    | none => rfl
    | some p =>
      simp only
      by_cases herr : ((parent.Done s).1.cell p).err ≠ none
      · simp only [if_pos herr]
        rw [← cancelL_erase]
        cases child.cancelL (parent.Done s).1 false ((parent.Done s).1.cell p).err with
        | fault f s1 t => rfl
        | ret s1 t => rfl
      · simp only [if_neg herr]; rfl

theorem WithCancelL_erase (s : State) (parent : Context) :
    (WithCancelL s parent).erase = (WithCancel s parent).map (fun r => r.1) := by
  unfold WithCancelL WithCancel
  rw [propagateCancelL_erase]
  simp only
  cases propagateCancel (newCancelCtx s parent).1 parent (newCancelCtx s parent).2 with
  | error f => rfl
  | ok s1 => rfl

theorem WithDeadlineL_erase (s : State) (now : Time) (parent : Context) (t : Time) :
    (WithDeadlineL s now parent t).erase =
      (WithDeadline s now parent t).map (fun r => r.1) := by
  unfold WithDeadlineL WithDeadline
  by_cases hdl : parent.Deadline.2 = true ∧ parent.Deadline.1 < t
  · simp only [if_pos hdl]
    exact WithCancelL_erase s parent
  · simp only [if_neg hdl]
    rw [← propagateCancelL_erase]
    cases propagateCancelL s.alloc parent (canceler.timerCtx parent s.cells.length t) with
    | fault f s1 t1 => rfl
    | ret s1 t1 =>
      simp only [Run.erase]
      by_cases hd : t - now ≤ 0
      · simp only [if_pos hd]
        rw [← cancelL_erase]
        cases (canceler.timerCtx parent s.cells.length t).cancelL s1 true (some timeOutErr) with
        | fault f s2 t2 => rfl
        | ret s2 t2 => rfl
      · simp only [if_neg hd]; rfl

/-! ## Lock traces: the order of the locks -/

theorem replay_append (allowed : List Nat → Nat → Bool) :
    ∀ (t1 t2 : List LockEvent) (held : List Nat),
      replay allowed held (t1 ++ t2) =
        (replay allowed held t1).bind (fun held1 => replay allowed held1 t2) := by
  intro t1
  induction t1 with
  | nil => intro t2 held; rfl
  | cons ev rest ih =>
    intro t2 held
    cases ev with
    | lock p =>
      simp only [List.cons_append, replay]
      split
      · exact ih t2 _
      · rfl
    | unlock p =>
      simp only [List.cons_append, replay]
      exact ih t2 _

theorem replay_lock_unlock (allowed : List Nat → Nat → Bool) (held : List Nat) (p : Nat)
    (h : allowed held p = true) :
    replay allowed held [LockEvent.lock p, LockEvent.unlock p] = some held := by
  simp only [replay, h, if_true, List.erase_cons_head]

theorem replay_mono {a1 a2 : List Nat → Nat → Bool}
    (h12 : ∀ held p, a1 held p = true → a2 held p = true) :
    ∀ (t : List LockEvent) (held held' : List Nat),
      replay a1 held t = some held' → replay a2 held t = some held' := by
  intro t
  induction t with
  | nil => intro held held' h; exact h
  | cons ev rest ih =>
    intro held held' h
    cases ev with
    | lock p =>
      simp only [replay] at h ⊢
      by_cases ha : a1 held p = true
      · rw [if_pos ha] at h
        rw [if_pos (h12 held p ha)]
        exact ih _ _ h
      · rw [if_neg ha] at h; simp at h
    | unlock p =>
      simp only [replay] at h ⊢
      exact ih _ _ h

theorem olderHeld_iff (held : List Nat) (p : Nat) :
    olderHeld held p = true ↔ ∀ h ∈ held, h < p := by
  simp [olderHeld]

theorem olderHeld_notHeld (held : List Nat) (p : Nat) (h : olderHeld held p = true) :
    notHeld held p = true := by
  rw [olderHeld_iff] at h
  simp only [notHeld, decide_eq_true_eq]
  intro hp
  exact Nat.lt_irrefl _ (h p hp)

theorem removeChildLocks_replay (allowed : List Nat → Nat → Bool)
    (h0 : ∀ p, allowed [] p = true) (parent : Context) :
    replay allowed [] (removeChildLocks parent) = some [] := by
  unfold removeChildLocks
  cases parentCancelCtx parent with
  | none => rfl
  | some p => exact replay_lock_unlock allowed [] p (h0 p)

theorem Context.DoneLocks_eq (c : Context) : c.DoneLocks = removeChildLocks c := by
  induction c with
  | empty => rfl
  | cancelCtx parent p _ => rfl
  | valueCtx parent k v ih => exact ih
  | timerCtx parent p d _ => rfl

theorem Downward.put_same_children {s : State} (hd : Downward s) (p : Nat) (c : Cell)
    (hc : c.children = (s.cell p).children) : Downward (s.put p c) := by
  intro q x hx
  rw [State.cell_put] at hx
  split at hx
  · next hq => obtain ⟨rfl, _⟩ := hq; rw [hc] at hx; exact hd q x hx
  · exact hd q x hx

theorem fanOutL_ordered {subL : State → canceler → Option error → Run} {e : error}
    (hsubL : ∀ s c s' t, subL s c (some e) = Run.ret s' t → Downward s →
      Downward s' ∧ ∀ held, (∀ h ∈ held, h < c.addr) → replay olderHeld held t = some held) :
    ∀ (l : List canceler) (s s' : State) (t : List LockEvent),
      fanOutL subL l s (some e) = Run.ret s' t → Downward s →
      ∀ held, (∀ x ∈ l, ∀ h ∈ held, h < x.addr) → replay olderHeld held t = some held := by
  intro l
  induction l with
  | nil =>
    intro s s' t h _ held _
    simp only [fanOutL, Run.ret.injEq] at h
    rw [← h.2]; rfl
  | cons child rest ih =>
    intro s s' t h hd held hlt
    simp only [fanOutL] at h
    cases hc : subL s child (some e) with
    | fault f s1 t1 => rw [hc] at h; simp at h
    | ret s1 t1 =>
      rw [hc] at h
      simp only at h
      obtain ⟨hd1, hr1⟩ := hsubL s child s1 t1 hc hd
      cases hr : fanOutL subL rest s1 (some e) with
      | fault f s2 t2 => rw [hr] at h; simp at h
      | ret s2 t2 =>
        rw [hr] at h
        simp only [Run.ret.injEq] at h
        rw [← h.2, replay_append, hr1 held (hlt child (List.mem_cons_self _ _))]
        exact ih s1 s2 t2 hr hd1 held (fun x hx => hlt x (List.mem_cons_of_mem _ hx))

theorem cancelCtx_cancelL_ordered {subL : State → canceler → Option error → Run} {e : error}
    (hsubL : ∀ s c s' t, subL s c (some e) = Run.ret s' t → Downward s →
      Downward s' ∧ ∀ held, (∀ h ∈ held, h < c.addr) → replay olderHeld held t = some held)
    (s s' : State) (parent : Context) (p : Nat) (t : List LockEvent)
    (h : cancelCtx.cancelL subL s parent p false (some e) = Run.ret s' t) (hd : Downward s)
    (held : List Nat) (hheld : ∀ h ∈ held, h < p) :
    replay olderHeld held t = some held := by
  have hallow : olderHeld held p = true := (olderHeld_iff held p).mpr hheld
  unfold cancelCtx.cancelL at h
  simp only at h
  by_cases herr : (s.cell p).err ≠ none
  · simp only [if_pos herr, Run.ret.injEq] at h
    rw [← h.2]
    exact replay_lock_unlock olderHeld held p hallow
  · simp only [if_neg herr] at h
    cases hcl : (if ((s.put p { s.cell p with err := some e }).cell p).done = Chan.nil then
        some Chan.closedChan
      else ((s.put p { s.cell p with err := some e }).cell p).done.close) with
    | none => rw [hcl] at h; simp at h
    | some ch =>
      rw [hcl] at h
      simp only at h
      have hd2 : Downward ((s.put p { s.cell p with err := some e }).put p
          { (s.put p { s.cell p with err := some e }).cell p with done := ch }) := by
        refine Downward.put_same_children ?_ p _ rfl
        exact Downward.put_same_children hd p _ rfl
      cases hf : fanOutL subL
          ((((s.put p { s.cell p with err := some e }).put p
            { (s.put p { s.cell p with err := some e }).cell p with done := ch }).cell
              p).children.getD [])
          ((s.put p { s.cell p with err := some e }).put p
            { (s.put p { s.cell p with err := some e }).cell p with done := ch }) (some e) with
      | fault f s3 t3 => rw [hf] at h; simp at h
      | ret s3 t3 =>
        rw [hf] at h
        simp only [Bool.false_eq_true, if_false, Run.ret.injEq] at h
        rw [← h.2]
        have h3 := fanOutL_ordered hsubL _ _ _ _ hf hd2 (p :: held) (by
          intro x hx h' hh
          have hpx := hd2 p x hx
          rcases List.mem_cons.mp hh with hh | hh
          · rw [hh]; exact hpx
          · exact Nat.lt_trans (hheld h' hh) hpx)
        show replay olderHeld held (LockEvent.lock p :: (t3 ++ [LockEvent.unlock p])) = some held
        simp only [replay, hallow, if_true]
        rw [replay_append, h3]
        simp only [Option.bind, replay, List.erase_cons_head]

theorem cancelAuxL_ordered : ∀ (n : Nat) (s : State) (c : canceler) (e : error) (s' : State)
    (t : List LockEvent), cancelAuxL n s c false (some e) = Run.ret s' t → Downward s →
      Downward s' ∧ ∀ held, (∀ h ∈ held, h < c.addr) → replay olderHeld held t = some held := by
  intro n
  induction n with
  | zero => intro s c e s' t h; simp [cancelAuxL] at h
  | succ n ih =>
    intro s c e s' t h hd
    have hplain : cancelAux (n + 1) s c false (some e) = Except.ok s' := by
      rw [← cancelAuxL_erase, h]; rfl
    refine ⟨hd.after_spread_down (cancelAux_false_spread _ _ _ _ _ hplain).1, ?_⟩
    intro held hheld
    cases c with
    | cancelCtx parent p =>
      exact cancelCtx_cancelL_ordered (fun s1 c1 s2 t1 h1 => ih s1 c1 e s2 t1 h1) s s' parent p t
        h hd held hheld
    | timerCtx parent p d =>
      change timerCtx.cancelL (fun s1 c e => cancelAuxL n s1 c false e) s parent p d false
        (some e) = Run.ret s' t at h
      unfold timerCtx.cancelL at h
      cases hb : cancelCtx.cancelL (fun s1 c e => cancelAuxL n s1 c false e) s parent p false
          (some e) with
      | fault f s1 t1 => rw [hb] at h; simp at h
      | ret s1 t1 =>
        rw [hb] at h
        simp only [Bool.false_eq_true, if_false, List.append_nil, Run.ret.injEq] at h
        rw [← h.2, replay_append,
          cancelCtx_cancelL_ordered (fun s1 c1 s2 t1 h1 => ih s1 c1 e s2 t1 h1) s s1 parent p t1
            hb hd held hheld]
        exact replay_lock_unlock olderHeld held p ((olderHeld_iff held p).mpr hheld)

theorem cancelCtx_cancelL_flag (subL : State → canceler → Option error → Run)
    (s : State) (parent : Context) (p : Nat) (b : Bool) (err : Option error) :
    cancelCtx.cancelL subL s parent p b err =
      match cancelCtx.cancelL subL s parent p false err with
      | Run.fault f s1 t => Run.fault f s1 t
      | Run.ret s1 t => Run.ret
          ((canceler.cancelCtx parent p).finish b (s.cell p).err s1)
          (t ++ (canceler.cancelCtx parent p).finishLocks b (s.cell p).err) := by
  unfold cancelCtx.cancelL canceler.finish canceler.finishLocks
  cases err with
  | none => rfl
  | some e =>
    simp only
    by_cases herr : (s.cell p).err ≠ none
    · simp only [if_pos herr]
      rw [if_neg (fun h => herr h.2), if_neg (fun h => herr h.2), List.append_nil]
    · simp only [if_neg herr]
      have herr0 : (s.cell p).err = none := not_not.mp herr
      cases hcl : (if ((s.put p { s.cell p with err := some e }).cell p).done = Chan.nil then
          some Chan.closedChan
        else ((s.put p { s.cell p with err := some e }).cell p).done.close) with
      | none => rfl
      | some ch =>
        simp only
        cases hf : fanOutL subL
            ((((s.put p { s.cell p with err := some e }).put p
              { (s.put p { s.cell p with err := some e }).cell p with done := ch }).cell
                p).children.getD [])
            ((s.put p { s.cell p with err := some e }).put p
              { (s.put p { s.cell p with err := some e }).cell p with done := ch }) (some e) with
        | fault f s3 t3 => rfl
        | ret s3 t3 => cases b <;> simp [herr0]

theorem cancelAuxL_split (n : Nat) (s : State) (c : canceler) (b : Bool) (e : error)
    (s' : State) (t : List LockEvent) (h : cancelAuxL n s c b (some e) = Run.ret s' t)
    (hd : Downward s) :
    ∃ core, t = core ++ c.finishLocks b (s.cell c.addr).err ∧
      ∀ held, (∀ h ∈ held, h < c.addr) → replay olderHeld held core = some held := by
  cases n with
  | zero => simp [cancelAuxL] at h
  | succ n =>
    have hsubL : ∀ s c s' t, (fun s1 c e => cancelAuxL n s1 c false e) s c (some e) =
        Run.ret s' t → Downward s → Downward s' ∧
          ∀ held, (∀ h ∈ held, h < c.addr) → replay olderHeld held t = some held :=
      fun s1 c1 s2 t1 h1 => cancelAuxL_ordered n s1 c1 e s2 t1 h1
    cases c with
    | cancelCtx parent p =>
      change cancelCtx.cancelL (fun s1 c e => cancelAuxL n s1 c false e) s parent p b
        (some e) = Run.ret s' t at h
      rw [cancelCtx_cancelL_flag] at h
      cases hb : cancelCtx.cancelL (fun s1 c e => cancelAuxL n s1 c false e) s parent p false
          (some e) with
      | fault f s1 t1 => rw [hb] at h; simp at h
      | ret s1 t1 =>
        rw [hb] at h
        simp only [Run.ret.injEq] at h
        exact ⟨t1, h.2.symm, cancelCtx_cancelL_ordered hsubL s s1 parent p t1 hb hd⟩
    | timerCtx parent p d =>
      change timerCtx.cancelL (fun s1 c e => cancelAuxL n s1 c false e) s parent p d b
        (some e) = Run.ret s' t at h
      unfold timerCtx.cancelL at h
      cases hb : cancelCtx.cancelL (fun s1 c e => cancelAuxL n s1 c false e) s parent p false
          (some e) with
      | fault f s1 t1 => rw [hb] at h; simp at h
      | ret s1 t1 =>
        rw [hb] at h
        simp only [Run.ret.injEq] at h
        refine ⟨t1, ?_, cancelCtx_cancelL_ordered hsubL s s1 parent p t1 hb hd⟩
        rw [← h.2]
        simp only [canceler.finishLocks, List.append_assoc]

theorem finishLocks_replay (allowed : List Nat → Nat → Bool) (h0 : ∀ p, allowed [] p = true)
    (c : canceler) (b : Bool) (was : Option error) :
    replay allowed [] (c.finishLocks b was) = some [] := by
  cases c with
  | cancelCtx parent p =>
    simp only [canceler.finishLocks]
    split
    · exact removeChildLocks_replay allowed h0 parent
    · rfl
  | timerCtx parent p d =>
    simp only [canceler.finishLocks]
    rw [replay_append]
    have h1 : replay allowed [] (if b = true then removeChildLocks parent else []) = some [] := by
      split
      · exact removeChildLocks_replay allowed h0 parent
      · rfl
    rw [h1]
    exact replay_lock_unlock allowed [] p (h0 p)

theorem olderHeld_nil (p : Nat) : olderHeld [] p = true := rfl

theorem noneHeld_nil (p : Nat) : noneHeld [] p = true := rfl

/-- The trace of a `cancel` call from an unlocked state: the locked section
nests the locks downward and ends with nothing held, and what follows it takes
one lock at a time. -/
theorem cancelL_ordered (s : State) (c : canceler) (b : Bool) (e : error) (s' : State)
    (t : List LockEvent) (h : c.cancelL s b (some e) = Run.ret s' t) (hd : Downward s) :
    replay olderHeld [] t = some [] ∧
      ∃ core, t = core ++ c.finishLocks b (s.cell c.addr).err ∧
        replay olderHeld [] core = some [] ∧
        replay noneHeld [] (c.finishLocks b (s.cell c.addr).err) = some [] := by
  obtain ⟨core, ht, hcore⟩ := cancelAuxL_split _ s c b e s' t h hd
  have h0 := hcore [] (fun h hh => absurd hh (List.not_mem_nil h))
  refine ⟨?_, core, ht, h0, finishLocks_replay noneHeld noneHeld_nil c b _⟩
  rw [ht, replay_append, h0]
  exact finishLocks_replay olderHeld olderHeld_nil c b _

theorem cancelL_returns {w : World} (hw : Inv w) (c : canceler) (b : Bool) (e : error) :
    ∃ s' t, c.cancelL w.st b (some e) = Run.ret s' t := by
  obtain ⟨s', hs'⟩ := hw.cancel_total c b e
  have hE : (c.cancelL w.st b (some e)).erase = Except.ok s' := by rw [cancelL_erase]; exact hs'
  obtain ⟨t, ht⟩ := Run.erase_eq_ok hE
  exact ⟨s', t, ht⟩

theorem propagateCancelL_ordered {s : State} {parent : Context} {c : canceler} {s' : State}
    {t : List LockEvent} (h : propagateCancelL s parent c = Run.ret s' t)
    (hd : Downward (parent.Done s).1)
    (hlt : ∀ a, parentCancelCtx parent = some a → a < c.addr) :
    replay olderHeld [] t = some [] := by
  have hDL : replay olderHeld [] parent.DoneLocks = some [] := by
    rw [Context.DoneLocks_eq]; exact removeChildLocks_replay olderHeld olderHeld_nil parent
  unfold propagateCancelL at h
  simp only at h
  by_cases hnil : (parent.Done s).2 = Chan.nil
  · simp only [if_pos hnil, Run.ret.injEq] at h
    rw [← h.2]; exact hDL
  · simp only [if_neg hnil] at h
    cases hp : parentCancelCtx parent with
    | none =>
      rw [hp] at h
      simp only [Run.ret.injEq] at h
      rw [← h.2]; exact hDL
    | some p =>
      rw [hp] at h
      simp only at h
      by_cases herr : ((parent.Done s).1.cell p).err ≠ none
      · simp only [if_pos herr] at h
        obtain ⟨e, he⟩ := Option.ne_none_iff_exists'.mp herr
        rw [he] at h
        cases hc : c.cancelL (parent.Done s).1 false (some e) with
        | fault f s1 t1 => rw [hc] at h; simp at h
        | ret s1 t1 =>
          rw [hc] at h
          simp only [Run.ret.injEq] at h
          have h1 := (cancelAuxL_ordered _ _ c e s1 t1 hc hd).2 [p] (by
            intro x hx
            rw [List.mem_singleton] at hx
            rw [hx]; exact hlt p hp)
          rw [← h.2]
          show replay olderHeld []
            ((parent.DoneLocks ++ LockEvent.lock p :: t1) ++ [LockEvent.unlock p]) = some []
          rw [List.append_assoc, replay_append, hDL]
          show replay olderHeld [] (LockEvent.lock p :: (t1 ++ [LockEvent.unlock p])) = some []
          simp only [replay, olderHeld_nil, if_true]
          rw [replay_append, h1]
          simp only [Option.bind, replay, List.erase_cons_head]
      · simp only [if_neg herr, Run.ret.injEq] at h
        rw [← h.2, replay_append, hDL]
        exact replay_lock_unlock olderHeld [] p (olderHeld_nil p)

theorem Inv.propagateL_ordered {w : World} (hI : Inv w) {c : canceler}
    (haddr : c.addr = w.st.cells.length) (hpar : c.parent ∈ w.ctxs) {s' : State}
    {t : List LockEvent} (h : propagateCancelL w.st.alloc c.parent c = Run.ret s' t) :
    replay olderHeld [] t = some [] ∧ Downward s' := by
  have hI1 : Inv ⟨w.st.alloc, c.toContext :: w.ctxs, w.funcs⟩ := hI.alloc haddr hpar
  have hplain : propagateCancel w.st.alloc c.parent c = Except.ok s' := by
    rw [← propagateCancelL_erase, h]; rfl
  refine ⟨propagateCancelL_ordered h (hI1.done c.parent).downward ?_,
    (hI.fresh haddr hpar hplain).downward⟩
  intro a ha
  rw [haddr]
  exact parentCancelCtx_lt (hI.below _ hpar) ha

theorem Inv.withCancelL_ordered {w : World} (hI : Inv w) {parent : Context}
    (hpar : parent ∈ w.ctxs) {s' : State} {t : List LockEvent}
    (h : WithCancelL w.st parent = Run.ret s' t) : replay olderHeld [] t = some [] :=
  (hI.propagateL_ordered (c := canceler.cancelCtx parent w.st.cells.length) rfl hpar h).1

theorem Inv.withDeadlineL_ordered {w : World} (hI : Inv w) {parent : Context}
    (hpar : parent ∈ w.ctxs) (now deadline : Time) {s' : State} {t : List LockEvent}
    (h : WithDeadlineL w.st now parent deadline = Run.ret s' t) :
    replay olderHeld [] t = some [] := by
  unfold WithDeadlineL at h
  by_cases hdl : parent.Deadline.2 = true ∧ parent.Deadline.1 < deadline
  · rw [if_pos hdl] at h
    exact hI.withCancelL_ordered hpar h
  · rw [if_neg hdl] at h
    simp only at h
    cases hp : propagateCancelL w.st.alloc parent
        (canceler.timerCtx parent w.st.cells.length deadline) with
    | fault f s1 t1 => rw [hp] at h; simp at h
    | ret s1 t1 =>
      rw [hp] at h
      simp only at h
      obtain ⟨h1, hd1⟩ := hI.propagateL_ordered
        (c := canceler.timerCtx parent w.st.cells.length deadline) rfl hpar hp
      by_cases hdur : deadline - now ≤ 0
      · rw [if_pos hdur] at h
        cases hc : (canceler.timerCtx parent w.st.cells.length deadline).cancelL s1 true
            (some timeOutErr) with
        | fault f s2 t2 => rw [hc] at h; simp at h
        | ret s2 t2 =>
          rw [hc] at h
          simp only [Run.ret.injEq] at h
          rw [← h.2, replay_append, h1]
          exact (cancelL_ordered s1 _ true timeOutErr s2 t2 hc hd1).1
      · rw [if_neg hdur] at h
        simp only [Run.ret.injEq] at h
        rw [← h.2, replay_append, h1]
        exact replay_lock_unlock olderHeld [] _ (olderHeld_nil _)

theorem Reachable.withCancelL_returns {w : World} (hw : Reachable w) (parent : Context)
    (hpar : parent ∈ w.ctxs) : ∃ s' t, WithCancelL w.st parent = Run.ret s' t := by
  obtain ⟨s', hs'⟩ := hw.withCancel_total parent hpar
  have hE : (WithCancelL w.st parent).erase = Except.ok s' := by
    rw [WithCancelL_erase, hs']; rfl
  obtain ⟨t, ht⟩ := Run.erase_eq_ok hE
  exact ⟨s', t, ht⟩

theorem Reachable.withDeadlineL_returns {w : World} (hw : Reachable w) (now : Time)
    (parent : Context) (deadline : Time) (hpar : parent ∈ w.ctxs) :
    ∃ s' t, WithDeadlineL w.st now parent deadline = Run.ret s' t := by
  obtain ⟨s', f, hs'⟩ := hw.withDeadline_total now parent deadline hpar
  have hE : (WithDeadlineL w.st now parent deadline).erase = Except.ok s' := by
    rw [WithDeadlineL_erase, hs']; rfl
  obtain ⟨t, ht⟩ := Run.erase_eq_ok hE
  exact ⟨s', t, ht⟩

/-- C18: `cancel` with a nil reason panics on a `cancelCtx` and on a
`timerCtx`, whatever the flag, before it takes a lock or writes a field: the
state at the panic is the state of the call, so the error, the signal, the
children and the timer of every object are those from before. -/
theorem C18_nil_reason_panics_before_any_change (s : State) (c : canceler) (b : Bool) :
    c.cancel s b none = Except.error Fault.panic ∧
    c.cancelL s b none = Run.fault Fault.panic s [] := by
  cases c with
  | cancelCtx parent p => exact ⟨rfl, rfl⟩
  | timerCtx parent p d => exact ⟨rfl, rfl⟩

/-- C16, as stated, fails in the world of `TestWithCancel`: the cancel
function of the parent locks the parent (object 0) and, with that lock held,
the fan-out locks the registered child (object 1). -/
theorem C16_counterexample :
    Reachable testWithCancel ∧
    (⟨canceler.cancelCtx Context.empty 0, true⟩ : CancelFunc) ∈ testWithCancel.funcs ∧
    (∃ s', CancelFunc.callL ⟨canceler.cancelCtx Context.empty 0, true⟩ testWithCancel.st =
      Run.ret s' [LockEvent.lock 0, LockEvent.lock 1, LockEvent.unlock 1, LockEvent.unlock 0]) ∧
    replay noneHeld [] [LockEvent.lock 0, LockEvent.lock 1, LockEvent.unlock 1,
      LockEvent.unlock 0] = none ∧
    replay noneHeld [] [LockEvent.lock 0] = some [0] ∧
    replay noneHeld [0] [LockEvent.lock 1] = none :=
  ⟨testWithCancel_reachable, by decide, ⟨_, rfl⟩, by decide, by decide, by decide⟩

/-- C16, amended: in a reachable world every lock is acquired while all the
locks held belong to objects allocated earlier, so locks nest only downward,
from a node to its registered children. This holds for `cancel` of any node
with any flag and reason, for `WithCancel` and for `WithDeadline`
(`propagateCancel` included), each of which returns. The trace of a `cancel`
called with no lock held is its locked section, at whose end no lock is held,
followed by the locks of its detach step and of its timer stop, each taken
with no lock held; `removeChild` called with no lock held takes its lock so.
A `cancel` with `removeFromParent = false`, which is how the fan-out calls
it under the lock of the parent, has no detach step: on a `cancelCtx` nothing
follows its locked section, on a `timerCtx` only the timer stop does, taken
under the locks the caller holds. -/
theorem C16_locks_nest_only_downward {w : World} (hw : Reachable w) :
    (∀ (c : canceler) (b : Bool) (r : error), ∃ s' t,
      c.cancelL w.st b (some r) = Run.ret s' t ∧ replay olderHeld [] t = some [] ∧
      ∃ core, t = core ++ c.finishLocks b (w.st.cell c.addr).err ∧
        replay olderHeld [] core = some [] ∧
        replay noneHeld [] (c.finishLocks b (w.st.cell c.addr).err) = some []) ∧
    (∀ parent ∈ w.ctxs, ∃ s' t,
      WithCancelL w.st parent = Run.ret s' t ∧ replay olderHeld [] t = some []) ∧
    (∀ parent ∈ w.ctxs, ∀ now deadline : Time, ∃ s' t,
      WithDeadlineL w.st now parent deadline = Run.ret s' t ∧
        replay olderHeld [] t = some []) ∧
    (∀ parent : Context, replay noneHeld [] (removeChildLocks parent) = some []) ∧
    (∀ (parent : Context) (p : Nat) (d : Time) (was : Option error),
      (canceler.cancelCtx parent p).finishLocks false was = [] ∧
      (canceler.timerCtx parent p d).finishLocks false was =
        [LockEvent.lock p, LockEvent.unlock p]) ∧
    (∀ (n : Nat) (s : State) (parent : Context) (p : Nat) (b : Bool) (err : Option error),
      cancelAuxL (n + 1) s (canceler.cancelCtx parent p) b err =
        cancelCtx.cancelL (fun s1 c e => cancelAuxL n s1 c false e) s parent p b err) := by
  refine ⟨?_, ?_, ?_, ?_, ?_, fun _ _ _ _ _ _ => rfl⟩
  · intro c b r
    obtain ⟨s', t, h⟩ := cancelL_returns hw.inv c b r
    exact ⟨s', t, h, cancelL_ordered w.st c b r s' t h hw.inv.downward⟩
  · intro parent hpar
    obtain ⟨s', t, h⟩ := hw.withCancelL_returns parent hpar
    exact ⟨s', t, h, hw.inv.withCancelL_ordered hpar h⟩
  · intro parent hpar now deadline
    obtain ⟨s', t, h⟩ := hw.withDeadlineL_returns now parent deadline hpar
    exact ⟨s', t, h, hw.inv.withDeadlineL_ordered hpar now deadline h⟩
  · intro parent
    exact removeChildLocks_replay noneHeld noneHeld_nil parent
  · intro parent p d was
    simp [canceler.finishLocks]

/-- C16, amended, in the world of a timer node under a cancelable node, where
the cancel of the parent stops the timer of the child under the parent's lock. -/
theorem C16_witness :
    Reachable timerUnderCancel ∧
    ((∀ (c : canceler) (b : Bool) (r : error), ∃ s' t,
      c.cancelL timerUnderCancel.st b (some r) = Run.ret s' t ∧
      replay olderHeld [] t = some [] ∧
      ∃ core, t = core ++ c.finishLocks b (timerUnderCancel.st.cell c.addr).err ∧
        replay olderHeld [] core = some [] ∧
        replay noneHeld [] (c.finishLocks b (timerUnderCancel.st.cell c.addr).err) = some []) ∧
    (∀ parent ∈ timerUnderCancel.ctxs, ∃ s' t,
      WithCancelL timerUnderCancel.st parent = Run.ret s' t ∧
        replay olderHeld [] t = some []) ∧
    (∀ parent ∈ timerUnderCancel.ctxs, ∀ now deadline : Time, ∃ s' t,
      WithDeadlineL timerUnderCancel.st now parent deadline = Run.ret s' t ∧
        replay olderHeld [] t = some []) ∧
    (∀ parent : Context, replay noneHeld [] (removeChildLocks parent) = some []) ∧
    (∀ (parent : Context) (p : Nat) (d : Time) (was : Option error),
      (canceler.cancelCtx parent p).finishLocks false was = [] ∧
      (canceler.timerCtx parent p d).finishLocks false was =
        [LockEvent.lock p, LockEvent.unlock p]) ∧
    (∀ (n : Nat) (s : State) (parent : Context) (p : Nat) (b : Bool) (err : Option error),
      cancelAuxL (n + 1) s (canceler.cancelCtx parent p) b err =
        cancelCtx.cancelL (fun s1 c e => cancelAuxL n s1 c false e) s parent p b err)) ∧
    (∃ s', (canceler.cancelCtx Context.empty 0).cancelL timerUnderCancel.st true
        (some canceled) =
      Run.ret s' [LockEvent.lock 0, LockEvent.lock 1, LockEvent.unlock 1, LockEvent.lock 1,
        LockEvent.unlock 1, LockEvent.unlock 0]) ∧
    replay olderHeld [] [LockEvent.lock 0, LockEvent.lock 1, LockEvent.unlock 1,
      LockEvent.lock 1, LockEvent.unlock 1, LockEvent.unlock 0] = some [] :=
  ⟨timerUnderCancel_reachable, C16_locks_nest_only_downward timerUnderCancel_reachable,
    ⟨_, rfl⟩, by decide⟩

/-- C17: in a reachable world the call of a cancel function, a timer
callback, `WithCancel` and `WithDeadline` each return, and in the lock trace
of the call no lock is acquired while the call already holds it. The trace of
a `cancel` is its locked section, at whose end no lock is held, followed by
the locks of the detach step and of the timer stop; and the calls `cancel`
makes on the children pass `removeFromParent = false`. -/
theorem C17_no_lock_is_acquired_twice {w : World} (hw : Reachable w) :
    (∀ f ∈ w.funcs, ∃ s' t, f.callL w.st = Run.ret s' t ∧ replay notHeld [] t = some [] ∧
      ∃ core, t = core ++ f.ctx.finishLocks f.removeFromParent (w.st.cell f.ctx.addr).err ∧
        replay notHeld [] core = some []) ∧
    (∀ c : canceler, c.toContext ∈ w.ctxs → ∃ s' t,
      timerFireL w.st c = Run.ret s' t ∧ replay notHeld [] t = some [] ∧
      ∃ core, t = core ++ c.finishLocks true (w.st.cell c.addr).err ∧
        replay notHeld [] core = some []) ∧
    (∀ parent ∈ w.ctxs, ∃ s' t,
      WithCancelL w.st parent = Run.ret s' t ∧ replay notHeld [] t = some []) ∧
    (∀ parent ∈ w.ctxs, ∀ now deadline : Time, ∃ s' t,
      WithDeadlineL w.st now parent deadline = Run.ret s' t ∧
        replay notHeld [] t = some []) ∧
    (∀ (n : Nat) (s : State) (parent : Context) (p : Nat) (b : Bool) (err : Option error),
      cancelAuxL (n + 1) s (canceler.cancelCtx parent p) b err =
        cancelCtx.cancelL (fun s1 c e => cancelAuxL n s1 c false e) s parent p b err) := by
  have hmono := fun t held held' => replay_mono olderHeld_notHeld t held held'
  refine ⟨?_, ?_, ?_, ?_, fun _ _ _ _ _ _ => rfl⟩
  · intro f _
    obtain ⟨s', t, h⟩ := cancelL_returns hw.inv f.ctx f.removeFromParent canceled
    obtain ⟨h1, core, h2, h3, _⟩ :=
      cancelL_ordered w.st f.ctx f.removeFromParent canceled s' t h hw.inv.downward
    exact ⟨s', t, h, hmono _ _ _ h1, core, h2, hmono _ _ _ h3⟩
  · intro c _
    obtain ⟨s', t, h⟩ := cancelL_returns hw.inv c true timeOutErr
    obtain ⟨h1, core, h2, h3, _⟩ :=
      cancelL_ordered w.st c true timeOutErr s' t h hw.inv.downward
    exact ⟨s', t, h, hmono _ _ _ h1, core, h2, hmono _ _ _ h3⟩
  · intro parent hpar
    obtain ⟨s', t, h⟩ := hw.withCancelL_returns parent hpar
    exact ⟨s', t, h, hmono _ _ _ (hw.inv.withCancelL_ordered hpar h)⟩
  · intro parent hpar now deadline
    obtain ⟨s', t, h⟩ := hw.withDeadlineL_returns now parent deadline hpar
    exact ⟨s', t, h, hmono _ _ _ (hw.inv.withDeadlineL_ordered hpar now deadline h)⟩

/-- C17 in the world of a timer node under a cancelable node. -/
theorem C17_witness :
    Reachable timerUnderCancel ∧
    ((∀ f ∈ timerUnderCancel.funcs, ∃ s' t,
      f.callL timerUnderCancel.st = Run.ret s' t ∧ replay notHeld [] t = some [] ∧
      ∃ core, t = core ++ f.ctx.finishLocks f.removeFromParent
          (timerUnderCancel.st.cell f.ctx.addr).err ∧
        replay notHeld [] core = some []) ∧
    (∀ c : canceler, c.toContext ∈ timerUnderCancel.ctxs → ∃ s' t,
      timerFireL timerUnderCancel.st c = Run.ret s' t ∧ replay notHeld [] t = some [] ∧
      ∃ core, t = core ++ c.finishLocks true (timerUnderCancel.st.cell c.addr).err ∧
        replay notHeld [] core = some []) ∧
    (∀ parent ∈ timerUnderCancel.ctxs, ∃ s' t,
      WithCancelL timerUnderCancel.st parent = Run.ret s' t ∧
        replay notHeld [] t = some []) ∧
    (∀ parent ∈ timerUnderCancel.ctxs, ∀ now deadline : Time, ∃ s' t,
      WithDeadlineL timerUnderCancel.st now parent deadline = Run.ret s' t ∧
        replay notHeld [] t = some []) ∧
    (∀ (n : Nat) (s : State) (parent : Context) (p : Nat) (b : Bool) (err : Option error),
      cancelAuxL (n + 1) s (canceler.cancelCtx parent p) b err =
        cancelCtx.cancelL (fun s1 c e => cancelAuxL n s1 c false e) s parent p b err)) :=
  ⟨timerUnderCancel_reachable, C17_no_lock_is_acquired_twice timerUnderCancel_reachable⟩

/-! ## Goroutines: cancellation is final -/

theorem propagateCancel_cases {s : State} {parent : Context} {c : canceler} {s' : State}
    (h : propagateCancel s parent c = Except.ok s') :
    (parentCancelCtx parent = none ∧ s' = (parent.Done s).1) ∨
    (∃ p e, parentCancelCtx parent = some p ∧ ((parent.Done s).1.cell p).err = some e ∧
      c.cancel (parent.Done s).1 false (some e) = Except.ok s') ∨
    (∃ p, parentCancelCtx parent = some p ∧ ((parent.Done s).1.cell p).err = none ∧
      s' = (parent.Done s).1.put p { (parent.Done s).1.cell p with
        children := some (mapInsert (((parent.Done s).1.cell p).children.getD []) c) }) := by
  unfold propagateCancel at h
  simp only at h
  by_cases hnil : (parent.Done s).2 = Chan.nil
  · rw [if_pos hnil] at h
    simp only [Except.ok.injEq] at h
    exact Or.inl ⟨(Context.Done_nil_iff s parent).mp hnil, h.symm⟩
  · rw [if_neg hnil] at h
    cases hp : parentCancelCtx parent with
    | none => exact absurd ((Context.Done_nil_iff s parent).mpr hp) hnil
    | some p =>
      rw [hp] at h
      simp only at h
      by_cases hperr : ((parent.Done s).1.cell p).err ≠ none
      · rw [if_pos hperr] at h
        obtain ⟨e, he⟩ := Option.ne_none_iff_exists'.mp hperr
        rw [he] at h
        exact Or.inr (Or.inl ⟨p, e, rfl, he, h⟩)
      · rw [if_neg hperr] at h
        simp only [Except.ok.injEq] at h
        exact Or.inr (Or.inr ⟨p, rfl, not_not.mp hperr, h.symm⟩)

theorem arm_fields (s : State) (p : Nat) (dur : Int) (q : Nat) :
    ((if (s.cell p).timerErr = none then s.put p { s.cell p with Timer := some dur }
      else s).cell q).err = (s.cell q).err ∧
    ((if (s.cell p).timerErr = none then s.put p { s.cell p with Timer := some dur }
      else s).cell q).done = (s.cell q).done ∧
    ((if (s.cell p).timerErr = none then s.put p { s.cell p with Timer := some dur }
      else s).cell q).children = (s.cell q).children := by
  split
  · rw [State.cell_put]
    split
    · next hq => obtain ⟨rfl, _⟩ := hq; exact ⟨rfl, rfl, rfl⟩
    · exact ⟨rfl, rfl, rfl⟩
  · exact ⟨rfl, rfl, rfl⟩

theorem arm_length (s : State) (p : Nat) (dur : Int) :
    (if (s.cell p).timerErr = none then s.put p { s.cell p with Timer := some dur }
      else s).cells.length = s.cells.length := by
  split
  · exact State.put_length _ _ _
  · rfl

theorem Sticky.same (s : State) : Sticky s s :=
  ⟨Nat.le_refl _, fun _ => ⟨fun _ => rfl, fun h => h⟩⟩

theorem Sticky.andThen {a b c : State} (h1 : Sticky a b) (h2 : Sticky b c) : Sticky a c := by
  refine ⟨Nat.le_trans h1.1 h2.1, fun q => ⟨fun hq => ?_, fun hq => ?_⟩⟩
  · have hb := (h1.2 q).1 hq
    rw [(h2.2 q).1 (by rw [hb]; exact hq), hb]
  · exact (h2.2 q).2 ((h1.2 q).2 hq)

theorem Sticky.from_fields {s s' : State} (hlen : s.cells.length ≤ s'.cells.length)
    (hf : ∀ q, (s'.cell q).err = (s.cell q).err ∧
      ((s'.cell q).done = (s.cell q).done ∨
        ((s.cell q).done = Chan.nil ∧ (s'.cell q).done = Chan.made false))) :
    Sticky s s' := by
  refine ⟨hlen, fun q => ⟨fun _ => (hf q).1, fun hq => ?_⟩⟩
  rcases (hf q).2 with hd | hd
  · rw [hd]; exact hq
  · rw [hd.1] at hq; simp [Chan.isClosed] at hq

theorem Spread.is_sticky {e : error} {A : Nat → Prop} {s s' : State} (h : Spread e A s s') :
    Sticky s s' := by
  refine ⟨Nat.le_of_eq h.length.symm, fun q => ⟨h.err_kept q, fun hq => ?_⟩⟩
  rcases h.cells q with hk | hh
  · rw [hk.2.1]; exact hq
  · exact hh.closed

theorem cancel_sticky {s s' : State} {c : canceler} {b : Bool} {e : error}
    (h : c.cancel s b (some e) = Except.ok s') : Sticky s s' := by
  obtain ⟨s1, hS, _, rfl⟩ := cancelAux_finish _ _ _ _ _ _ h
  refine hS.is_sticky.andThen (Sticky.from_fields (Nat.le_of_eq (finish_length _ _ _ _).symm) ?_)
  intro q
  have F := finish_fields c b (s.cell c.addr).err s1 q
  exact ⟨F.1, Or.inl F.2.1⟩

theorem Context.Done_sticky (s : State) (c : Context) : Sticky s (c.Done s).1 :=
  Sticky.from_fields (Nat.le_of_eq (Context.Done_fields s c 0).1.symm)
    (fun q => ⟨(Context.Done_fields s c q).2.2.1, (Context.Done_fields s c q).2.2.2.2.2.2⟩)

theorem State.alloc_sticky (s : State) : Sticky s s.alloc :=
  Sticky.from_fields (by rw [State.alloc_length]; exact Nat.le_succ _)
    (fun q => by rw [State.alloc_cell]; exact ⟨rfl, Or.inl rfl⟩)

theorem propagateCancel_sticky {s s' : State} {parent : Context} {c : canceler}
    (h : propagateCancel s parent c = Except.ok s') : Sticky s s' := by
  have hD := Context.Done_sticky s parent
  rcases propagateCancel_cases h with ⟨_, rfl⟩ | ⟨p, e, _, _, hc⟩ | ⟨p, _, _, rfl⟩
  · exact hD
  · exact hD.andThen (cancel_sticky hc)
  · refine hD.andThen (Sticky.from_fields (Nat.le_of_eq (State.put_length _ _ _).symm) ?_)
    intro q
    rw [State.cell_put]
    split
    · next hq => obtain ⟨rfl, _⟩ := hq; exact ⟨rfl, Or.inl rfl⟩
    · exact ⟨rfl, Or.inl rfl⟩

theorem WithCancel_sticky {s s' : State} {parent ctx : Context} {f : CancelFunc}
    (h : WithCancel s parent = Except.ok (s', ctx, f)) :
    Sticky s s' ∧ propagateCancel s.alloc parent (canceler.cancelCtx parent s.cells.length) =
      Except.ok s' ∧ ctx = Context.cancelCtx parent s.cells.length ∧
      f = ⟨canceler.cancelCtx parent s.cells.length, true⟩ := by
  unfold WithCancel newCancelCtx at h
  simp only at h
  cases hp : propagateCancel s.alloc parent (canceler.cancelCtx parent s.cells.length) with
  | error e => rw [hp] at h; simp at h
  | ok s1 =>
    rw [hp] at h
    simp only [Except.ok.injEq, Prod.mk.injEq] at h
    obtain ⟨rfl, rfl, rfl⟩ := h
    exact ⟨(State.alloc_sticky s).andThen (propagateCancel_sticky hp), rfl, rfl, rfl⟩

theorem Job.run_sticky {s s' : State} {j : Job} {k : List Job}
    (h : j.run s = Except.ok (s', k)) : Sticky s s' := by
  cases j with
  | cancel c b e =>
    simp only [Job.run] at h
    cases hc : c.embedded.cancel s false (some e) with
    | error f => rw [hc] at h; simp at h
    | ok s1 =>
      rw [hc] at h
      simp only [Except.ok.injEq, Prod.mk.injEq] at h
      rw [← h.1]; exact cancel_sticky hc
  | removeChild c =>
    simp only [Job.run, Except.ok.injEq, Prod.mk.injEq] at h
    rw [← h.1]
    exact Sticky.from_fields (Nat.le_of_eq (removeChild_length _ _ _).symm)
      (fun q => ⟨(removeChild_fields s c.parent c q).1,
        Or.inl (removeChild_fields s c.parent c q).2.1⟩)
  | stopTimer p =>
    simp only [Job.run, Except.ok.injEq, Prod.mk.injEq] at h
    rw [← h.1]
    exact Sticky.from_fields (Nat.le_of_eq (stopTimer_length _ _).symm)
      (fun q => ⟨(stopTimer_fields s p q).1, Or.inl (stopTimer_fields s p q).2.1⟩)
  | arm p dur =>
    simp only [Job.run, Except.ok.injEq, Prod.mk.injEq] at h
    rw [← h.1]
    exact Sticky.from_fields (Nat.le_of_eq (arm_length _ _ _).symm)
      (fun q => ⟨(arm_fields s p dur q).1, Or.inl (arm_fields s p dur q).2.1⟩)
  | ret ctx f =>
    simp only [Job.run, Except.ok.injEq, Prod.mk.injEq] at h
    rw [← h.1]; exact Sticky.same s

theorem Shape.addr_below {s : State} {nodes : List canceler} (h : Shape s nodes)
    {c : canceler} (hc : c ∈ nodes) : c.addr < s.cells.length :=
  (canceler.below (h.below c hc)).1

/-- One registry has an entry for an object, and it holds the entry once. -/
theorem Shape.one_registry {s : State} {nodes : List canceler} (h : Shape s nodes)
    {q q' : Nat} {x y : canceler} (hx : x ∈ (s.cell q).children.getD [])
    (hy : y ∈ (s.cell q').children.getD []) (ha : y.addr = x.addr) : q' = q ∧ y = x := by
  obtain ⟨hxn, hxp⟩ := h.registered q x hx
  obtain ⟨hyn, hyp⟩ := h.registered q' y hy
  have hyx : y = x := h.unique y hyn x hxn ha
  subst hyx
  rw [hxp] at hyp
  exact ⟨(Option.some.inj hyp).symm, rfl⟩

theorem Shape.fields_shape {s s' : State} {nodes : List canceler} (h : Shape s nodes)
    (hlen : s'.cells.length = s.cells.length)
    (hf : ∀ q, (s'.cell q).err = (s.cell q).err ∧
      (∀ x ∈ (s'.cell q).children.getD [], x ∈ (s.cell q).children.getD []) ∧
      ((s.cell q).children = none → (s'.cell q).children = none) ∧
      ((s'.cell q).done = (s.cell q).done ∨
        ((s.cell q).done = Chan.nil ∧ (s'.cell q).done = Chan.made false))) :
    Shape s' nodes := by
  refine ⟨?_, h.unique, ?_, ?_, ?_, ?_⟩
  · intro c hc; rw [hlen]; exact h.below c hc
  · intro q x hx
    exact h.registered q x ((hf q).2.1 x hx)
  · intro q hq
    rw [(hf q).1] at hq
    rcases (hf q).2.2.2 with hd | hd
    · rw [hd]; exact h.signalOpen q hq
    · exact Or.inr hd.2
  · intro q hq
    rw [(hf q).1] at hq
    have hc := h.signalClosed q hq
    rcases (hf q).2.2.2 with hd | hd
    · rw [hd]; exact hc
    · rw [hd.1] at hc; simp [Chan.isClosed] at hc
  · intro q hq
    rw [(hf q).1] at hq
    exact (hf q).2.2.1 (h.released q hq)

theorem Shape.done_shape {s : State} {nodes : List canceler} (h : Shape s nodes)
    (c : Context) : Shape (c.Done s).1 nodes := by
  have F := Context.Done_fields s c
  refine h.fields_shape (F 0).1 (fun q => ⟨(F q).2.2.1, ?_, ?_, (F q).2.2.2.2.2.2⟩)
  · intro x hx; rw [(F q).2.2.2.1] at hx; exact hx
  · intro hn; rw [(F q).2.2.2.1]; exact hn

theorem Shape.spread_shape {s s' : State} {nodes : List canceler} (h : Shape s nodes)
    {e : error} {A : Nat → Prop} (hS : Spread e A s s') : Shape s' nodes := by
  refine ⟨?_, h.unique, ?_, h.signalOpen.after_spread hS, ?_, ?_⟩
  · intro c hc; rw [hS.length]; exact h.below c hc
  · intro q x hx
    rcases hS.cells q with hk | hh
    · rw [hk.2.2] at hx; exact h.registered q x hx
    · rw [hh.2.2.2.1] at hx; simp at hx
  · intro q hq
    rcases hS.cells q with hk | hh
    · rw [hk.2.1]; exact h.signalClosed q (hk.1 ▸ hq)
    · exact hh.closed
  · intro q hq
    rcases hS.cells q with hk | hh
    · rw [hk.2.2]; exact h.released q (hk.1 ▸ hq)
    · exact hh.2.2.2.1

theorem finish_sub (c : canceler) (b : Bool) (was : Option error) (s1 : State) (q : Nat) :
    (∀ x ∈ ((c.finish b was s1).cell q).children.getD [], x ∈ (s1.cell q).children.getD []) ∧
    ((s1.cell q).children = none → ((c.finish b was s1).cell q).children = none) := by
  rcases (finish_fields c b was s1 q).2.2.2.2 with hs | ⟨_, _, hf⟩
  · rw [hs]; exact ⟨fun _ hx => hx, fun hn => hn⟩
  · rw [hf]
    exact ⟨fun x hx => (mem_getD_map_filter hx).1, fun hn => by rw [hn]; rfl⟩

theorem Shape.cancel_shape {s s' : State} {nodes : List canceler} (h : Shape s nodes)
    {c : canceler} {b : Bool} {e : error} (hc : c.cancel s b (some e) = Except.ok s') :
    Shape s' nodes := by
  obtain ⟨s1, hS, _, rfl⟩ := cancelAux_finish _ _ _ _ _ _ hc
  have F := finish_fields c b (s.cell c.addr).err s1
  exact (h.spread_shape hS).fields_shape (finish_length _ _ _ _)
    (fun q => ⟨(F q).1, (finish_sub c b _ s1 q).1, (finish_sub c b _ s1 q).2, Or.inl (F q).2.1⟩)

theorem Shape.alloc_shape {s : State} {nodes : List canceler} (h : Shape s nodes)
    {c : canceler} (haddr : c.addr = s.cells.length) (hpar : c.parent.Below s.cells.length) :
    Shape s.alloc (c :: nodes) := by
  refine ⟨?_, ?_, ?_, ?_, ?_, ?_⟩
  · intro x hx
    rw [State.alloc_length]
    rcases List.mem_cons.mp hx with hx | hx
    · subst hx
      cases x with
      | cancelCtx parent p =>
        simp only [canceler.addr] at haddr
        subst haddr
        exact ⟨Nat.lt_succ_self _, hpar⟩
      | timerCtx parent p d =>
        simp only [canceler.addr] at haddr
        subst haddr
        exact ⟨Nat.lt_succ_self _, hpar⟩
    · exact Context.Below.weaken (Nat.le_succ _) (h.below x hx)
  · intro c1 h1 c2 h2 ha
    rcases List.mem_cons.mp h1 with h1 | h1
    · rcases List.mem_cons.mp h2 with h2 | h2
      · rw [h1, h2]
      · have := h.addr_below h2
        rw [← ha, h1, haddr] at this
        exact absurd this (Nat.lt_irrefl _)
    · rcases List.mem_cons.mp h2 with h2 | h2
      · have := h.addr_below h1
        rw [ha, h2, haddr] at this
        exact absurd this (Nat.lt_irrefl _)
      · exact h.unique c1 h1 c2 h2 ha
  · intro q x hx
    rw [State.alloc_cell] at hx
    exact ⟨List.mem_cons_of_mem _ (h.registered q x hx).1, (h.registered q x hx).2⟩
  · intro q hq
    rw [State.alloc_cell] at hq ⊢
    exact h.signalOpen q hq
  · intro q hq
    rw [State.alloc_cell] at hq ⊢
    exact h.signalClosed q hq
  · intro q hq
    rw [State.alloc_cell] at hq ⊢
    exact h.released q hq

theorem put_children_fields (s : State) (p : Nat) (l : List canceler) (q : Nat) :
    ((s.put p { s.cell p with children := some l }).cell q).err = (s.cell q).err ∧
    ((s.put p { s.cell p with children := some l }).cell q).done = (s.cell q).done ∧
    (((s.put p { s.cell p with children := some l }).cell q).children = (s.cell q).children ∨
      (q = p ∧ ((s.put p { s.cell p with children := some l }).cell q).children = some l)) := by
  rw [State.cell_put]
  by_cases hq : q = p ∧ p < s.cells.length
  · rw [if_pos hq]
    obtain ⟨rfl, _⟩ := hq
    exact ⟨rfl, rfl, Or.inr ⟨rfl, rfl⟩⟩
  · rw [if_neg hq]
    exact ⟨rfl, rfl, Or.inl rfl⟩

theorem Shape.register_shape {s : State} {nodes : List canceler} (h : Shape s nodes)
    {c : canceler} {p : Nat} (hc : c ∈ nodes) (hp : parentCancelCtx c.parent = some p)
    (hperr : (s.cell p).err = none) (l : List canceler)
    (hl : ∀ x ∈ l, x ∈ (s.cell p).children.getD [] ∨ x = c) :
    Shape (s.put p { s.cell p with children := some l }) nodes := by
  have F := put_children_fields s p l
  refine ⟨?_, h.unique, ?_, ?_, ?_, ?_⟩
  · intro x hx; rw [State.put_length]; exact h.below x hx
  · intro q x hx
    rcases (F q).2.2 with hs | ⟨hqp, hs⟩
    · rw [hs] at hx; exact h.registered q x hx
    · rw [hs, Option.getD_some] at hx
      subst hqp
      rcases hl x hx with hx | hx
      · exact h.registered q x hx
      · subst hx; exact ⟨hc, hp⟩
  · intro q hq
    rw [(F q).1] at hq
    rw [(F q).2.1]; exact h.signalOpen q hq
  · intro q hq
    rw [(F q).1] at hq
    rw [(F q).2.1]; exact h.signalClosed q hq
  · intro q hq
    rw [(F q).1] at hq
    rcases (F q).2.2 with hs | ⟨hqp, _⟩
    · rw [hs]; exact h.released q hq
    · subst hqp; exact absurd hperr hq

theorem mem_mapInsert_cases {m : List canceler} {c x : canceler} (hx : x ∈ mapInsert m c) :
    x ∈ m ∨ x = c := by
  unfold mapInsert at hx
  split at hx
  · exact Or.inl hx
  · rcases List.mem_append.mp hx with hx | hx
    · exact Or.inl hx
    · exact Or.inr (List.mem_singleton.mp hx)

theorem Shape.propagate_shape {s s' : State} {nodes : List canceler} (h : Shape s nodes)
    {c : canceler} (hc : c ∈ nodes) (hp : propagateCancel s c.parent c = Except.ok s') :
    Shape s' nodes := by
  have hD := h.done_shape c.parent
  rcases propagateCancel_cases hp with ⟨_, rfl⟩ | ⟨p, e, _, _, hcc⟩ | ⟨p, hpp, hperr, rfl⟩
  · exact hD
  · exact hD.cancel_shape hcc
  · exact hD.register_shape hc hpp hperr _ (fun x hx => mem_mapInsert_cases hx)

/-! ## Goroutines: the invariant -/

theorem JobsOK.grow {s s' : State} {nodes nodes' : List canceler} {th : List Job}
    (hst : Sticky s s') (hn : ∀ c ∈ nodes, c ∈ nodes') (h : JobsOK s nodes th) :
    JobsOK s' nodes' th := by
  have herr : ∀ q, (s.cell q).err ≠ none → (s'.cell q).err ≠ none :=
    fun q hq => by rw [(hst.2 q).1 hq]; exact hq
  refine ⟨fun c b e hj => ?_, fun ctx f hj => ?_⟩
  · obtain ⟨h1, h2⟩ := h.1 c b e hj
    exact ⟨hn c h1, fun hb => herr _ (h2 hb)⟩
  · obtain ⟨h1, h2, h3⟩ := h.2 ctx f hj
    refine ⟨hn _ h1, Context.Below.weaken hst.1 h2, fun hb => ?_⟩
    rcases h3 hb with h4 | h4
    · exact Or.inl (herr _ h4)
    · exact Or.inr h4

theorem afterUnlock_leaves (c : canceler) (b : Bool) (was : Option error) :
    ∀ t ∈ c.afterUnlock b was, t = Job.removeChild c ∨ ∃ p, t = Job.stopTimer p := by
  intro t ht
  cases c with
  | cancelCtx parent p =>
    simp only [canceler.afterUnlock] at ht
    split at ht
    · exact Or.inl (List.mem_singleton.mp ht)
    · simp at ht
  | timerCtx parent p d =>
    simp only [canceler.afterUnlock] at ht
    rcases List.mem_append.mp ht with ht | ht
    · split at ht
      · exact Or.inl (List.mem_singleton.mp ht)
      · simp at ht
    · exact Or.inr ⟨p, List.mem_singleton.mp ht⟩

theorem Job.run_leaves {s s' : State} {j : Job} {k : List Job}
    (h : j.run s = Except.ok (s', k)) :
    ∀ t ∈ k, (∃ c, t = Job.removeChild c) ∨ ∃ p, t = Job.stopTimer p := by
  cases j with
  | cancel c b e =>
    simp only [Job.run] at h
    cases hc : c.embedded.cancel s false (some e) with
    | error f => rw [hc] at h; simp at h
    | ok s1 =>
      rw [hc] at h
      simp only [Except.ok.injEq, Prod.mk.injEq] at h
      rw [← h.2]
      intro t ht
      rcases afterUnlock_leaves c b _ t ht with h1 | h1
      · exact Or.inl ⟨c, h1⟩
      · exact Or.inr h1
  | removeChild c =>
    simp only [Job.run, Except.ok.injEq, Prod.mk.injEq] at h
    rw [← h.2]; intro t ht; simp at ht
  | stopTimer p =>
    simp only [Job.run, Except.ok.injEq, Prod.mk.injEq] at h
    rw [← h.2]; intro t ht; simp at ht
  | arm p dur =>
    simp only [Job.run, Except.ok.injEq, Prod.mk.injEq] at h
    rw [← h.2]; intro t ht; simp at ht
  | ret ctx f =>
    simp only [Job.run, Except.ok.injEq, Prod.mk.injEq] at h
    rw [← h.2]; intro t ht; simp at ht

theorem mem_running_after {pre post : List (List Job)} {j t : Job} {rest k th0 : List Job}
    (hth : th0 ∈ pre ++ (j :: rest) :: post) (ht : t ∈ th0) (hne : t ≠ j) :
    ∃ th ∈ pre ++ (k ++ rest) :: post, t ∈ th := by
  rcases List.mem_append.mp hth with hth | hth
  · exact ⟨th0, List.mem_append_left _ hth, ht⟩
  · rcases List.mem_cons.mp hth with hth | hth
    · subst hth
      rcases List.mem_cons.mp ht with ht | ht
      · exact absurd ht hne
      · exact ⟨k ++ rest, List.mem_append_right _ (List.mem_cons_self _ _),
          List.mem_append_right _ ht⟩
    · exact ⟨th0, List.mem_append_right _ (List.mem_cons_of_mem _ hth), ht⟩

theorem section_spread {s s1 : State} {c : canceler} {e : error}
    (h : c.embedded.cancel s false (some e) = Except.ok s1) :
    Spread e (fun q => q = c.addr) s s1 ∧
      (c.addr < s.cells.length → (s1.cell c.addr).err ≠ none) :=
  cancelAux_false_spread _ s c.embedded e s1 h

/-- A registry entry that a nest of `cancel` calls cancels and leaves in its
registry is the node the nest started at. -/
theorem Shape.new_entry_is_root {s s1 : State} {nodes : List canceler} (h : Shape s nodes)
    {e : error} {a : Nat} (hS : Spread e (fun q => q = a) s s1) {q : Nat} {x : canceler}
    (hx : x ∈ (s1.cell q).children.getD []) (h0 : (s.cell x.addr).err = none)
    (h1 : (s1.cell x.addr).err ≠ none) : x.addr = a := by
  have hq : Kept s s1 q := by
    rcases hS.cells q with hk | hh
    · exact hk
    · rw [hh.2.2.2.1] at hx; simp at hx
  have hx0 : x ∈ (s.cell q).children.getD [] := by rw [← hq.2.2]; exact hx
  rcases (hS.hit_of_err h0 h1).2.2.2.2.2 with hr | ⟨p, y, hp0, hp1, hy, hya⟩
  · exact hr
  · exfalso
    obtain ⟨hpq, _⟩ := h.one_registry hx0 hy hya
    subst hpq
    rw [hq.1] at hp1
    exact hp1 hp0

theorem spread_children_sub {e : error} {A : Nat → Prop} {s s1 : State}
    (hS : Spread e A s s1) {q : Nat} {x : canceler}
    (hx : x ∈ (s1.cell q).children.getD []) : x ∈ (s.cell q).children.getD [] := by
  rcases hS.cells q with hk | hh
  · rw [← hk.2.2]; exact hx
  · rw [hh.2.2.2.1] at hx; simp at hx

theorem Shape.run_shape {s s' : State} {nodes : List canceler} (h : Shape s nodes)
    {j : Job} {k : List Job} (hr : j.run s = Except.ok (s', k)) : Shape s' nodes := by
  cases j with
  | cancel c b e =>
    simp only [Job.run] at hr
    cases hc : c.embedded.cancel s false (some e) with
    | error f => rw [hc] at hr; simp at hr
    | ok s1 =>
      rw [hc] at hr
      simp only [Except.ok.injEq, Prod.mk.injEq] at hr
      rw [← hr.1]; exact h.cancel_shape hc
  | removeChild c =>
    simp only [Job.run, Except.ok.injEq, Prod.mk.injEq] at hr
    rw [← hr.1]
    have F := removeChild_fields s c.parent c
    refine h.fields_shape (removeChild_length _ _ _)
      (fun q => ⟨(F q).1, ?_, ?_, Or.inl (F q).2.1⟩)
    · intro x hx
      rw [(F q).2.2.2.2] at hx
      split at hx
      · exact (mem_getD_map_filter hx).1
      · exact hx
    · intro hn
      rw [(F q).2.2.2.2, hn]
      split <;> rfl
  | stopTimer p =>
    simp only [Job.run, Except.ok.injEq, Prod.mk.injEq] at hr
    rw [← hr.1]
    have F := stopTimer_fields s p
    refine h.fields_shape (stopTimer_length _ _)
      (fun q => ⟨(F q).1, ?_, ?_, Or.inl (F q).2.1⟩)
    · intro x hx; rw [(F q).2.2.1] at hx; exact hx
    · intro hn; rw [(F q).2.2.1]; exact hn
  | arm p dur =>
    simp only [Job.run, Except.ok.injEq, Prod.mk.injEq] at hr
    rw [← hr.1]
    have F := arm_fields s p dur
    refine h.fields_shape (arm_length _ _ _)
      (fun q => ⟨(F q).1, ?_, ?_, Or.inl (F q).2.1⟩)
    · intro x hx; rw [(F q).2.2] at hx; exact hx
    · intro hn; rw [(F q).2.2]; exact hn
  | ret ctx f =>
    simp only [Job.run, Except.ok.injEq, Prod.mk.injEq] at hr
    rw [← hr.1]; exact h

/-- Allocation, `Done()` and the attach section of `propagateCancel` for a
new node below a known parent. -/
theorem Pool.Sound.attach {w : Pool} (hS : w.Sound) {c : canceler}
    (haddr : c.addr = w.st.cells.length) (hpar : c.parent.Below w.st.cells.length)
    {s1 : State} (h : propagateCancel w.st.alloc c.parent c = Except.ok s1) :
    Pool.Sound ⟨s1, c :: w.nodes, w.ctxs, w.funcs, w.running⟩ := by
  have hsh1 : Shape w.st.alloc (c :: w.nodes) := hS.shape.alloc_shape haddr hpar
  have hst : Sticky w.st s1 := (State.alloc_sticky _).andThen (propagateCancel_sticky h)
  have herr : ∀ q, (w.st.cell q).err ≠ none → (s1.cell q).err ≠ none :=
    fun q hq => by rw [(hst.2 q).1 hq]; exact hq
  have FD := Context.Done_fields w.st.alloc c.parent
  have hDerr : ∀ q, ((c.parent.Done w.st.alloc).1.cell q).err = (w.st.cell q).err :=
    fun q => by rw [(FD q).2.2.1, State.alloc_cell]
  have hDch : ∀ q, ((c.parent.Done w.st.alloc).1.cell q).children = (w.st.cell q).children :=
    fun q => by rw [(FD q).2.2.2.1, State.alloc_cell]
  refine ⟨hsh1.propagate_shape (List.mem_cons_self _ _) h, ?_, ?_, ?_, ?_⟩
  · intro x hx
    exact Context.Below.weaken hst.1 (hS.ctxs x hx)
  · intro f hf
    exact ⟨List.mem_cons_of_mem _ (hS.funcs f hf).1, fun hb => herr _ ((hS.funcs f hf).2 hb)⟩
  · intro th hth
    exact (hS.jobs th hth).grow hst (fun x hx => List.mem_cons_of_mem _ hx)
  · intro q x hx hxe
    show ∃ th ∈ w.running, Job.removeChild x ∈ th
    replace hx : x ∈ (s1.cell q).children.getD [] := hx
    replace hxe : (s1.cell x.addr).err ≠ none := hxe
    rcases propagateCancel_cases h with ⟨_, rfl⟩ | ⟨p, e, _, _, hcc⟩ | ⟨p, hpp, hperr, rfl⟩
    · rw [hDch] at hx
      rw [hDerr] at hxe
      exact hS.stale q x hx hxe
    · obtain ⟨hSp, _⟩ := cancelAux_false_spread _ _ c e s1 hcc
      have hx0 : x ∈ (w.st.cell q).children.getD [] := by
        rw [← hDch]; exact spread_children_sub hSp hx
      by_cases h0 : (w.st.cell x.addr).err = none
      · exfalso
        have hroot := (hsh1.done_shape c.parent).new_entry_is_root hSp hx
          (by rw [hDerr]; exact h0) hxe
        have hlt := hS.shape.addr_below (hS.shape.registered q x hx0).1
        rw [hroot, haddr] at hlt
        exact Nat.lt_irrefl _ hlt
      · exact hS.stale q x hx0 h0
    · have F := put_children_fields (c.parent.Done w.st.alloc).1 p
        (mapInsert (((c.parent.Done w.st.alloc).1.cell p).children.getD []) c)
      rw [(F x.addr).1, hDerr] at hxe
      rcases (F q).2.2 with hs | ⟨hqp, hs⟩
      · rw [hs, hDch] at hx
        exact hS.stale q x hx hxe
      · rw [hs, Option.getD_some] at hx
        rcases mem_mapInsert_cases hx with hx | hx
        · subst hqp
          rw [hDch] at hx
          exact hS.stale q x hx hxe
        · exfalso
          rw [hx, haddr, State.cell_fresh] at hxe
          exact hxe rfl

theorem Pool.Sound.after_withCancel {w : Pool} (hS : w.Sound) {parent : Context} {s' : State}
    {ctx : Context} {f : CancelFunc} (hpar : parent ∈ w.ctxs)
    (h : WithCancel w.st parent = Except.ok (s', ctx, f)) :
    Pool.Sound ⟨s', f.ctx :: w.nodes, ctx :: w.ctxs, f :: w.funcs, w.running⟩ := by
  obtain ⟨_, hp, rfl, rfl⟩ := WithCancel_sticky h
  have h1 := hS.attach (c := canceler.cancelCtx parent w.st.cells.length) rfl
    (hS.ctxs parent hpar) hp
  refine ⟨h1.shape, ?_, ?_, h1.jobs, h1.stale⟩
  · intro x hx
    rcases List.mem_cons.mp hx with hx | hx
    · rw [hx]
      exact h1.shape.below (canceler.cancelCtx parent w.st.cells.length)
        (List.mem_cons_self _ _)
    · exact h1.ctxs x hx
  · intro g hg
    rcases List.mem_cons.mp hg with hg | hg
    · rw [hg]
      exact ⟨List.mem_cons_self _ _, fun hb => by simp at hb⟩
    · exact h1.funcs g hg

theorem Pool.Sound.spawn {w : Pool} (hS : w.Sound) {th : List Job}
    (hth : JobsOK w.st w.nodes th) :
    Pool.Sound ⟨w.st, w.nodes, w.ctxs, w.funcs, th :: w.running⟩ := by
  refine ⟨hS.shape, hS.ctxs, hS.funcs, ?_, ?_⟩
  · intro t ht
    rcases List.mem_cons.mp ht with ht | ht
    · rw [ht]; exact hth
    · exact hS.jobs t ht
  · intro q x hx hxe
    obtain ⟨t, ht, hm⟩ := hS.stale q x hx hxe
    exact ⟨t, List.mem_cons_of_mem _ ht, hm⟩

theorem deadlineJobs_ok (s : State) (nodes : List canceler) (c : canceler) (dur : Int)
    (hc : c ∈ nodes) (hb : c.toContext.Below s.cells.length) :
    JobsOK s nodes (deadlineJobs c dur) := by
  unfold deadlineJobs
  split
  · refine ⟨fun c1 b e hj => ?_, fun ctx f hj => ?_⟩
    · simp only [List.mem_cons, Job.cancel.injEq, List.mem_singleton, reduceCtorEq,
        or_false, List.not_mem_nil] at hj
      obtain ⟨rfl, rfl, _⟩ := hj
      exact ⟨hc, fun h => by simp at h⟩
    · simp only [List.mem_cons, reduceCtorEq, Job.ret.injEq, List.mem_singleton, false_or,
        List.not_mem_nil, or_false] at hj
      obtain ⟨rfl, rfl⟩ := hj
      exact ⟨hc, hb, fun _ => Or.inr ⟨timeOutErr, _, rfl⟩⟩
  · refine ⟨fun c1 b e hj => ?_, fun ctx f hj => ?_⟩
    · simp at hj
    · simp only [List.mem_cons, reduceCtorEq, Job.ret.injEq, List.mem_singleton, false_or,
        List.not_mem_nil, or_false] at hj
      obtain ⟨rfl, rfl⟩ := hj
      exact ⟨hc, hb, fun h => by simp at h⟩

theorem afterUnlock_detach (c : canceler) : Job.removeChild c ∈ c.afterUnlock true none := by
  cases c with
  | cancelCtx parent p => simp [canceler.afterUnlock]
  | timerCtx parent p d => simp [canceler.afterUnlock]

/-- A goroutine runs its next job. -/
theorem Pool.Sound.run_job {w : Pool} (hS : w.Sound) {pre post : List (List Job)} {j : Job}
    {rest : List Job} {s' : State} {k : List Job}
    (hrun : w.running = pre ++ (j :: rest) :: post) (hr : j.run w.st = Except.ok (s', k)) :
    Pool.Sound ⟨s', w.nodes, j.ctxs ++ w.ctxs, j.funcs ++ w.funcs,
      pre ++ (k ++ rest) :: post⟩ := by
  have hst : Sticky w.st s' := Job.run_sticky hr
  have herr : ∀ q, (w.st.cell q).err ≠ none → (s'.cell q).err ≠ none :=
    fun q hq => by rw [(hst.2 q).1 hq]; exact hq
  have hmem : (j :: rest) ∈ w.running := by
    rw [hrun]; exact List.mem_append_right _ (List.mem_cons_self _ _)
  have hjobs := hS.jobs _ hmem
  have hleaves := Job.run_leaves hr
  refine ⟨hS.shape.run_shape hr, ?_, ?_, ?_, ?_⟩
  · intro x hx
    show x.Below s'.cells.length
    rcases List.mem_append.mp hx with hx | hx
    · cases j with
      | ret ctx f =>
        simp only [Job.ctxs, List.mem_singleton] at hx
        rw [hx]
        exact Context.Below.weaken hst.1 (hjobs.2 ctx f (List.mem_cons_self _ _)).2.1
      | cancel c b e => simp [Job.ctxs] at hx
      | removeChild c => simp [Job.ctxs] at hx
      | stopTimer p => simp [Job.ctxs] at hx
      | arm p dur => simp [Job.ctxs] at hx
    · exact Context.Below.weaken hst.1 (hS.ctxs x hx)
  · intro g hg
    show g.ctx ∈ w.nodes ∧ (g.removeFromParent = false → (s'.cell g.ctx.addr).err ≠ none)
    rcases List.mem_append.mp hg with hg | hg
    · cases j with
      | ret ctx f =>
        simp only [Job.funcs, List.mem_singleton] at hg
        rw [hg]
        obtain ⟨h1, _, h3⟩ := hjobs.2 ctx f (List.mem_cons_self _ _)
        refine ⟨h1, fun hb => ?_⟩
        rcases h3 hb with h4 | ⟨e, r, h4⟩
        · exact herr _ h4
        · simp at h4
      | cancel c b e => simp [Job.funcs] at hg
      | removeChild c => simp [Job.funcs] at hg
      | stopTimer p => simp [Job.funcs] at hg
      | arm p dur => simp [Job.funcs] at hg
    · exact ⟨(hS.funcs g hg).1, fun hb => herr _ ((hS.funcs g hg).2 hb)⟩
  · intro th hth
    show JobsOK s' w.nodes th
    have hold : ∀ t ∈ pre ++ post, JobsOK s' w.nodes t := by
      intro t ht
      refine (hS.jobs t ?_).grow hst (fun _ hx => hx)
      rw [hrun]
      rcases List.mem_append.mp ht with ht | ht
      · exact List.mem_append_left _ ht
      · exact List.mem_append_right _ (List.mem_cons_of_mem _ ht)
    rcases List.mem_append.mp hth with hth | hth
    · exact hold th (List.mem_append_left _ hth)
    · rcases List.mem_cons.mp hth with hth | hth
      · subst hth
        have hrestOf : ∀ t ∈ k ++ rest, (∀ c, t ≠ Job.removeChild c) →
            (∀ p, t ≠ Job.stopTimer p) → t ∈ rest := by
          intro t ht h1 h2
          rcases List.mem_append.mp ht with ht | ht
          · rcases hleaves t ht with ⟨c, hc⟩ | ⟨p, hp⟩
            · exact absurd hc (h1 c)
            · exact absurd hp (h2 p)
          · exact ht
        refine ⟨fun c b e hj => ?_, fun ctx f hj => ?_⟩
        · have hj' := hrestOf _ hj (fun _ h => by simp at h) (fun _ h => by simp at h)
          obtain ⟨h1, h2⟩ := hjobs.1 c b e (List.mem_cons_of_mem _ hj')
          exact ⟨h1, fun hb => herr _ (h2 hb)⟩
        · have hj' := hrestOf _ hj (fun _ h => by simp at h) (fun _ h => by simp at h)
          obtain ⟨h1, h2, h3⟩ := hjobs.2 ctx f (List.mem_cons_of_mem _ hj')
          refine ⟨h1, Context.Below.weaken hst.1 h2, fun hb => Or.inl ?_⟩
          rcases h3 hb with h4 | ⟨e, r, h4⟩
          · exact herr _ h4
          · simp only [List.cons.injEq] at h4
            obtain ⟨rfl, _⟩ := h4
            simp only [Job.run] at hr
            cases hc : f.ctx.embedded.cancel w.st false (some e) with
            | error g => rw [hc] at hr; simp at hr
            | ok s1 =>
              rw [hc] at hr
              simp only [Except.ok.injEq, Prod.mk.injEq] at hr
              rw [← hr.1]
              exact (section_spread hc).2 (hS.shape.addr_below h1)
      · exact hold th (List.mem_append_right _ hth)
  · intro q x hx hxe
    show ∃ th ∈ pre ++ (k ++ rest) :: post, Job.removeChild x ∈ th
    replace hx : x ∈ (s'.cell q).children.getD [] := hx
    replace hxe : (s'.cell x.addr).err ≠ none := hxe
    have hkeep : x ∈ (w.st.cell q).children.getD [] → (w.st.cell x.addr).err ≠ none →
        Job.removeChild x ≠ j → ∃ th ∈ pre ++ (k ++ rest) :: post, Job.removeChild x ∈ th := by
      intro h1 h2 h3
      obtain ⟨t, ht, hm⟩ := hS.stale q x h1 h2
      rw [hrun] at ht
      exact mem_running_after ht hm h3
    cases j with
    | cancel c b e =>
      simp only [Job.run] at hr
      cases hc : c.embedded.cancel w.st false (some e) with
      | error g => rw [hc] at hr; simp at hr
      | ok s1 =>
        rw [hc] at hr
        simp only [Except.ok.injEq, Prod.mk.injEq] at hr
        obtain ⟨rfl, rfl⟩ := hr
        have hSp := (section_spread hc).1
        have hx0 := spread_children_sub hSp hx
        by_cases h0 : (w.st.cell x.addr).err = none
        · have hroot := hS.shape.new_entry_is_root hSp hx h0 hxe
          obtain ⟨hcn, hcb⟩ := hjobs.1 c b e (List.mem_cons_self _ _)
          have hxc : x = c := hS.shape.unique x (hS.shape.registered q x hx0).1 c hcn hroot
          subst hxc
          cases b with
          | false => exact absurd h0 (hcb rfl)
          | true =>
            refine ⟨_, List.mem_append_right _ (List.mem_cons_self _ _),
              List.mem_append_left _ ?_⟩
            rw [h0]
            exact afterUnlock_detach x
        · exact hkeep hx0 h0 (by simp)
    | removeChild c =>
      simp only [Job.run, Except.ok.injEq, Prod.mk.injEq] at hr
      obtain ⟨rfl, rfl⟩ := hr
      have F := removeChild_fields w.st c.parent c
      rw [(F x.addr).1] at hxe
      rw [(F q).2.2.2.2] at hx
      by_cases hpq : parentCancelCtx c.parent = some q
      · rw [if_pos hpq] at hx
        obtain ⟨hx0, hne⟩ := mem_getD_map_filter hx
        exact hkeep hx0 hxe (by simp only [ne_eq, Job.removeChild.injEq]; exact hne)
      · rw [if_neg hpq] at hx
        refine hkeep hx hxe ?_
        simp only [ne_eq, Job.removeChild.injEq]
        intro hxc
        subst hxc
        exact hpq (hS.shape.registered q x hx).2
    | stopTimer p =>
      simp only [Job.run, Except.ok.injEq, Prod.mk.injEq] at hr
      obtain ⟨rfl, rfl⟩ := hr
      have F := stopTimer_fields w.st p
      rw [(F x.addr).1] at hxe
      rw [(F q).2.2.1] at hx
      exact hkeep hx hxe (by simp)
    | arm p dur =>
      simp only [Job.run, Except.ok.injEq, Prod.mk.injEq] at hr
      obtain ⟨rfl, rfl⟩ := hr
      have F := arm_fields w.st p dur
      rw [(F x.addr).1] at hxe
      rw [(F q).2.2] at hx
      exact hkeep hx hxe (by simp)
    | ret ctx f =>
      simp only [Job.run, Except.ok.injEq, Prod.mk.injEq] at hr
      obtain ⟨rfl, rfl⟩ := hr
      exact hkeep hx hxe (by simp)

theorem Pool.Sound.next {w w' : Pool} (hS : w.Sound) (h : Pool.Step w w') : w'.Sound := by
  cases h with
  | withCancel parent hpar hw => exact hS.after_withCancel hpar hw
  | withValue parent key value hpar hw =>
    unfold WithValue at hw
    split at hw
    · simp at hw
    · simp only [Except.ok.injEq] at hw
      subst hw
      refine ⟨hS.shape, ?_, hS.funcs, hS.jobs, hS.stale⟩
      intro x hx
      rcases List.mem_cons.mp hx with hx | hx
      · rw [hx]; exact hS.ctxs parent hpar
      · exact hS.ctxs x hx
  | degrade now parent deadline hpar hdl hw =>
    unfold WithDeadline at hw
    rw [if_pos hdl] at hw
    exact hS.after_withCancel hpar hw
  | withDeadline now parent deadline hpar _ hp =>
    have h1 := hS.attach (c := canceler.timerCtx parent w.st.cells.length deadline) rfl
      (hS.ctxs parent hpar) hp
    exact h1.spawn (deadlineJobs_ok _ _ _ _ (List.mem_cons_self _ _)
      (h1.shape.below _ (List.mem_cons_self _ _)))
  | call f hf =>
    refine hS.spawn ⟨fun c b e hj => ?_, fun ctx g hj => by simp at hj⟩
    simp only [List.mem_singleton, Job.cancel.injEq] at hj
    obtain ⟨rfl, rfl, _⟩ := hj
    exact hS.funcs f hf
  | fire parent p d hc _ =>
    refine hS.spawn ⟨fun c b e hj => ?_, fun ctx g hj => by simp at hj⟩
    simp only [List.mem_singleton, Job.cancel.injEq] at hj
    obtain ⟨rfl, rfl, _⟩ := hj
    exact ⟨hc, fun h => by simp at h⟩
  | done c _ =>
    have F := Context.Done_fields w.st c
    have hst := Context.Done_sticky w.st c
    refine ⟨hS.shape.done_shape c, ?_, ?_, ?_, ?_⟩
    · intro x hx
      exact Context.Below.weaken hst.1 (hS.ctxs x hx)
    · intro f hf
      refine ⟨(hS.funcs f hf).1, fun hb => ?_⟩
      show ((c.Done w.st).1.cell f.ctx.addr).err ≠ none
      rw [(F _).2.2.1]; exact (hS.funcs f hf).2 hb
    · intro th hth
      exact (hS.jobs th hth).grow hst (fun _ hx => hx)
    · intro q x hx hxe
      replace hx : x ∈ ((c.Done w.st).1.cell q).children.getD [] := hx
      replace hxe : ((c.Done w.st).1.cell x.addr).err ≠ none := hxe
      rw [(F q).2.2.2.1] at hx
      rw [(F _).2.2.1] at hxe
      exact hS.stale q x hx hxe
  | run pre post j rest hrun hr => exact hS.run_job hrun hr

theorem Pool.Sound.start : Pool.Sound ⟨⟨[], []⟩, [], [Background], [], []⟩ := by
  have hcell : ∀ q, (State.mk [] []).cell q = default :=
    fun q => State.cell_default _ q (Nat.zero_le _)
  refine ⟨⟨?_, ?_, ?_, ?_, ?_, ?_⟩, ?_, ?_, ?_, ?_⟩
  · intro c hc; simp at hc
  · intro c hc; simp at hc
  · intro q x hx
    rw [hcell] at hx; simp [default] at hx
  · intro q _
    rw [hcell]; exact Or.inl rfl
  · intro q hq
    rw [hcell] at hq; exact absurd rfl hq
  · intro q hq
    rw [hcell] at hq; exact absurd rfl hq
  · intro x hx
    rw [List.mem_singleton.mp hx]; trivial
  · intro f hf; simp at hf
  · intro th hth; simp at hth
  · intro q x hx
    replace hx : x ∈ ((State.mk [] []).cell q).children.getD [] := hx
    rw [hcell] at hx; simp [default] at hx

/-- Every interleaved pool satisfies the invariant. -/
theorem Interleaved.sound {w : Pool} (h : Interleaved w) : w.Sound := by
  induction h with
  | init => exact Pool.Sound.start
  | step _ hs ih => exact ih.next hs

theorem detachPending_interleaved : Interleaved detachPending := by
  have h0 := Interleaved.init
  have h1 := Interleaved.step h0
    (Pool.Step.withDeadline _ 0 Context.empty 10 (by decide) (by decide) rfl)
  have h2 := Interleaved.step h1
    (Pool.Step.run _ [] [] (Job.arm 0 10)
      [Job.ret (Context.timerCtx Context.empty 0 10) ⟨canceler.timerCtx Context.empty 0 10, true⟩]
      rfl rfl)
  have h3 := Interleaved.step h2
    (Pool.Step.run _ [] []
      (Job.ret (Context.timerCtx Context.empty 0 10) ⟨canceler.timerCtx Context.empty 0 10, true⟩)
      [] rfl rfl)
  have h4 := Interleaved.step h3
    (Pool.Step.withCancel _ (Context.timerCtx Context.empty 0 10) (by decide) rfl)
  have h5 := Interleaved.step h4
    (Pool.Step.call _ ⟨canceler.cancelCtx (Context.timerCtx Context.empty 0 10) 1, true⟩
      (by decide))
  have h6 := Interleaved.step h5
    (Pool.Step.run _ [] [[]]
      (Job.cancel (canceler.cancelCtx (Context.timerCtx Context.empty 0 10) 1) true canceled)
      [] rfl rfl)
  exact h6

/-! ## Goroutines: the claims about registries -/

theorem cancel_eq_section (s : State) (c : canceler) (b : Bool) (e : error) :
    c.cancel s b (some e) =
      match c.embedded.cancel s false (some e) with
      | Except.error f => Except.error f
      | Except.ok s1 => Except.ok (c.finish b (s.cell c.addr).err s1) := by
  cases c with
  | cancelCtx parent p =>
    exact cancelCtx_cancel_flag _ s parent p b (some e)
  | timerCtx parent p d => rfl

theorem runAll_cancel (s : State) (c : canceler) (b : Bool) (e : error) :
    runAll 3 s [Job.cancel c b e] = c.cancel s b (some e) := by
  rw [cancel_eq_section]
  simp only [runAll, Job.run]
  cases hc : c.embedded.cancel s false (some e) with
  | error f => rfl
  | ok s1 =>
    cases c with
    | cancelCtx parent p =>
      by_cases h : b = true ∧ (s.cell p).err = none
      · simp [canceler.afterUnlock, canceler.finish, canceler.addr, canceler.parent, h, runAll,
          Job.run]
      · simp [canceler.afterUnlock, canceler.finish, canceler.addr, h, runAll]
    | timerCtx parent p d =>
      cases b <;>
        simp [canceler.afterUnlock, canceler.finish, canceler.parent, runAll, Job.run]

theorem WithDeadline_eq_jobs (s : State) (now : Time) (parent : Context) (deadline : Time)
    (hdl : ¬ (parent.Deadline.2 = true ∧ parent.Deadline.1 < deadline)) :
    WithDeadline s now parent deadline =
      match propagateCancel s.alloc parent
          (canceler.timerCtx parent s.cells.length deadline) with
      | Except.error f => Except.error f
      | Except.ok s1 =>
        match runAll 4 s1
            (deadlineJobs (canceler.timerCtx parent s.cells.length deadline)
              (deadline - now)) with
        | Except.error f => Except.error f
        | Except.ok s2 =>
          Except.ok (s2, Context.timerCtx parent s.cells.length deadline,
            ⟨canceler.timerCtx parent s.cells.length deadline, decide (0 < deadline - now)⟩) := by
  unfold WithDeadline
  rw [if_neg hdl]
  simp only
  cases hp : propagateCancel s.alloc parent
      (canceler.timerCtx parent s.cells.length deadline) with
  | error f => rfl
  | ok s1 =>
    simp only
    by_cases hdur : deadline - now ≤ 0
    · have hflag : decide (0 < deadline - now) = false := by
        simp only [decide_eq_false_iff_not, not_lt]; exact hdur
      rw [if_pos hdur, hflag]
      unfold deadlineJobs
      rw [if_pos hdur]
      have hc := cancel_eq_section s1 (canceler.timerCtx parent s.cells.length deadline) true
        timeOutErr
      rw [hc]
      simp only [runAll, Job.run]
      cases (canceler.timerCtx parent s.cells.length deadline).embedded.cancel s1 false
          (some timeOutErr) with
      | error f => rfl
      | ok s2 =>
        simp [canceler.afterUnlock, canceler.finish, canceler.parent, canceler.toContext,
          runAll, Job.run]
    · have hflag : decide (0 < deadline - now) = true := by
        simp only [decide_eq_true_eq]; exact lt_of_not_ge hdur
      rw [if_neg hdur, hflag]
      unfold deadlineJobs
      rw [if_neg hdur]
      simp [runAll, Job.run, canceler.addr, canceler.toContext]

theorem handedCtxs_leaves {k : List Job}
    (hk : ∀ t ∈ k, (∃ c, t = Job.removeChild c) ∨ ∃ p, t = Job.stopTimer p)
    (acc : List Context) : handedCtxs k acc = acc := by
  induction k generalizing acc with
  | nil => rfl
  | cons t rest ih =>
    have ht : t.ctxs = [] := by
      rcases hk t (List.mem_cons_self _ _) with ⟨c, rfl⟩ | ⟨p, rfl⟩ <;> rfl
    show handedCtxs rest (t.ctxs ++ acc) = acc
    rw [ht]
    exact ih (fun x hx => hk x (List.mem_cons_of_mem _ hx)) acc

theorem handedFuncs_leaves {k : List Job}
    (hk : ∀ t ∈ k, (∃ c, t = Job.removeChild c) ∨ ∃ p, t = Job.stopTimer p)
    (acc : List CancelFunc) : handedFuncs k acc = acc := by
  induction k generalizing acc with
  | nil => rfl
  | cons t rest ih =>
    have ht : t.funcs = [] := by
      rcases hk t (List.mem_cons_self _ _) with ⟨c, rfl⟩ | ⟨p, rfl⟩ <;> rfl
    show handedFuncs rest (t.funcs ++ acc) = acc
    rw [ht]
    exact ih (fun x hx => hk x (List.mem_cons_of_mem _ hx)) acc

/-- A goroutine that runs all its jobs with no step of another goroutine in
between is a run of the pool. -/
theorem Interleaved.run_all : ∀ (n : Nat) (th : List Job) (s : State) (nodes : List canceler)
    (ctxs : List Context) (funcs : List CancelFunc) (others : List (List Job)) (s' : State),
    Interleaved ⟨s, nodes, ctxs, funcs, th :: others⟩ → runAll n s th = Except.ok s' →
    Interleaved ⟨s', nodes, handedCtxs th ctxs, handedFuncs th funcs, [] :: others⟩ := by
  intro n
  induction n with
  | zero =>
    intro th s nodes ctxs funcs others s' hw hr
    cases th with
    | nil =>
      simp only [runAll, Except.ok.injEq] at hr
      subst hr; exact hw
    | cons j rest => simp [runAll] at hr
  | succ n ih =>
    intro th s nodes ctxs funcs others s' hw hr
    cases th with
    | nil =>
      simp only [runAll, Except.ok.injEq] at hr
      subst hr; exact hw
    | cons j rest =>
      simp only [runAll] at hr
      cases hj : j.run s with
      | error f => rw [hj] at hr; simp at hr
      | ok r =>
        rw [hj] at hr
        simp only at hr
        have hstep := Interleaved.step hw
          (Pool.Step.run ⟨s, nodes, ctxs, funcs, (j :: rest) :: others⟩ [] others j rest rfl
            (show j.run s = Except.ok (r.1, r.2) from hj))
        have h2 := ih (r.2 ++ rest) r.1 nodes (j.ctxs ++ ctxs) (j.funcs ++ funcs) others s'
          hstep hr
        have hl := Job.run_leaves (show j.run s = Except.ok (r.1, r.2) from hj)
        have e1 : handedCtxs (r.2 ++ rest) (j.ctxs ++ ctxs) = handedCtxs (j :: rest) ctxs := by
          unfold handedCtxs
          rw [List.foldl_append]
          show handedCtxs rest (handedCtxs r.2 (j.ctxs ++ ctxs)) = _
          rw [handedCtxs_leaves hl]; rfl
        have e2 : handedFuncs (r.2 ++ rest) (j.funcs ++ funcs) =
            handedFuncs (j :: rest) funcs := by
          unfold handedFuncs
          rw [List.foldl_append]
          show handedFuncs rest (handedFuncs r.2 (j.funcs ++ funcs)) = _
          rw [handedFuncs_leaves hl]; rfl
        rw [e1, e2] at h2
        exact h2

/-- The worlds of `Reachable`, where every call runs to its end before the
next one starts, are the pools in which no call is in progress and every call
so far has run its jobs back to back. -/
theorem Reachable.interleaved {w : World} (h : Reachable w) :
    ∃ nodes running, Interleaved ⟨w.st, nodes, w.ctxs, w.funcs, running⟩ ∧
      (∀ th ∈ running, th = []) ∧ (∀ c : canceler, c.toContext ∈ w.ctxs → c ∈ nodes) := by
  induction h with
  | init =>
    refine ⟨[], [], Interleaved.init, fun th hth => by simp at hth, fun c hc => ?_⟩
    cases c <;> simp [canceler.toContext, Background] at hc
  | @withCancel w parent s' ctx f _ hpar hw ih =>
    obtain ⟨nodes, running, hI, hq, hn⟩ := ih
    obtain ⟨_, _, hctx, hf⟩ := WithCancel_sticky hw
    refine ⟨f.ctx :: nodes, running,
      Interleaved.step hI (Pool.Step.withCancel ⟨w.st, nodes, w.ctxs, w.funcs, running⟩ parent
        hpar hw), hq, fun c hc => ?_⟩
    rcases List.mem_cons.mp hc with hc | hc
    · rw [hctx] at hc
      rw [hf]
      have : c = canceler.cancelCtx parent w.st.cells.length := canceler.toContext_inj hc
      rw [this]; exact List.mem_cons_self _ _
    · exact List.mem_cons_of_mem _ (hn c hc)
  | @withValue w parent key value ctx _ hpar hw ih =>
    obtain ⟨nodes, running, hI, hq, hn⟩ := ih
    refine ⟨nodes, running,
      Interleaved.step hI (Pool.Step.withValue ⟨w.st, nodes, w.ctxs, w.funcs, running⟩ parent
        key value hpar hw), hq, fun c hc => ?_⟩
    rcases List.mem_cons.mp hc with hc | hc
    · exfalso
      unfold WithValue at hw
      split at hw
      · simp at hw
      · simp only [Except.ok.injEq] at hw
        rw [← hw] at hc
        cases c <;> simp [canceler.toContext] at hc
    · exact hn c hc
  | @withDeadline w now parent deadline s' ctx f _ hpar hw ih =>
    obtain ⟨nodes, running, hI, hq, hn⟩ := ih
    by_cases hdl : parent.Deadline.2 = true ∧ parent.Deadline.1 < deadline
    · have hw2 : WithCancel w.st parent = Except.ok (s', ctx, f) := by
        unfold WithDeadline at hw
        rw [if_pos hdl] at hw
        exact hw
      obtain ⟨_, _, hctx, hf⟩ := WithCancel_sticky hw2
      refine ⟨f.ctx :: nodes, running,
        Interleaved.step hI (Pool.Step.degrade ⟨w.st, nodes, w.ctxs, w.funcs, running⟩ now
          parent deadline hpar hdl hw), hq, fun c hc => ?_⟩
      rcases List.mem_cons.mp hc with hc | hc
      · rw [hctx] at hc
        rw [hf]
        have : c = canceler.cancelCtx parent w.st.cells.length := canceler.toContext_inj hc
        rw [this]; exact List.mem_cons_self _ _
      · exact List.mem_cons_of_mem _ (hn c hc)
    · rw [WithDeadline_eq_jobs w.st now parent deadline hdl] at hw
      cases hp : propagateCancel w.st.alloc parent
          (canceler.timerCtx parent w.st.cells.length deadline) with
      | error e => rw [hp] at hw; simp at hw
      | ok s1 =>
        rw [hp] at hw
        simp only at hw
        cases hr : runAll 4 s1
            (deadlineJobs (canceler.timerCtx parent w.st.cells.length deadline)
              (deadline - now)) with
        | error e => rw [hr] at hw; simp at hw
        | ok s2 =>
          rw [hr] at hw
          simp only [Except.ok.injEq, Prod.mk.injEq] at hw
          obtain ⟨rfl, rfl, rfl⟩ := hw
          have h1 := Interleaved.step hI
            (Pool.Step.withDeadline ⟨w.st, nodes, w.ctxs, w.funcs, running⟩ now parent deadline
              hpar hdl hp)
          have h2 := Interleaved.run_all 4 _ _ _ _ _ _ _ h1 hr
          have e1 : handedCtxs
              (deadlineJobs (canceler.timerCtx parent w.st.cells.length deadline)
                (deadline - now)) w.ctxs =
              Context.timerCtx parent w.st.cells.length deadline :: w.ctxs := by
            unfold deadlineJobs
            split <;> rfl
          have e2 : handedFuncs
              (deadlineJobs (canceler.timerCtx parent w.st.cells.length deadline)
                (deadline - now)) w.funcs =
              ⟨canceler.timerCtx parent w.st.cells.length deadline,
                decide (0 < deadline - now)⟩ :: w.funcs := by
            unfold deadlineJobs
            by_cases hdur : deadline - now ≤ 0
            · rw [if_pos hdur]
              have : decide (0 < deadline - now) = false := by
                simp only [decide_eq_false_iff_not, not_lt]; exact hdur
              rw [this]; rfl
            · rw [if_neg hdur]
              have : decide (0 < deadline - now) = true := by
                simp only [decide_eq_true_eq]; exact lt_of_not_ge hdur
              rw [this]; rfl
          change Interleaved ⟨s2, _, handedCtxs _ w.ctxs, handedFuncs _ w.funcs, _⟩ at h2
          rw [e1, e2] at h2
          refine ⟨_, _, h2, fun th hth => ?_, fun c hc => ?_⟩
          · rcases List.mem_cons.mp hth with hth | hth
            · exact hth
            · exact hq th hth
          · rcases List.mem_cons.mp hc with hc | hc
            · have : c = canceler.timerCtx parent w.st.cells.length deadline :=
                canceler.toContext_inj hc
              rw [this]; exact List.mem_cons_self _ _
            · exact List.mem_cons_of_mem _ (hn c hc)
  | @call w f s' _ hf hw ih =>
    obtain ⟨nodes, running, hI, hq, hn⟩ := ih
    have h1 := Interleaved.step hI
      (Pool.Step.call ⟨w.st, nodes, w.ctxs, w.funcs, running⟩ f hf)
    have hr : runAll 3 w.st [Job.cancel f.ctx f.removeFromParent canceled] = Except.ok s' := by
      rw [runAll_cancel]; exact hw
    have h2 := Interleaved.run_all 3 _ _ _ _ _ _ _ h1 hr
    refine ⟨_, _, h2, fun th hth => ?_, hn⟩
    rcases List.mem_cons.mp hth with hth | hth
    · exact hth
    · exact hq th hth
  | @fire w parent p d s' _ hc ht hw ih =>
    obtain ⟨nodes, running, hI, hq, hn⟩ := ih
    have h1 := Interleaved.step hI
      (Pool.Step.fire ⟨w.st, nodes, w.ctxs, w.funcs, running⟩ parent p d
        (hn (canceler.timerCtx parent p d) hc) ht)
    have hr : runAll 3 w.st [Job.cancel (canceler.timerCtx parent p d) true timeOutErr] =
        Except.ok s' := by
      rw [runAll_cancel]; exact hw
    have h2 := Interleaved.run_all 3 _ _ _ _ _ _ _ h1 hr
    refine ⟨_, _, h2, fun th hth => ?_, hn⟩
    rcases List.mem_cons.mp hth with hth | hth
    · exact hth
    · exact hq th hth
  | @done w c _ hc ih =>
    obtain ⟨nodes, running, hI, hq, hn⟩ := ih
    exact ⟨nodes, running,
      Interleaved.step hI (Pool.Step.done ⟨w.st, nodes, w.ctxs, w.funcs, running⟩ c hc), hq, hn⟩

/-- C20, the claim as stated fails in the pool `detachPending`: `cancelD()`
has set the error of `d` and released the lock, its `removeChild` has not run
yet, and `d` is an entry of the registry of `n`. -/
theorem C20_counterexample :
    Interleaved detachPending ∧
    pendingChild ∈ (detachPending.st.cell 0).children.getD [] ∧
    pendingChild.toContext.Err detachPending.st = some canceled ∧
    ¬ (∀ q, ∀ x ∈ (detachPending.st.cell q).children.getD [],
      x.toContext.Err detachPending.st = none) :=
  ⟨detachPending_interleaved, by decide, by decide,
    fun h => absurd (h 0 pendingChild (by decide)) (by decide)⟩

/-- C20 (as amended). In every pool reachable through the public operations,
the locked sections of the calls in progress interleaved in any order, an
entry `x` of a children registry is an entry of the registry of its nearest
cancelable ancestor and of no other registry; its error is unset unless a
`cancel` of `x` has left its locked section and has its `removeChild` still to
run, and so it is unset whenever no call is in progress. -/
theorem C20_registry_entries_live_or_detaching {w : Pool} (hw : Interleaved w) (q : Nat)
    (x : canceler) (hx : x ∈ (w.st.cell q).children.getD []) :
    parentCancelCtx x.parent = some q ∧
    (∀ q' y, y ∈ (w.st.cell q').children.getD [] → y.addr = x.addr → q' = q ∧ y = x) ∧
    (x.toContext.Err w.st ≠ none → ∃ th ∈ w.running, Job.removeChild x ∈ th) ∧
    (w.quiet → x.toContext.Err w.st = none) := by
  have hS := hw.sound
  have hst : x.toContext.Err w.st ≠ none → ∃ th ∈ w.running, Job.removeChild x ∈ th := by
    intro he
    rw [canceler.Err_toContext] at he
    exact hS.stale q x hx he
  refine ⟨(hS.shape.registered q x hx).2, fun q' y hy ha => hS.shape.one_registry hx hy ha,
    hst, fun hq => ?_⟩
  by_contra he
  obtain ⟨th, hth, hm⟩ := hst he
  rw [hq th hth] at hm
  exact List.not_mem_nil _ hm

/-- C20 (as amended) in the pool `detachPending`, at the entry `d` of the
registry of `n`. -/
theorem C20_witness :
    Interleaved detachPending ∧
    pendingChild ∈ (detachPending.st.cell 0).children.getD [] ∧
    (parentCancelCtx pendingChild.parent = some 0 ∧
    (∀ q' y, y ∈ (detachPending.st.cell q').children.getD [] →
      y.addr = pendingChild.addr → q' = 0 ∧ y = pendingChild) ∧
    (pendingChild.toContext.Err detachPending.st ≠ none →
      ∃ th ∈ detachPending.running, Job.removeChild pendingChild ∈ th) ∧
    (detachPending.quiet → pendingChild.toContext.Err detachPending.st = none)) :=
  ⟨detachPending_interleaved, by decide,
    C20_registry_entries_live_or_detaching detachPending_interleaved 0 pendingChild
      (by decide)⟩

end myContext
